import Mathlib

/-!
# Gameplay video analyzer: annotation store, CSV codec and conflict model

A shallow embedding of `src/components/AnnotationTimeline.jsx` and
`src/components/VideoPlayer.jsx`.

Conventions of the embedding.

* A JavaScript string is the list of its characters (`Str`).
* A finite JavaScript number is an exact rational; every non-finite number
  (`NaN`, `Infinity`, `-Infinity`) is the single value `JSValue.nonFinite`.
  Arithmetic is therefore exact: rounding of IEEE doubles is not modelled.
* `String.prototype.toLowerCase` depends on the Unicode tables of the runtime,
  which are not part of the repository: it is a parameter `lower : Str → Str`
  of every definition that uses it.  `asciiLower` is the instance used for
  concrete evaluations.
* The record identifier `crypto.randomUUID()` is modelled by a counter kept
  next to the store, so that identifiers are process-unique and increase with
  creation time.  The fallback `Date.now()` of a runtime without
  `crypto.randomUUID` is not modelled.
* React state: `setAnnotations` queues an update, and the component renders
  again only after the running task has finished.  A listener installed by
  `useEffect(..., [annotations])` reads the `annotations` of the render that
  installed it; a functional updater `(prev) => ...` reads the pending state.
  The handlers below therefore take the captured state and the pending state
  as two arguments, and `step` renders after every task.
* The display strings `startTime` / `endTime` of a record are derived from the
  keys once, at creation, by floating point formatting and are read by no
  operation of the store; they are left out of the record.
-/

namespace Analyzer

/-! ## Strings and numbers of the runtime -/

/-- A JavaScript string, as the list of its characters. -/
abbrev Str := List Char

/-- The characters removed by `String.prototype.trim`: the `WhiteSpace` and
`LineTerminator` code points of ECMAScript. -/
def isWhiteSpace (c : Char) : Bool :=
  let n := c.toNat
  n == 0x09 || n == 0x0A || n == 0x0B || n == 0x0C || n == 0x0D || n == 0x20 ||
  n == 0xA0 || n == 0x1680 || (0x2000 ≤ n && n ≤ 0x200A) || n == 0x2028 ||
  n == 0x2029 || n == 0x202F || n == 0x205F || n == 0x3000 || n == 0xFEFF

/-- The method `String.prototype.trim`. -/
def jsTrim (s : Str) : Str :=
  (s.dropWhile isWhiteSpace).rdropWhile isWhiteSpace

/-- Lowercasing of the ASCII letters, the part of `toLowerCase` that does not
depend on the Unicode tables. -/
def asciiLower (s : Str) : Str := s.map Char.toLower

/-- The values that reach the numeric positions of the code: `undefined`,
`null`, a finite number, or a non-finite number (`NaN`, `±Infinity`). -/
inductive JSValue where
  | undefined
  | null
  | num (q : ℚ)
  | nonFinite
deriving DecidableEq

/-- The function `Math.round`: the nearest integer, ties towards `+∞`. -/
def mathRound (x : ℚ) : ℤ := ⌊x + 1 / 2⌋

/-- The global function `isFinite(v)`: `ToNumber(v)` is finite.  `null`
converts to `0`, `undefined` to `NaN`. -/
def isFiniteGlobal : JSValue → Bool
  | .undefined => false
  | .null => true
  | .num _ => true
  | .nonFinite => false

/-- The double quote character. -/
def dq : Char := Char.ofNat 34

/-- The line feed character. -/
def lf : Char := Char.ofNat 10

/-- The carriage return character. -/
def cr : Char := Char.ofNat 13

/-- The string `String(n)` for a non-negative integer `n`: its decimal digits. -/
def natToStr (n : ℕ) : Str := Nat.toDigits 10 n

/-- The string `String(n)` for an integer `n`. -/
def intToStr (n : ℤ) : Str :=
  if n < 0 then '-' :: natToStr n.natAbs else natToStr n.natAbs

/-- The conversion `ToNumber` on the values of `JSValue`; `none` is a non-finite number. -/
def toNumber : JSValue → Option ℚ
  | .undefined => none
  | .null => some 0
  | .num q => some q
  | .nonFinite => none

/-- The call `s.padStart(2, "0")`. -/
def padStart2 (s : Str) : Str :=
  List.replicate (2 - s.length) '0' ++ s

/-- The frame rate `FPS` of both components. -/
def FPS : ℚ := 30

/-! ## AnnotationTimeline.jsx -/

namespace AnnotationTimeline

/-- Source: `const frameKey = (t) => (Number.isFinite(t) ? Math.round(t * FPS) / FPS : 0)`.
`Number.isFinite` is false for everything that is not a finite number. -/
def frameKey : JSValue → ℚ
  | .num t => (mathRound (t * FPS) : ℚ) / FPS
  | _ => 0

/-- Source: `const normalize = (s) => (s ?? "").trim().toLowerCase()`, on a string. -/
def normalize (lower : Str → Str) (s : Str) : Str := lower (jsTrim s)

end AnnotationTimeline

/-- An annotation record of the timeline (`newAnn` in the source). -/
structure Ann where
  id : Nat
  startKey : ℚ
  endKey : Option ℚ
  tagName : Str
  modifier : Str
  down : Str
deriving DecidableEq

/-- The `detail` of a `vp:add-annotation` event.  A missing field is
`undefined` (`none` for the text fields). -/
structure Detail where
  start : JSValue
  end_ : JSValue
  tag : Option Str
  modifier : Option Str
  down : Option Str
deriving DecidableEq

namespace AnnotationTimeline

/-- The function `hasTagAtStart`: some record of `annotations` has this `startKey` and a
`normalize`-equal tag.  `annotations` is the state captured by the closure. -/
def hasTagAtStart (lower : Str → Str) (annotations : List Ann) (tagName : Str)
    (startKey : ℚ) : Bool :=
  annotations.any fun a =>
    decide (a.startKey = startKey) &&
      decide (normalize lower a.tagName = normalize lower tagName)

/-- The body of the `vp:add-annotation` listener up to `setAnnotations`: the
record `newAnn` it builds, or `none` when it returns early.  `annotations` is
the state captured by the listener, `id` the fresh identifier. -/
def addAnnotationHandler (lower : Str → Str) (annotations : List Ann) (id : Nat)
    (d : Detail) : Option Ann :=
  match d.start with
  | .num _ =>
    let startKey := frameKey d.start
    let endKey := if isFiniteGlobal d.end_ then some (frameKey d.end_) else none
    let tagName := jsTrim (d.tag.getD [])
    let mod := jsTrim (d.modifier.getD [])
    let dn := jsTrim (d.down.getD [])
    if tagName ≠ [] ∧ hasTagAtStart lower annotations tagName startKey then none
    else some
      { id := id, startKey := startKey, endKey := endKey, tagName := tagName,
        modifier := mod, down := dn }
  | _ => none

/-- The state updater of both creation paths:
`(prev) => { const next = [...prev, newAnn]; next.sort((a, b) => a.startKey - b.startKey); return next; }`.
`Array.prototype.sort` is stable, and so is insertion sort. -/
def insertSorted (newAnn : Ann) (prev : List Ann) : List Ann :=
  (prev ++ [newAnn]).insertionSort fun a b => a.startKey ≤ b.startKey

/-- Source: `const ACTIONS = { s: "SPIN", j: "JUKE", t: "TACKLE" }`, looked up by key. -/
def ACTIONS (k : Str) : Option Str :=
  if k = ['s'] then some "SPIN".toList
  else if k = ['j'] then some "JUKE".toList
  else if k = ['t'] then some "TACKLE".toList
  else none

/-- The body of the `keydown` listener (`onKey`) up to `setAnnotations`.
`typing` is `typing(document.activeElement)`, `key` is `e.key`, and
`currentTime` is the `currentTime` prop of the component. -/
def onKey (lower : Str → Str) (annotations : List Ann) (currentTime : JSValue)
    (id : Nat) (typing : Bool) (key : Str) : Option Ann :=
  if typing then none
  else
    match ACTIONS (lower key) with
    | none => none
    | some tagName =>
      let startKey := frameKey currentTime
      if hasTagAtStart lower annotations tagName startKey then none
      else some
        { id := id, startKey := startKey, endKey := none, tagName := tagName,
          modifier := [], down := [] }

/-- The function `removeAnnotation`: `p.filter((a) => a.id !== id)`. -/
def removeAnnotation (id : Nat) (p : List Ann) : List Ann :=
  p.filter fun a => decide (a.id ≠ id)

/-- The function `updateModifier`: `p.map((a) => a.id === id ? { ...a, modifier: val } : a)`. -/
def updateModifier (id : Nat) (val : Str) (p : List Ann) : List Ann :=
  p.map fun a => if a.id = id then { a with modifier := val } else a

/-- The function `updateDown`: `p.map((a) => a.id === id ? { ...a, down: val } : a)`. -/
def updateDown (id : Nat) (val : Str) (p : List Ann) : List Ann :=
  p.map fun a => if a.id = id then { a with down := val } else a

/-- The function `updateTagName`: find the record, refuse a rename that would duplicate
another record at the same start, otherwise rewrite the tag. -/
def updateTagName (lower : Str → Str) (id : Nat) (val : Str) (prev : List Ann) :
    List Ann :=
  match prev.find? fun a => decide (a.id = id) with
  | none => prev
  | some t =>
    let duplicate := prev.any fun a =>
      decide (a.id ≠ id) && decide (a.startKey = t.startKey) &&
        decide (normalize lower a.tagName = normalize lower val)
    if duplicate then prev
    else prev.map fun a => if a.id = id then { a with tagName := val } else a

/-- The function `deleteSelected`: nothing when the selection is empty, otherwise
`prev.filter((a) => !selected.has(a.id))`. -/
def deleteSelected (selected : List Nat) (prev : List Ann) : List Ann :=
  if selected.isEmpty then prev
  else prev.filter fun a => !selected.contains a.id

/-- The function `fmtMdotS`: whole minutes, a point, and the seconds on two digits.
`Math.floor(total / 60)` is the floor division and `total % 60` the remainder
with the sign of the dividend. -/
def fmtMdotS (s : JSValue) : Str :=
  match toNumber s with
  | none => "0.00".toList
  | some q =>
    let total : ℤ := ⌊q⌋
    let m : ℤ := total / 60
    let sec : ℤ := total.tmod 60
    intToStr m ++ '.' :: padStart2 (intToStr sec)

/-- The function `esc` of `toCSV`: a field with a double quote, a comma or a line feed is
wrapped in double quotes, its double quotes doubled. -/
def esc (s : Str) : Str :=
  if s.any fun c => c == dq || c == ',' || c == lf then
    dq :: (s.flatMap fun c => if c = dq then [dq, dq] else [c]) ++ [dq]
  else s

/-- The five exported fields of a record, before escaping. -/
def rowFields (r : Ann) : List Str :=
  [r.tagName, fmtMdotS (.num r.startKey),
    match r.endKey with
    | some e => fmtMdotS (.num e)
    | none => [],
    r.modifier, r.down]

/-- The header line of the export. -/
def csvHeader : List Str :=
  ["TagName".toList, "StartTime".toList, "EndTime".toList, "Modifiers".toList,
    "Down".toList]

/-- The function `toCSV`: the header line and one line per record, joined by line feeds. -/
def toCSV (rows : List Ann) : Str :=
  [lf].intercalate
    ([','].intercalate csvHeader ::
      rows.map fun r => [','].intercalate ((rowFields r).map esc))

end AnnotationTimeline

/-! ## VideoPlayer.jsx -/

namespace VideoPlayer

/-- Source: `const frameKey = (t) => Math.round(t * FPS) / FPS`, on a finite time. -/
def frameKey (t : ℚ) : ℚ := (mathRound (t * FPS) : ℚ) / FPS

/-- The regular expression class `\d`. -/
def isDecimalDigit (c : Char) : Bool := decide ('0' ≤ c) && decide (c ≤ '9')

/-- The value of a string of decimal digits. -/
def decimalValue (ds : Str) : ℕ :=
  ds.foldl (fun acc c => 10 * acc + (c.toNat - 48)) 0

/-- The value of a digit of a radix up to sixteen, if it is one. -/
def radixDigit (base : ℕ) (c : Char) : Option ℕ :=
  let v :=
    if isDecimalDigit c then c.toNat - 48
    else if decide ('a' ≤ c) && decide (c ≤ 'f') then c.toNat - 87
    else if decide ('A' ≤ c) && decide (c ≤ 'F') then c.toNat - 55
    else 16
  if v < base then some v else none

/-- The value of a non-empty string of digits of the given radix. -/
def radixValue (base : ℕ) (ds : Str) : Option ℕ :=
  if ds = [] then none
  else ds.foldl (fun acc c => acc.bind fun a => (radixDigit base c).map fun v => base * a + v)
    (some 0)

/-- A `NonDecimalIntegerLiteral` of `StringToNumber`: `0x`, `0o` or `0b` and
at least one digit of that radix. -/
def nonDecimal (s : Str) : Option ℕ :=
  match s with
  | '0' :: p :: ds =>
    if p = 'x' ∨ p = 'X' then radixValue 16 ds
    else if p = 'o' ∨ p = 'O' then radixValue 8 ds
    else if p = 'b' ∨ p = 'B' then radixValue 2 ds
    else none
  | _ => none

/-- An optional `ExponentPart` that must reach the end of the string. -/
def exponentPart (s : Str) : Option ℤ :=
  match s with
  | [] => some 0
  | e :: rest =>
    if e = 'e' ∨ e = 'E' then
      match rest with
      | '+' :: ds =>
        if ds ≠ [] ∧ ds.all isDecimalDigit then some (decimalValue ds) else none
      | '-' :: ds =>
        if ds ≠ [] ∧ ds.all isDecimalDigit then some (-(decimalValue ds : ℤ)) else none
      | ds =>
        if ds ≠ [] ∧ ds.all isDecimalDigit then some (decimalValue ds) else none
    else none

/-- A `StrUnsignedDecimalLiteral` other than `Infinity`: digits, an optional
point and fraction digits (one of the two digit runs non-empty), an optional
exponent. -/
def unsignedDecimal (s : Str) : Option ℚ :=
  let ip := s.takeWhile isDecimalDigit
  match s.dropWhile isDecimalDigit with
  | '.' :: r2 =>
    let fp := r2.takeWhile isDecimalDigit
    if ip = [] ∧ fp = [] then none
    else (exponentPart (r2.dropWhile isDecimalDigit)).map fun e =>
      ((decimalValue ip : ℚ) + (decimalValue fp : ℚ) / 10 ^ fp.length) * 10 ^ e
  | r1 =>
    if ip = [] then none
    else (exponentPart r1).map fun e => (decimalValue ip : ℚ) * 10 ^ e

/-- The call `Number(s)` on a string (`StringToNumber`): white space is trimmed, the
empty string is `0`, then a radix literal or a signed decimal literal.  `none`
stands for `NaN` and for `±Infinity`, which the callers treat alike. -/
def jsNumber (raw : Str) : Option ℚ :=
  let s := jsTrim raw
  if s = [] then some 0
  else
    match nonDecimal s with
    | some n => some n
    | none =>
      match s with
      | '+' :: r => unsignedDecimal r
      | '-' :: r => (unsignedDecimal r).map fun q => -q
      | _ => unsignedDecimal s

/-- The operator `%` on finite numbers with a non-zero divisor: the remainder
has the sign of the dividend. -/
def jsRem (a b : ℚ) : ℚ :=
  let q := a / b
  a - b * (if q < 0 then -(⌊-q⌋ : ℤ) else (⌊q⌋ : ℤ))

/-- The function `parseSchemaTime`: the decoder of a time field of the schema.  `none` is
`null`; `raw` is `none` when the column is missing from the row. -/
def parseSchemaTime (raw : Option Str) : Option ℚ :=
  match raw with
  | none => none
  | some r =>
    let s := jsTrim r
    if s = [] then none
    else if s.contains '.' then
      match s.splitOn '.' with
      | mStr :: sStr :: _ =>
        match jsNumber mStr, jsNumber sStr with
        | some minutes, some seconds =>
          if seconds < 0 ∨ seconds > 59 then none else some (minutes * 60 + seconds)
        | _, _ => none
      | _ => none
    else if (s.length = 2 ∨ s.length = 3) ∧ s.all isDecimalDigit then
      match jsNumber s with
      | none => none
      | some n =>
        if s.length = 2 then some (jsRem n 100)
        else
          let minutes : ℤ := ⌊n / 100⌋
          let seconds := jsRem n 100
          if seconds > 59 then none else some (minutes * 60 + seconds)
    else if s.all isDecimalDigit then
      match jsNumber s with
      | none => none
      | some minutes => some (minutes * 60)
    else none

/-- The call `text.replace(/\r\n?/g, "\n")`. -/
def normalizeLineBreaks : Str → Str
  | [] => []
  | c :: d :: rest =>
    if c = cr then
      if d = lf then lf :: normalizeLineBreaks rest
      else lf :: normalizeLineBreaks (d :: rest)
    else c :: normalizeLineBreaks (d :: rest)
  | [c] => if c = cr then [lf] else [c]

/-- The lines of the file: `text.replace(/\r\n?/g, "\n").split("\n").filter(Boolean)`. -/
def splitLines (text : Str) : List Str :=
  ((normalizeLineBreaks text).splitOn lf).filter fun l => !l.isEmpty

/-- The loop of `parseCSVLine` on the rest of the line, with the variables
`cur`, `inQ` and `out`.  `i++` after a doubled quote skips the second one. -/
def parseCSVLoop : Str → Str → Bool → List Str → List Str
  | [], cur, _, out => out ++ [cur]
  | [ch], cur, inQ, out =>
    if ch = dq then out ++ [cur]
    else if ch = ',' ∧ inQ = false then out ++ [cur] ++ [[]]
    else out ++ [cur ++ [ch]]
  | ch :: d :: rest, cur, inQ, out =>
    if ch = dq then
      if inQ = true ∧ d = dq then parseCSVLoop rest (cur ++ [dq]) inQ out
      else parseCSVLoop (d :: rest) cur (!inQ) out
    else if ch = ',' ∧ inQ = false then parseCSVLoop (d :: rest) [] inQ (out ++ [cur])
    else parseCSVLoop (d :: rest) (cur ++ [ch]) inQ out

/-- The function `parseCSVLine`: split a line at the commas outside quotes, undo the
doubling of quotes, trim every field. -/
def parseCSVLine (line : Str) : List Str :=
  (parseCSVLoop line [] false []).map jsTrim

/-- What `handleSchemaFile` does after clearing the timeline: it throws (no
line at all: `parseCSVLine(undefined)`), rejects the header, or dispatches one
`vp:add-annotation` event per accepted row, in row order. -/
inductive ImportOutcome where
  | threw
  | malformed
  | dispatched (details : List Detail)
deriving DecidableEq

/-- The body of the row loop of `handleSchemaFile`: the `detail` dispatched for
a line, or `none` when the row is skipped. -/
def rowDetail (idxTag idxStart idxEnd idxMod : ℕ) (line : Str) : Option Detail :=
  let cols := parseCSVLine line
  if cols.length = 0 then none
  else
    let tag := jsTrim ((cols[idxTag]?).getD [])
    let startStr := cols[idxStart]?
    let endStr := cols[idxEnd]?
    let mod := jsTrim ((cols[idxMod]?).getD [])
    let startSec := parseSchemaTime startStr
    let endSec := parseSchemaTime endStr
    match startSec with
    | none => none
    | some st =>
      if tag = [] then none
      else some
        { start := .num st, end_ := .num (endSec.getD st), tag := some tag,
          modifier := some mod, down := none }

/-- The function `handleSchemaFile` after the dispatch of `vp:clear-annotations`: the lines,
the header lookup, the row loop. -/
def handleSchemaFile (lower : Str → Str) (text : Str) : ImportOutcome :=
  match splitLines text with
  | [] => .threw
  | first :: rows =>
    let header := (parseCSVLine first).map lower
    match header.indexOf? "tagname".toList, header.indexOf? "starttime".toList,
      header.indexOf? "endtime".toList, header.indexOf? "modifiers".toList with
    | some idxTag, some idxStart, some idxEnd, some idxMod =>
      .dispatched (rows.filterMap (rowDetail idxTag idxStart idxEnd idxMod))
    | _, _, _, _ => .malformed

end VideoPlayer

/-! ## The timeline as a state machine -/

/-- The state of the timeline between two tasks of the event loop: the React
state `annotations` as last rendered, and the next fresh identifier. -/
structure Timeline where
  annotations : List Ann
  nextId : ℕ
deriving DecidableEq

/-- The timeline as mounted: `useState([])`. -/
def Timeline.initial : Timeline := ⟨[], 0⟩

/-- A run of `vp:add-annotation` events dispatched synchronously, one after the
other, inside one task.  The listener in place was installed by the effect of
the last render (dependency `[annotations]`) and is replaced only after the
next render, so every event of the run is checked by `hasTagAtStart` against
the same captured state `seen`, while the functional updaters are chained on
the pending state `prev`. -/
def dispatchAdds (lower : Str → Str) (seen : List Ann) :
    List Detail → List Ann → ℕ → List Ann × ℕ
  | [], prev, n => (prev, n)
  | d :: ds, prev, n =>
    match AnnotationTimeline.addAnnotationHandler lower seen n d with
    | none => dispatchAdds lower seen ds prev n
    | some a => dispatchAdds lower seen ds (AnnotationTimeline.insertSorted a prev) (n + 1)

/-- The occurrences that change the timeline; each is one task, followed by a
render. -/
inductive Event where
  | add (d : Detail)
  | keydown (typing : Bool) (key : Str) (currentTime : JSValue)
  | updateTagName (id : ℕ) (val : Str)
  | updateModifier (id : ℕ) (val : Str)
  | updateDown (id : ℕ) (val : Str)
  | remove (id : ℕ)
  | deleteSelected (selected : List ℕ)
  | clearAnnotations
  | schemaFile (text : Str)

/-- One task of the event loop and the render that follows it. -/
def step (lower : Str → Str) (tl : Timeline) : Event → Timeline
  | .add d =>
    let r := dispatchAdds lower tl.annotations [d] tl.annotations tl.nextId
    ⟨r.1, r.2⟩
  | .keydown typing key currentTime =>
    match AnnotationTimeline.onKey lower tl.annotations currentTime tl.nextId typing key with
    | none => tl
    | some a => ⟨AnnotationTimeline.insertSorted a tl.annotations, tl.nextId + 1⟩
  | .updateTagName id val =>
    { tl with annotations := AnnotationTimeline.updateTagName lower id val tl.annotations }
  | .updateModifier id val =>
    { tl with annotations := AnnotationTimeline.updateModifier id val tl.annotations }
  | .updateDown id val =>
    { tl with annotations := AnnotationTimeline.updateDown id val tl.annotations }
  | .remove id =>
    { tl with annotations := AnnotationTimeline.removeAnnotation id tl.annotations }
  | .deleteSelected selected =>
    { tl with annotations := AnnotationTimeline.deleteSelected selected tl.annotations }
  | .clearAnnotations => { tl with annotations := [] }
  | .schemaFile text =>
    match VideoPlayer.handleSchemaFile lower text with
    | .threw => { tl with annotations := [] }
    | .malformed => { tl with annotations := [] }
    | .dispatched details =>
      let r := dispatchAdds lower tl.annotations details [] tl.nextId
      ⟨r.1, r.2⟩

/-- The timeline after a sequence of tasks, from the mounted component. -/
def run (lower : Str → Str) (events : List Event) : Timeline :=
  events.foldl (step lower) Timeline.initial

/-! ## VideoPlayer.jsx: conflict model and analysis -/

namespace VideoPlayer

/-- Source: `const EPS = 1 / FPS / 2`. -/
def EPS : ℚ := 1 / FPS / 2

/-- The flag `conflict` of the player: `annSnapshot` is the list last broadcast
by the timeline, `rangeL` the candidate start (a finite time). -/
def conflict (annSnapshot : List Ann) (rangeL : ℚ) : Bool :=
  let startKey := frameKey rangeL
  annSnapshot.any fun a =>
    let s := a.startKey
    let e := a.endKey.getD a.startKey
    let lo := min s e
    let hi := max s e
    if startKey > lo ∧ startKey < hi then true
    else
      let nearLo := decide (|startKey - lo| ≤ EPS)
      let nearHi := decide (|startKey - hi| ≤ EPS)
      nearLo || nearHi

/-- A category of a detection: `categoryName` and `score` may be missing, and
`index` is any value. -/
structure Category where
  categoryName : Option Str
  score : Option ℚ
  index : JSValue
deriving DecidableEq

/-- The fields of `boundingBox` that the analysis reads. -/
structure BoundingBox where
  originY : ℚ
  height : ℚ
deriving DecidableEq

/-- A detection of the object detector. -/
structure Detection where
  categories : List Category
  boundingBox : BoundingBox
deriving DecidableEq

/-- Source: `const FALLBACK_BY_INDEX = { 0: "BALL_CARRIER", 1: "DEFENDER", 2: "ATTACKER" }`,
looked up with a finite number. -/
def FALLBACK_BY_INDEX (idx : ℚ) : Option Str :=
  if idx = 0 then some "BALL_CARRIER".toList
  else if idx = 1 then some "DEFENDER".toList
  else if idx = 2 then some "ATTACKER".toList
  else none

/-- The set `BALL_CARRIER_LABELS`. -/
def BALL_CARRIER_LABELS : List Str :=
  ["BALL_CARRIER".toList, "ball_carrier".toList, "carrier".toList]

/-- The set `DEFENDER_LABELS`. -/
def DEFENDER_LABELS : List Str := ["DEFENDER".toList, "defender".toList]

/-- The set `ATTACKER_LABELS`. -/
def ATTACKER_LABELS : List Str := ["ATTACKER".toList, "attacker".toList]

/-- The function `labelOf`: the trimmed name of the first category when it is
not blank, otherwise the fallback label of a finite class index, otherwise the
empty string. -/
def labelOf (det : Detection) : Str :=
  let c := det.categories.head?
  let name := (c.bind fun c => c.categoryName).getD []
  if name ≠ [] ∧ jsTrim name ≠ [] then jsTrim name
  else
    match (c.map fun c => c.index : Option JSValue) with
    | some (JSValue.num idx) => (FALLBACK_BY_INDEX idx).getD []
    | _ => []

/-- An element of `candidates` in `countDefendersInFront`. -/
structure Candidate where
  label : Str
  score : ℚ
  bb : BoundingBox
deriving DecidableEq

/-- The mapping of a detection to its candidate: `score` is
`det.categories?.[0]?.score ?? 0`. -/
def toCandidate (det : Detection) : Candidate :=
  { label := labelOf det
    score := ((det.categories.head?).bind fun c => c.score).getD 0
    bb := det.boundingBox }

/-- The loop `for (const c of carriers) if (c.score > carrier.score) carrier = c`. -/
def pickCarrier (carrier : Candidate) (carriers : List Candidate) : Candidate :=
  carriers.foldl (fun best c => if c.score > best.score then c else best) carrier

/-- The vertical centre `bb.originY + bb.height / 2`. -/
def centreY (c : Candidate) : ℚ := c.bb.originY + c.bb.height / 2

/-- The function `countDefendersInFront`. -/
def countDefendersInFront (detections : List Detection) : ℕ :=
  let candidates := detections.map toCandidate
  let carriers := candidates.filter fun c => BALL_CARRIER_LABELS.contains c.label
  let defenders := candidates.filter fun c => DEFENDER_LABELS.contains c.label
  match carriers with
  | [] => 0
  | first :: _ =>
    let carrier := pickCarrier first carriers
    let cy := centreY carrier
    (defenders.filter fun d => decide (centreY d < cy)).length

/-- The property names that every object inherits from `Object.prototype`: a
lookup `results[name]` on the literal `{}` finds them although the object has
no such own property. -/
def objectPrototypeKeys : List Str :=
  ["constructor".toList, "__proto__".toList, "hasOwnProperty".toList,
    "isPrototypeOf".toList, "propertyIsEnumerable".toList, "toLocaleString".toList,
    "toString".toList, "valueOf".toList, "__defineGetter__".toList,
    "__defineSetter__".toList, "__lookupGetter__".toList, "__lookupSetter__".toList]

/-- The object `results`: its own properties in creation order. -/
abbrev Results := List (Str × List ℕ)

/-- The two statements
`if (!results[row.tagName]) results[row.tagName] = []; results[row.tagName].push(count);`.
An own property is an array and is pushed to.  Without an own property, an
inherited one is truthy, no array is created, and `push` of it is not a
function: the statement throws (`none`).  Otherwise the array is created. -/
def pushCount (results : Results) (tagName : Str) (count : ℕ) : Option Results :=
  if results.any (fun p => decide (p.1 = tagName)) then
    some (results.map fun p => if p.1 = tagName then (p.1, p.2 ++ [count]) else p)
  else if objectPrototypeKeys.contains tagName then none
  else some (results ++ [(tagName, [count])])

/-- The capabilities that `runAnalysis` awaits.  `none` is a rejected promise
or a thrown exception.  `detect` returns `dets.detections || []`. -/
structure AnalysisEnv (Frame : Type) where
  tfReady : Bool
  ensureDetector : Bool
  grabCanvasAt : ℚ → Option Frame
  detect : Frame → Option (List Detection)

/-- What a call of `runAnalysis` has done when its promise settles: the times
passed to `grabCanvasAt` and the frames passed to `detector.detect`, in call
order, the argument of `onAnalysisComplete` if it was called, the last status
message before it is blanked, and the final value of `analyzing`. -/
structure AnalysisRun (Frame : Type) where
  sampled : List ℚ
  detected : List Frame
  published : Option Results
  analyzeMsg : Str
  analyzing : Bool

/-- The `for` loop of `runAnalysis` over the remaining rows: the results when
every iteration succeeded (`none` when one threw), with the calls made. -/
def analysisLoop {Frame : Type} (env : AnalysisEnv Frame) :
    List Ann → Results → List ℚ → List Frame → Option Results × List ℚ × List Frame
  | [], results, sampled, detected => (some results, sampled, detected)
  | row :: rows, results, sampled, detected =>
    match env.grabCanvasAt row.startKey with
    | none => (none, sampled ++ [row.startKey], detected)
    | some canvas =>
      match env.detect canvas with
      | none => (none, sampled ++ [row.startKey], detected ++ [canvas])
      | some dets =>
        match pushCount results row.tagName (countDefendersInFront dets) with
        | none => (none, sampled ++ [row.startKey], detected ++ [canvas])
        | some results' =>
          analysisLoop env rows results' (sampled ++ [row.startKey]) (detected ++ [canvas])

/-- The function `runAnalysis`.  `isYT`, `schemaLoaded` and `analyzing` are the values
of the guard; every record of the timeline has a finite `startKey`, so the
filter `Number.isFinite(a.startKey)` keeps the whole snapshot. -/
def runAnalysis {Frame : Type} (env : AnalysisEnv Frame) (isYT schemaLoaded analyzing : Bool)
    (annSnapshot : List Ann) : AnalysisRun Frame :=
  if isYT || !schemaLoaded || analyzing then
    { sampled := [], detected := [], published := none, analyzeMsg := [],
      analyzing := analyzing }
  else if !env.tfReady || !env.ensureDetector then
    { sampled := [], detected := [], published := none,
      analyzeMsg := "Analysis failed (see console).".toList, analyzing := false }
  else
    let rows := annSnapshot.filter fun a => isFiniteGlobal (.num a.startKey)
    if rows.length = 0 then
      { sampled := [], detected := [], published := none,
        analyzeMsg := "No annotated windows found.".toList, analyzing := false }
    else
      match analysisLoop env rows [] [] [] with
      | (some results, sampled, detected) =>
        { sampled := sampled, detected := detected, published := some results,
          analyzeMsg := "Done.".toList, analyzing := false }
      | (none, sampled, detected) =>
        { sampled := sampled, detected := detected, published := none,
          analyzeMsg := "Analysis failed (see console).".toList, analyzing := false }

end VideoPlayer

/-! ## App.jsx -/

namespace App

/-- The `currentTime` prop that `App` passes to the timeline.  The element is
`<AnnotationTimeline hasSource={true} />` and the player is given
`onTimeUpdate={() => {}}`: whatever the playback time, the prop is absent. -/
def timelineCurrentTimeProp (_playbackTime : ℚ) : JSValue := .undefined

end App

namespace AnnotationTimeline

/-- The default of the parameter `{ currentTime = 0, hasSource }`: an absent
prop is `0`. -/
def currentTimeParam (prop : JSValue) : JSValue :=
  match prop with
  | .undefined => .num 0
  | v => v

end AnnotationTimeline

/-- A key press in the application while the player is at `playbackTime` and
no text field has the focus. -/
def appKeydown (lower : Str → Str) (tl : Timeline) (playbackTime : ℚ) (key : Str) : Timeline :=
  step lower tl
    (.keydown false key
      (AnnotationTimeline.currentTimeParam (App.timelineCurrentTimeProp playbackTime)))

/-! ## Predicates of the specification -/

/-- Display order: `a` stands before `b` when its start is earlier or, at the
same start, when it was created earlier (identifiers count creations). -/
def Before (a b : Ann) : Prop :=
  a.startKey < b.startKey ∨ (a.startKey = b.startKey ∧ a.id < b.id)

/-- A key is frame-quantized: `frameKey` fixes it. -/
def Quantized (k : ℚ) : Prop := AnnotationTimeline.frameKey (.num k) = k

/-- Two records share the start instant and the normalized tag. -/
def SameTagAtStart (lower : Str → Str) (a b : Ann) : Prop :=
  a.startKey = b.startKey ∧
    AnnotationTimeline.normalize lower a.tagName = AnnotationTimeline.normalize lower b.tagName

/-- Invariants of every reachable timeline: display order, identifiers below
the counter, quantized keys, and identifiers without repetition. -/
def WellFormed (tl : Timeline) : Prop :=
  tl.annotations.Pairwise Before ∧ (∀ a ∈ tl.annotations, a.id < tl.nextId) ∧
    (∀ a ∈ tl.annotations, Quantized a.startKey ∧ ∀ e ∈ a.endKey, Quantized e) ∧
    (tl.annotations.map Ann.id).Nodup

/-- Two add requests aim at the same start instant with the same normalized
tag. -/
def Collide (lower : Str → Str) (d d' : Detail) : Prop :=
  AnnotationTimeline.frameKey d.start = AnnotationTimeline.frameKey d'.start ∧
    AnnotationTimeline.normalize lower (jsTrim (d.tag.getD [])) =
      AnnotationTimeline.normalize lower (jsTrim (d'.tag.getD []))

/-- An event that is not the import of a file two of whose rows collide. -/
def NoRepeatedRows (lower : Str → Str) : Event → Prop
  | .schemaFile text =>
    match VideoPlayer.handleSchemaFile lower text with
    | .dispatched details => details.Pairwise fun d d' => ¬ Collide lower d d'
    | _ => True
  | _ => True

/-- Uniqueness as the `tagName &&` guard of the add listener keeps it: two
records with the same start and the same normalized tag exist only where one
of them carries the empty tag. -/
def UniqueTags (lower : Str → Str) (l : List Ann) : Prop :=
  l.Pairwise fun a b => SameTagAtStart lower a b → a.tagName = [] ∨ b.tagName = []

/-- The lowercasing function agrees with `asciiLower` on ASCII strings, as
`toLowerCase` does. -/
def LowersAscii (lower : Str → Str) : Prop :=
  ∀ s : Str, (∀ c ∈ s, c.toNat < 128) → lower s = asciiLower s

/-- A record that the export and import formats can carry: keys that are not
negative, a tag that is not empty, tag and modifier without surrounding white
space, and no line break in any text field. -/
def Exportable (r : Ann) : Prop :=
  0 ≤ r.startKey ∧ (∀ e ∈ r.endKey, (0 : ℚ) ≤ e) ∧ r.tagName ≠ [] ∧
    jsTrim r.tagName = r.tagName ∧ jsTrim r.modifier = r.modifier ∧
    ∀ c ∈ r.tagName ++ r.modifier ++ r.down, c ≠ lf ∧ c ≠ cr

/-- What the export format keeps of a record: the times in whole seconds
(rounded down), the start standing in for an absent end, tag and modifier. -/
def exportedView (a : Ann) : ℚ × Option ℚ × Str × Str :=
  ((⌊a.startKey⌋ : ℤ), some ((⌊a.endKey.getD a.startKey⌋ : ℤ) : ℚ), a.tagName, a.modifier)

/-- The times, tag and modifier of a record. -/
def importedView (a : Ann) : ℚ × Option ℚ × Str × Str :=
  (a.startKey, a.endKey, a.tagName, a.modifier)

/-- The five compared fields of a record. -/
def Ann.tuple (a : Ann) : ℚ × Option ℚ × Str × Str × Str :=
  (a.startKey, a.endKey, a.tagName, a.modifier, a.down)

/-- A text with each of its double quotes written twice. -/
def doubleQuotes : Str → Str
  | [] => []
  | c :: rest => if c = dq then dq :: dq :: doubleQuotes rest else c :: doubleQuotes rest

/-- A field that the export wraps in double quotes: it holds a comma, a double
quote or a line feed. -/
def NeedsQuotes (f : Str) : Prop := ',' ∈ f ∨ dq ∈ f ∨ lf ∈ f

/-- The exported line of a record: its five fields, escaped, with commas
between them. -/
def exportedLine (r : Ann) : Str :=
  AnnotationTimeline.esc r.tagName ++ (',' ::
    (AnnotationTimeline.esc (AnnotationTimeline.fmtMdotS (.num r.startKey)) ++ (',' ::
      (AnnotationTimeline.esc
          (match r.endKey with
            | some e => AnnotationTimeline.fmtMdotS (.num e)
            | none => []) ++ (',' ::
        (AnnotationTimeline.esc r.modifier ++ (',' :: AnnotationTimeline.esc r.down)))))))

/-- The low and high bound of a record: `min` and `max` of its start and its
end, an absent end counting as the start. -/
def Ann.lo (a : Ann) : ℚ := min a.startKey (a.endKey.getD a.startKey)

/-- The high bound of a record. -/
def Ann.hi (a : Ann) : ℚ := max a.startKey (a.endKey.getD a.startKey)

/-- The record with start and end exchanged; a record without end is left as
it is. -/
def swapEnds (a : Ann) : Ann :=
  match a.endKey with
  | some e => { a with startKey := e, endKey := some a.startKey }
  | none => a

/-- The three roles of a detection. -/
inductive Role where
  | carrier
  | defender
  | attacker
deriving DecidableEq

/-- The role that a label stands for: membership in one of the three label
sets of the player. -/
def roleOfLabel (label : Str) : Option Role :=
  if VideoPlayer.BALL_CARRIER_LABELS.contains label then some .carrier
  else if VideoPlayer.DEFENDER_LABELS.contains label then some .defender
  else if VideoPlayer.ATTACKER_LABELS.contains label then some .attacker
  else none

/-- The classification in the words of the specification: the trimmed name of
the first category decides by exact membership; a name that is absent, empty
or blank leaves the decision to the class index `0`, `1` or `2`; all else has
no role. -/
def specifiedRole (det : VideoPlayer.Detection) : Option Role :=
  let name := jsTrim ((det.categories.head?.bind fun c => c.categoryName).getD [])
  if name ≠ [] then roleOfLabel name
  else
    match det.categories.head?.map fun c => c.index with
    | some (JSValue.num idx) =>
      if idx = 0 then some .carrier
      else if idx = 1 then some .defender
      else if idx = 2 then some .attacker
      else none
    | _ => none

/-- The candidate `c` is the one of `carriers` with the highest score, the
earliest of them when scores tie: every candidate before it has a lower
score, none after it has a higher one. -/
def IsTopCarrier (carriers : List VideoPlayer.Candidate) (c : VideoPlayer.Candidate) : Prop :=
  ∃ pre post : List VideoPlayer.Candidate, carriers = pre ++ c :: post ∧
    (∀ p ∈ pre, p.score < c.score) ∧ ∀ p ∈ post, p.score ≤ c.score

/-- The capabilities fail at the record: the frame cannot be sampled, or the
detector fails on the sampled frame. -/
def FailsAt {Frame : Type} (env : VideoPlayer.AnalysisEnv Frame) (row : Ann) : Prop :=
  env.grabCanvasAt row.startKey = none ∨
    ∃ canvas, env.grabCanvasAt row.startKey = some canvas ∧ env.detect canvas = none

/-- The five compared fields of a record as the export format keeps them:
the times in whole seconds (rounded down), the start standing in for an
absent end. -/
def exportedTuple (a : Ann) : ℚ × Option ℚ × Str × Str × Str :=
  ((⌊a.startKey⌋ : ℤ), some ((⌊a.endKey.getD a.startKey⌋ : ℤ) : ℚ), a.tagName, a.modifier,
    a.down)

/-- No two records of the store are written to rows with the same start, in
whole seconds, and the same normalized tag. -/
def DistinctRows (lower : Str → Str) (store : List Ann) : Prop :=
  store.Pairwise fun a b =>
    ¬ ((⌊a.startKey⌋ : ℤ) = ⌊b.startKey⌋ ∧
      AnnotationTimeline.normalize lower a.tagName =
        AnnotationTimeline.normalize lower b.tagName)

/-- The add requests handled one task at a time, the timeline rendered after
each of them: every request is checked against the records of all earlier
ones. -/
def addEach (lower : Str → Str) (tl : Timeline) (details : List Detail) : Timeline :=
  details.foldl (fun tl d => step lower tl (.add d)) tl

/-! ## Theorems -/

theorem mathRound_intCast (n : ℤ) : mathRound (n : ℚ) = n := by
  unfold mathRound
  rw [Int.floor_eq_iff]
  constructor
  · linarith
  · linarith

theorem frameKey_mul_FPS (t : ℚ) :
    (mathRound (t * FPS) : ℚ) / FPS * FPS = mathRound (t * FPS) := by
  unfold FPS
  field_simp

theorem frameKey_frameKey (x : ℚ) :
    AnnotationTimeline.frameKey (.num (AnnotationTimeline.frameKey (.num x))) =
      AnnotationTimeline.frameKey (.num x) := by
  simp only [AnnotationTimeline.frameKey, frameKey_mul_FPS, mathRound_intCast]

/-- C4. The function `frameKey` is idempotent on every finite time
(non-negative or not), in both components:
`frameKey(frameKey(x)) = frameKey(x)`. -/
theorem frameKey_idempotent (x : ℚ) :
    AnnotationTimeline.frameKey (.num (AnnotationTimeline.frameKey (.num x))) =
        AnnotationTimeline.frameKey (.num x) ∧
      VideoPlayer.frameKey (VideoPlayer.frameKey x) = VideoPlayer.frameKey x := by
  simp only [AnnotationTimeline.frameKey, VideoPlayer.frameKey, frameKey_mul_FPS,
    mathRound_intCast, and_self]

theorem quantized_frameKey (v : JSValue) : Quantized (AnnotationTimeline.frameKey v) := by
  unfold Quantized
  cases v with
  | num x => exact frameKey_frameKey x
  | undefined => simp [AnnotationTimeline.frameKey, mathRound, FPS]; norm_num
  | null => simp [AnnotationTimeline.frameKey, mathRound, FPS]; norm_num
  | nonFinite => simp [AnnotationTimeline.frameKey, mathRound, FPS]; norm_num

theorem quantized_iff (k : ℚ) : Quantized k ↔ ∃ n : ℤ, k = n / 30 := by
  constructor
  · intro h
    unfold Quantized AnnotationTimeline.frameKey FPS at h
    exact ⟨_, h.symm⟩
  · rintro ⟨n, rfl⟩
    have h : ((n : ℚ) / 30) * FPS = n := by unfold FPS; field_simp
    simp [Quantized, AnnotationTimeline.frameKey, h, mathRound_intCast, FPS]

/-! ### The creation paths -/

theorem addAnnotationHandler_some {lower : Str → Str} {seen : List Ann} {n : ℕ} {d : Detail}
    {a : Ann} (h : AnnotationTimeline.addAnnotationHandler lower seen n d = some a) :
    a.id = n ∧ a.startKey = AnnotationTimeline.frameKey d.start ∧
      a.endKey = (if isFiniteGlobal d.end_ then some (AnnotationTimeline.frameKey d.end_)
        else none) ∧
      a.tagName = jsTrim (d.tag.getD []) ∧ a.modifier = jsTrim (d.modifier.getD []) ∧
      a.down = jsTrim (d.down.getD []) ∧
      (a.tagName ≠ [] →
        AnnotationTimeline.hasTagAtStart lower seen a.tagName a.startKey = false) := by
  obtain ⟨start, end_, tag, modifier, down⟩ := d
  unfold AnnotationTimeline.addAnnotationHandler at h
  cases start with
  | num t =>
    dsimp only at h
    by_cases hc : jsTrim (tag.getD []) ≠ [] ∧
        AnnotationTimeline.hasTagAtStart lower seen (jsTrim (tag.getD []))
          (AnnotationTimeline.frameKey (.num t)) = true
    · rw [if_pos hc] at h
      exact absurd h (by simp)
    · rw [if_neg hc] at h
      simp only [Option.some.injEq] at h
      subst h
      refine ⟨rfl, rfl, rfl, rfl, rfl, rfl, ?_⟩
      intro hne
      simp only [not_and, Bool.not_eq_true] at hc
      exact hc hne
  | undefined => exact absurd h (by simp)
  | null => exact absurd h (by simp)
  | nonFinite => exact absurd h (by simp)

theorem onKey_some {lower : Str → Str} {seen : List Ann} {n : ℕ} {ct : JSValue}
    {typing : Bool} {key : Str} {a : Ann}
    (h : AnnotationTimeline.onKey lower seen ct n typing key = some a) :
    a.id = n ∧ a.startKey = AnnotationTimeline.frameKey ct ∧ a.endKey = none ∧
      AnnotationTimeline.ACTIONS (lower key) = some a.tagName ∧ a.modifier = [] ∧
      a.down = [] ∧ typing = false ∧
      AnnotationTimeline.hasTagAtStart lower seen a.tagName a.startKey = false := by
  unfold AnnotationTimeline.onKey at h
  cases typing with
  | true => exact absurd h (by simp)
  | false =>
    cases hk : AnnotationTimeline.ACTIONS (lower key) with
    | none => rw [hk] at h; exact absurd h (by simp)
    | some tagName =>
      rw [hk] at h
      dsimp only at h
      by_cases hc : AnnotationTimeline.hasTagAtStart lower seen tagName
          (AnnotationTimeline.frameKey ct) = true
      · simp [hc] at h
      · simp only [hc, Bool.false_eq_true, if_false, Option.some.injEq] at h
        subst h
        exact ⟨rfl, rfl, rfl, rfl, rfl, rfl, rfl, by simpa using hc⟩

theorem mem_insertSorted {a x : Ann} {prev : List Ann} :
    x ∈ AnnotationTimeline.insertSorted a prev ↔ x ∈ prev ∨ x = a := by
  simp [AnnotationTimeline.insertSorted, List.mem_insertionSort]

theorem perm_insertSorted (a : Ann) (prev : List Ann) :
    (AnnotationTimeline.insertSorted a prev).Perm (a :: prev) :=
  (List.perm_insertionSort _ _).trans (List.perm_append_singleton a prev)

/-! ### Display order -/

theorem pairwise_before_orderedInsert (p : Ann) :
    ∀ L : List Ann, L.Pairwise Before → (∀ x ∈ L, p.startKey ≤ x.startKey → Before p x) →
      (L.orderedInsert (fun a b => a.startKey ≤ b.startKey) p).Pairwise Before := by
  intro L
  induction L with
  | nil => intro _ _; simp
  | cons b l ih =>
    intro hL hp
    rw [List.pairwise_cons] at hL
    by_cases hle : p.startKey ≤ b.startKey
    · rw [List.orderedInsert_of_le _ l hle]
      refine List.pairwise_cons.2 ⟨?_, List.pairwise_cons.2 hL⟩
      intro x hx
      rcases List.mem_cons.1 hx with rfl | hx
      · exact hp _ (List.mem_cons_self _ _) hle
      · refine hp x (List.mem_cons_of_mem _ hx) ?_
        rcases hL.1 x hx with h | h
        · exact le_trans hle h.le
        · exact le_trans hle h.1.le
    · have hins : (b :: l).orderedInsert (fun a b => a.startKey ≤ b.startKey) p =
          b :: l.orderedInsert (fun a b => a.startKey ≤ b.startKey) p := by
        simp [List.orderedInsert, hle]
      rw [hins]
      refine List.pairwise_cons.2 ⟨?_, ih hL.2 fun x hx => hp x (List.mem_cons_of_mem _ hx)⟩
      intro y hy
      rcases (List.mem_orderedInsert _).1 hy with rfl | hy
      · exact Or.inl (lt_of_not_le hle)
      · exact hL.1 y hy

theorem pairwise_before_insertSorted (a : Ann) :
    ∀ prev : List Ann, prev.Pairwise Before → (∀ x ∈ prev, x.id < a.id) →
      (AnnotationTimeline.insertSorted a prev).Pairwise Before := by
  intro prev
  induction prev with
  | nil => intro _ _; simp [AnnotationTimeline.insertSorted]
  | cons p ps ih =>
    intro hP hid
    rw [List.pairwise_cons] at hP
    have ih' := ih hP.2 fun x hx => hid x (List.mem_cons_of_mem _ hx)
    unfold AnnotationTimeline.insertSorted at ih' ⊢
    rw [List.cons_append, List.insertionSort]
    refine pairwise_before_orderedInsert p _ ih' ?_
    intro x hx hle
    rcases (@mem_insertSorted a x ps).1 hx with hx | rfl
    · exact hP.1 x hx
    · rcases lt_or_eq_of_le hle with h | h
      · exact Or.inl h
      · exact Or.inr ⟨h, hid p (List.mem_cons_self _ _)⟩

/-! ### Every task preserves the invariants -/

theorem wellFormed_insert {tl : Timeline} {a : Ann} (h : WellFormed tl) (hid : a.id = tl.nextId)
    (hs : Quantized a.startKey) (he : ∀ e ∈ a.endKey, Quantized e) :
    WellFormed ⟨AnnotationTimeline.insertSorted a tl.annotations, tl.nextId + 1⟩ := by
  obtain ⟨h1, h2, h3, h4⟩ := h
  refine ⟨pairwise_before_insertSorted a _ h1 (fun x hx => hid ▸ h2 x hx), ?_, ?_, ?_⟩
  · intro x hx
    rcases mem_insertSorted.1 hx with hx | rfl
    · exact Nat.lt_succ_of_lt (h2 x hx)
    · simp [hid]
  · intro x hx
    rcases mem_insertSorted.1 hx with hx | rfl
    · exact h3 x hx
    · exact ⟨hs, he⟩
  · refine (((perm_insertSorted a tl.annotations).map Ann.id).nodup_iff).2 ?_
    rw [List.map_cons, List.nodup_cons]
    refine ⟨?_, h4⟩
    intro hmem
    obtain ⟨x, hx, hxa⟩ := List.mem_map.1 hmem
    have := h2 x hx
    omega

theorem wellFormed_dispatchAdds (lower : Str → Str) (seen : List Ann) :
    ∀ (ds : List Detail) (prev : List Ann) (n : ℕ), WellFormed ⟨prev, n⟩ →
      WellFormed ⟨(dispatchAdds lower seen ds prev n).1, (dispatchAdds lower seen ds prev n).2⟩ := by
  intro ds
  induction ds with
  | nil => intro prev n h; exact h
  | cons d ds ih =>
    intro prev n h
    unfold dispatchAdds
    cases hh : AnnotationTimeline.addAnnotationHandler lower seen n d with
    | none => exact ih prev n h
    | some a =>
      obtain ⟨hid, hs, he, -⟩ := addAnnotationHandler_some hh
      refine ih _ _ (@wellFormed_insert ⟨prev, n⟩ a h hid ?_ ?_)
      · rw [hs]; exact quantized_frameKey _
      · intro e hmem
        rw [he] at hmem
        split at hmem
        · simp only [Option.mem_def, Option.some.injEq] at hmem
          rw [← hmem]; exact quantized_frameKey _
        · simp at hmem

theorem wellFormed_of_sublist_map {tl : Timeline} {l : List Ann} (h : WellFormed tl)
    (f : Ann → Ann) (hf : ∀ a, (f a).id = a.id ∧ (f a).startKey = a.startKey ∧
      (f a).endKey = a.endKey)
    (hl : l.Sublist (tl.annotations.map f)) : WellFormed ⟨l, tl.nextId⟩ := by
  obtain ⟨h1, h2, h3, h4⟩ := h
  have hm : ∀ x ∈ l, ∃ a ∈ tl.annotations, f a = x := fun x hx => List.mem_map.1 (hl.subset hx)
  have hids : (tl.annotations.map f).map Ann.id = tl.annotations.map Ann.id := by
    rw [List.map_map]
    exact List.map_congr_left fun a _ => (hf a).1
  refine ⟨List.Pairwise.sublist hl ?_, ?_, ?_, (hids ▸ h4).sublist (hl.map Ann.id)⟩
  · rw [List.pairwise_map]
    refine h1.imp ?_
    intro a b hab
    simpa [Before, hf a, hf b] using hab
  · intro x hx
    obtain ⟨a, ha, rfl⟩ := hm x hx
    simpa [hf a] using h2 a ha
  · intro x hx
    obtain ⟨a, ha, rfl⟩ := hm x hx
    simpa [hf a] using h3 a ha

theorem wellFormed_step (lower : Str → Str) (tl : Timeline) (e : Event) (h : WellFormed tl) :
    WellFormed (step lower tl e) := by
  have key : ∀ l : List Ann, l.Sublist tl.annotations → WellFormed ⟨l, tl.nextId⟩ := by
    intro l hl
    exact wellFormed_of_sublist_map h id (fun a => ⟨rfl, rfl, rfl⟩) (by simpa using hl)
  cases e with
  | add d => exact wellFormed_dispatchAdds lower _ [d] _ _ h
  | keydown typing k ct =>
    simp only [step]
    cases hh : AnnotationTimeline.onKey lower tl.annotations ct tl.nextId typing k with
    | none => exact h
    | some a =>
      obtain ⟨hid, hs, he, -⟩ := onKey_some hh
      refine wellFormed_insert h hid ?_ ?_
      · rw [hs]; exact quantized_frameKey _
      · intro e hmem; simp [he] at hmem
  | updateTagName id val =>
    simp only [step, AnnotationTimeline.updateTagName]
    split
    · exact h
    · split
      · exact h
      · refine wellFormed_of_sublist_map h _ (fun a => ?_) (List.Sublist.refl _)
        by_cases ha : a.id = id <;> simp [ha]
  | updateModifier id val =>
    refine wellFormed_of_sublist_map h _ (fun a => ?_) (List.Sublist.refl _)
    by_cases ha : a.id = id <;> simp [ha]
  | updateDown id val =>
    refine wellFormed_of_sublist_map h _ (fun a => ?_) (List.Sublist.refl _)
    by_cases ha : a.id = id <;> simp [ha]
  | remove id => exact key _ (List.filter_sublist _)
  | deleteSelected selected =>
    simp only [step, AnnotationTimeline.deleteSelected]
    split
    · exact h
    · exact key _ (List.filter_sublist _)
  | clearAnnotations => exact key _ (List.nil_sublist _)
  | schemaFile text =>
    simp only [step]
    split
    · exact key _ (List.nil_sublist _)
    · exact key _ (List.nil_sublist _)
    · exact wellFormed_dispatchAdds lower _ _ _ _ (key _ (List.nil_sublist _))

theorem wellFormed_foldl (lower : Str → Str) (events : List Event) :
    ∀ tl, WellFormed tl → WellFormed (events.foldl (step lower) tl) := by
  induction events with
  | nil => intro tl h; exact h
  | cons e es ih => intro tl h; exact ih _ (wellFormed_step lower tl e h)

theorem wellFormed_run (lower : Str → Str) (events : List Event) :
    WellFormed (run lower events) :=
  wellFormed_foldl lower events _ ⟨List.Pairwise.nil, by simp [Timeline.initial],
    by simp [Timeline.initial], by simp [Timeline.initial]⟩

/-- C3. After any sequence of tasks the list is in ascending `startKey` order
and records with the same `startKey` stand in creation order: of two records,
the earlier in the list has the smaller key or, at equal keys, was created
first. -/
theorem ordering_invariant (lower : Str → Str) (events : List Event) :
    (run lower events).annotations.Pairwise
      fun a b => a.startKey < b.startKey ∨ (a.startKey = b.startKey ∧ a.id < b.id) :=
  (wellFormed_run lower events).1

/-- C5. Every record of a reachable timeline has a `startKey` fixed by
`frameKey`, an integer multiple of `1/30`, and an `endKey` that is absent or
such a fixed point. -/
theorem quantization_invariant (lower : Str → Str) (events : List Event) (a : Ann)
    (ha : a ∈ (run lower events).annotations) :
    (AnnotationTimeline.frameKey (.num a.startKey) = a.startKey ∧
        ∃ n : ℤ, a.startKey = n / 30) ∧
      ∀ e, a.endKey = some e →
        AnnotationTimeline.frameKey (.num e) = e ∧ ∃ n : ℤ, e = n / 30 := by
  have h := (wellFormed_run lower events).2.2.1 a ha
  refine ⟨⟨h.1, (quantized_iff _).1 h.1⟩, ?_⟩
  intro e he
  have h2 := h.2 e (by simp [he])
  exact ⟨h2, (quantized_iff _).1 h2⟩

/-! ### The update operations -/

/-- C7. `updateModifier`, `updateDown` and `updateTagName` keep the number and
order of the records (the lists correspond position by position), keep `id`,
`startKey` and `endKey` of every record, leave every record with another
identifier unchanged; `updateModifier` changes at most `modifier` and
`updateDown` at most `down` (and `updateTagName` at most `tagName`). -/
theorem update_frame (lower : Str → Str) (id : ℕ) (val : Str) (p : List Ann) :
    List.Forall₂ (fun a b => b.id = a.id ∧ b.startKey = a.startKey ∧ b.endKey = a.endKey ∧
        b.tagName = a.tagName ∧ b.down = a.down ∧ (a.id ≠ id → b = a))
      p (AnnotationTimeline.updateModifier id val p) ∧
    List.Forall₂ (fun a b => b.id = a.id ∧ b.startKey = a.startKey ∧ b.endKey = a.endKey ∧
        b.tagName = a.tagName ∧ b.modifier = a.modifier ∧ (a.id ≠ id → b = a))
      p (AnnotationTimeline.updateDown id val p) ∧
    List.Forall₂ (fun a b => b.id = a.id ∧ b.startKey = a.startKey ∧ b.endKey = a.endKey ∧
        b.modifier = a.modifier ∧ b.down = a.down ∧ (a.id ≠ id → b = a))
      p (AnnotationTimeline.updateTagName lower id val p) := by
  refine ⟨?_, ?_, ?_⟩
  · unfold AnnotationTimeline.updateModifier
    rw [List.forall₂_map_right_iff, List.forall₂_same]
    intro a _
    by_cases ha : a.id = id <;> simp [ha]
  · unfold AnnotationTimeline.updateDown
    rw [List.forall₂_map_right_iff, List.forall₂_same]
    intro a _
    by_cases ha : a.id = id <;> simp [ha]
  · unfold AnnotationTimeline.updateTagName
    split
    · rw [List.forall₂_same]; intro a _; simp
    · dsimp only
      split
      · rw [List.forall₂_same]; intro a _; simp
      · rw [List.forall₂_map_right_iff, List.forall₂_same]
        intro a _
        by_cases ha : a.id = id <;> simp [ha]

theorem find_of_nodup_ids {id : ℕ} {t : Ann} :
    ∀ {prev : List Ann}, (prev.map Ann.id).Nodup → t ∈ prev → t.id = id →
      prev.find? (fun a => decide (a.id = id)) = some t := by
  intro prev
  induction prev with
  | nil => intro _ h; simp at h
  | cons b l ih =>
    intro hnd hmem hid
    rw [List.map_cons, List.nodup_cons] at hnd
    rcases List.mem_cons.1 hmem with rfl | hmem
    · simp [List.find?, hid]
    · have hb : b.id ≠ id := by
        intro hb
        exact hnd.1 (List.mem_map.2 ⟨t, hmem, by rw [hid, hb]⟩)
      simp only [List.find?, hb, decide_False]
      exact ih hnd.2 hmem hid

/-- C6. On a store whose identifiers are distinct, `updateTagName(id, newName)`
leaves the store unchanged when no record has the identifier, leaves it
unchanged when another record has the `startKey` of record `id` and a
normalized tag equal to that of `newName`, and otherwise maps the store to
itself with `tagName` of record `id` replaced by `newName` verbatim. -/
theorem updateTagName_spec (lower : Str → Str) (id : ℕ) (val : Str) (prev : List Ann)
    (hids : (prev.map Ann.id).Nodup) :
    ((∀ a ∈ prev, a.id ≠ id) → AnnotationTimeline.updateTagName lower id val prev = prev) ∧
      ∀ t ∈ prev, t.id = id →
        ((∃ a ∈ prev, a.id ≠ id ∧ a.startKey = t.startKey ∧
            AnnotationTimeline.normalize lower a.tagName =
              AnnotationTimeline.normalize lower val) →
          AnnotationTimeline.updateTagName lower id val prev = prev) ∧
        ((¬ ∃ a ∈ prev, a.id ≠ id ∧ a.startKey = t.startKey ∧
            AnnotationTimeline.normalize lower a.tagName =
              AnnotationTimeline.normalize lower val) →
          AnnotationTimeline.updateTagName lower id val prev =
            prev.map fun a => if a.id = id then { a with tagName := val } else a) := by
  constructor
  · intro hno
    have : prev.find? (fun a => decide (a.id = id)) = none := by
      rw [List.find?_eq_none]
      intro a ha
      simpa using hno a ha
    simp [AnnotationTimeline.updateTagName, this]
  · intro t ht hid
    have hfind := find_of_nodup_ids hids ht hid
    constructor
    · rintro ⟨a, ha, h1, h2, h3⟩
      have hdup : (prev.any fun a => decide (a.id ≠ id) && decide (a.startKey = t.startKey) &&
          decide (AnnotationTimeline.normalize lower a.tagName =
            AnnotationTimeline.normalize lower val)) = true := by
        rw [List.any_eq_true]
        exact ⟨a, ha, by simp [h1, h2, h3]⟩
      simp only [AnnotationTimeline.updateTagName, hfind, hdup, if_true]
    · intro hno
      have hdup : (prev.any fun a => decide (a.id ≠ id) && decide (a.startKey = t.startKey) &&
          decide (AnnotationTimeline.normalize lower a.tagName =
            AnnotationTimeline.normalize lower val)) = false := by
        rw [Bool.eq_false_iff]
        intro h
        rw [List.any_eq_true] at h
        obtain ⟨a, ha, hc⟩ := h
        simp only [Bool.and_eq_true, decide_eq_true_eq] at hc
        exact hno ⟨a, ha, hc.1.1, hc.1.2, hc.2⟩
      simp only [AnnotationTimeline.updateTagName, hfind, hdup, Bool.false_eq_true, if_false]

/-! ### Trimming -/

theorem jsTrim_fixed (s u : Str) (hpre : u <+: s.dropWhile isWhiteSpace)
    (hlast : ∀ hl : u ≠ [], ¬ isWhiteSpace (u.getLast hl) = true) : jsTrim u = u := by
  unfold jsTrim
  have h1 : u.dropWhile isWhiteSpace = u := by
    rw [List.dropWhile_eq_self_iff]
    intro hl
    obtain ⟨r, hr⟩ := hpre
    have hne : u ≠ [] := List.length_pos.1 hl
    have hne' : s.dropWhile isWhiteSpace ≠ [] := by
      rw [← hr]; simp [hne]
    have hhead := List.head_dropWhile_not isWhiteSpace s hne'
    have : (s.dropWhile isWhiteSpace).head hne' = u.head hne := by
      simp only [← hr, List.head_append_of_ne_nil hne]
    rw [this] at hhead
    rw [List.get_mk_zero]
    simpa using hhead
  rw [h1, List.rdropWhile_eq_self_iff]
  exact hlast

theorem jsTrim_idempotent (s : Str) : jsTrim (jsTrim s) = jsTrim s :=
  jsTrim_fixed s _ (List.rdropWhile_prefix _ _) fun hl => List.rdropWhile_last_not _ _ hl

theorem normalize_jsTrim (lower : Str → Str) (s : Str) :
    AnnotationTimeline.normalize lower (jsTrim s) = AnnotationTimeline.normalize lower s := by
  unfold AnnotationTimeline.normalize
  rw [jsTrim_idempotent]

/-! ### The add listener -/

theorem hasTagAtStart_iff (lower : Str → Str) (l : List Ann) (tag : Str) (k : ℚ) :
    AnnotationTimeline.hasTagAtStart lower l tag k = true ↔
      ∃ a ∈ l, a.startKey = k ∧
        AnnotationTimeline.normalize lower a.tagName = AnnotationTimeline.normalize lower tag := by
  simp [AnnotationTimeline.hasTagAtStart, List.any_eq_true]

theorem step_add (lower : Str → Str) (tl : Timeline) (d : Detail) :
    step lower tl (.add d) =
      match AnnotationTimeline.addAnnotationHandler lower tl.annotations tl.nextId d with
      | none => tl
      | some a => ⟨AnnotationTimeline.insertSorted a tl.annotations, tl.nextId + 1⟩ := by
  simp only [step, dispatchAdds]
  cases AnnotationTimeline.addAnnotationHandler lower tl.annotations tl.nextId d <;> rfl

theorem addAnnotationHandler_eq_none_iff (lower : Str → Str) (seen : List Ann) (n : ℕ)
    (d : Detail) (t : ℚ) (hstart : d.start = .num t) :
    AnnotationTimeline.addAnnotationHandler lower seen n d = none ↔
      jsTrim (d.tag.getD []) ≠ [] ∧
        AnnotationTimeline.hasTagAtStart lower seen (jsTrim (d.tag.getD []))
          (AnnotationTimeline.frameKey (.num t)) = true := by
  obtain ⟨start, end_, tag, modifier, down⟩ := d
  simp only at hstart
  subst hstart
  unfold AnnotationTimeline.addAnnotationHandler
  dsimp only
  constructor
  · intro h
    by_contra hc
    rw [if_neg hc] at h
    exact absurd h (by simp)
  · intro h
    rw [if_pos h]

/-- The add listener on a rendered timeline.  For an add request handled as a
task of its own, with a finite start `t` and trimmed tag `tag`: when `tag` is not empty and some record has
`startKey = frameKey(t)` and a normalized tag equal to that of `tag`, the
timeline is unchanged; in every other case (an empty `tag` included) exactly
one record, with `startKey = frameKey(t)` and `tagName = tag`, is inserted.
Hence a second request at the same frame whose tag differs only in case or
surrounding white space is rejected when the tags are not empty, and two such
requests on an empty timeline leave exactly one record. -/
theorem add_spec (lower : Str → Str) (tl : Timeline) (d : Detail) (t : ℚ)
    (hstart : d.start = .num t) :
    ((jsTrim (d.tag.getD []) ≠ [] ∧
        ∃ a ∈ tl.annotations, a.startKey = AnnotationTimeline.frameKey (.num t) ∧
          AnnotationTimeline.normalize lower a.tagName =
            AnnotationTimeline.normalize lower (jsTrim (d.tag.getD []))) →
      step lower tl (.add d) = tl) ∧
    (¬ (jsTrim (d.tag.getD []) ≠ [] ∧
        ∃ a ∈ tl.annotations, a.startKey = AnnotationTimeline.frameKey (.num t) ∧
          AnnotationTimeline.normalize lower a.tagName =
            AnnotationTimeline.normalize lower (jsTrim (d.tag.getD []))) →
      ∃ a : Ann, a.id = tl.nextId ∧ a.startKey = AnnotationTimeline.frameKey (.num t) ∧
        a.tagName = jsTrim (d.tag.getD []) ∧
        (step lower tl (.add d)).annotations.Perm (a :: tl.annotations)) ∧
    (jsTrim (d.tag.getD []) ≠ [] →
      ∀ (d2 : Detail) (t2 : ℚ), d2.start = .num t2 →
        AnnotationTimeline.frameKey (.num t2) = AnnotationTimeline.frameKey (.num t) →
        jsTrim (d2.tag.getD []) ≠ [] →
        AnnotationTimeline.normalize lower (d2.tag.getD []) =
          AnnotationTimeline.normalize lower (d.tag.getD []) →
        step lower (step lower tl (.add d)) (.add d2) =
            step lower tl (.add d) ∧
          (tl.annotations = [] →
            (step lower (step lower tl (.add d)) (.add d2)).annotations.length
              = 1)) := by
  have reject : ∀ (tl : Timeline) (d : Detail) (t : ℚ), d.start = .num t →
      (jsTrim (d.tag.getD []) ≠ [] ∧
        ∃ a ∈ tl.annotations, a.startKey = AnnotationTimeline.frameKey (.num t) ∧
          AnnotationTimeline.normalize lower a.tagName =
            AnnotationTimeline.normalize lower (jsTrim (d.tag.getD []))) →
      step lower tl (.add d) = tl := by
    intro tl d t hs h
    have hnone := (addAnnotationHandler_eq_none_iff lower tl.annotations tl.nextId d t hs).2
      ⟨h.1, (hasTagAtStart_iff _ _ _ _).2 h.2⟩
    rw [step_add, hnone]
  have accept : ∀ (tl : Timeline) (d : Detail) (t : ℚ), d.start = .num t →
      ¬ (jsTrim (d.tag.getD []) ≠ [] ∧
        ∃ a ∈ tl.annotations, a.startKey = AnnotationTimeline.frameKey (.num t) ∧
          AnnotationTimeline.normalize lower a.tagName =
            AnnotationTimeline.normalize lower (jsTrim (d.tag.getD []))) →
      ∃ a : Ann, a.id = tl.nextId ∧ a.startKey = AnnotationTimeline.frameKey (.num t) ∧
        a.tagName = jsTrim (d.tag.getD []) ∧
        (step lower tl (.add d)).annotations.Perm (a :: tl.annotations) := by
    intro tl d t hs h
    cases hh : AnnotationTimeline.addAnnotationHandler lower tl.annotations tl.nextId d with
    | none =>
      have := (addAnnotationHandler_eq_none_iff lower tl.annotations tl.nextId d t hs).1 hh
      exact absurd ⟨this.1, (hasTagAtStart_iff _ _ _ _).1 this.2⟩ h
    | some a =>
      obtain ⟨h1, h2, -, h4, -⟩ := addAnnotationHandler_some hh
      refine ⟨a, h1, by rw [h2, hs], h4, ?_⟩
      rw [step_add, hh]
      exact perm_insertSorted a tl.annotations
  refine ⟨reject tl d t hstart, accept tl d t hstart, ?_⟩
  intro hne d2 t2 hs2 hkey hne2 hnorm
  have hsecond : step lower (step lower tl (.add d)) (.add d2) =
      step lower tl (.add d) := by
    refine reject _ d2 t2 hs2 ⟨hne2, ?_⟩
    rw [normalize_jsTrim, hnorm, hkey]
    by_cases hdup : jsTrim (d.tag.getD []) ≠ [] ∧
        ∃ a ∈ tl.annotations, a.startKey = AnnotationTimeline.frameKey (.num t) ∧
          AnnotationTimeline.normalize lower a.tagName =
            AnnotationTimeline.normalize lower (jsTrim (d.tag.getD []))
    · rw [reject tl d t hstart hdup]
      obtain ⟨a, ha, hk, hn⟩ := hdup.2
      exact ⟨a, ha, hk, by rw [hn, normalize_jsTrim]⟩
    · obtain ⟨a, -, hk, htag, hperm⟩ := accept tl d t hstart hdup
      exact ⟨a, hperm.symm.subset (List.mem_cons_self _ _), hk, by rw [htag, normalize_jsTrim]⟩
  refine ⟨hsecond, ?_⟩
  intro hempty
  rw [hsecond]
  have hdup : ¬ (jsTrim (d.tag.getD []) ≠ [] ∧
        ∃ a ∈ tl.annotations, a.startKey = AnnotationTimeline.frameKey (.num t) ∧
          AnnotationTimeline.normalize lower a.tagName =
            AnnotationTimeline.normalize lower (jsTrim (d.tag.getD []))) := by
    rw [hempty]; simp
  obtain ⟨a, -, -, -, hperm⟩ := accept tl d t hstart hdup
  rw [hperm.length_eq, hempty]
  rfl

/-- Two requests for `Spin` and ` SPIN ` within the same frame, with a render
between them. -/
theorem add_spec_witness :
    (step asciiLower
        (step asciiLower Timeline.initial
          (.add ⟨.num 1, .num 2, some "Spin".toList, none, none⟩))
        (.add ⟨.num (101 / 100), .num 2, some " SPIN ".toList, none, none⟩)
      ).annotations.length = 1 :=
  ((add_spec asciiLower Timeline.initial
      ⟨.num 1, .num 2, some "Spin".toList, none, none⟩ 1 rfl).2.2 (by decide)
    ⟨.num (101 / 100), .num 2, some " SPIN ".toList, none, none⟩ (101 / 100) rfl
    (by decide!) (by decide) (by decide)).2 rfl

/-! ### Uniqueness of (start, normalized tag) -/

theorem uniqueTags_perm {lower : Str → Str} {l₁ l₂ : List Ann} (h : l₁.Perm l₂)
    (hu : UniqueTags lower l₁) : UniqueTags lower l₂ := by
  unfold UniqueTags at hu ⊢
  refine (h.pairwise_iff ?_).1 hu
  intro x y hxy hs
  exact (hxy ⟨hs.1.symm, hs.2.symm⟩).symm

theorem uniqueTags_insert {lower : Str → Str} {a : Ann} {prev : List Ann}
    (hu : UniqueTags lower prev)
    (ha : ∀ b ∈ prev, SameTagAtStart lower a b → a.tagName = [] ∨ b.tagName = []) :
    UniqueTags lower (AnnotationTimeline.insertSorted a prev) :=
  uniqueTags_perm (perm_insertSorted a prev).symm (List.pairwise_cons.2 ⟨ha, hu⟩)

theorem uniqueTags_dispatchAdds (lower : Str → Str) (seen : List Ann) :
    ∀ (ds : List Detail) (prev : List Ann) (n : ℕ),
      ds.Pairwise (fun d d' => ¬ Collide lower d d') → UniqueTags lower prev →
      (∀ a ∈ prev, a ∈ seen ∨ ∀ d ∈ ds,
        ¬ (a.startKey = AnnotationTimeline.frameKey d.start ∧
          AnnotationTimeline.normalize lower a.tagName =
            AnnotationTimeline.normalize lower (jsTrim (d.tag.getD [])))) →
      UniqueTags lower (dispatchAdds lower seen ds prev n).1 := by
  intro ds
  induction ds with
  | nil => intro prev n _ hu _; exact hu
  | cons d ds ih =>
    intro prev n hpw hu hprev
    rw [List.pairwise_cons] at hpw
    unfold dispatchAdds
    cases hh : AnnotationTimeline.addAnnotationHandler lower seen n d with
    | none =>
      refine ih prev n hpw.2 hu fun a ha => ?_
      exact (hprev a ha).imp id fun h d' hd' => h d' (List.mem_cons_of_mem _ hd')
    | some a =>
      obtain ⟨-, hs, -, htag, -, -, hcheck⟩ := addAnnotationHandler_some hh
      refine ih _ _ hpw.2 (uniqueTags_insert hu ?_) ?_
      · intro b hb hsame
        by_cases hne : a.tagName = []
        · exact Or.inl hne
        · exfalso
          rcases hprev b hb with hseen | hnew
          · have hfalse := hcheck hne
            rw [Bool.eq_false_iff] at hfalse
            exact hfalse ((hasTagAtStart_iff _ _ _ _).2 ⟨b, hseen, hsame.1.symm, hsame.2.symm⟩)
          · refine hnew d (List.mem_cons_self _ _) ⟨?_, ?_⟩
            · rw [← hs]; exact hsame.1.symm
            · rw [← htag]; exact hsame.2.symm
      · intro x hx
        rcases mem_insertSorted.1 hx with hx | rfl
        · exact (hprev x hx).imp id fun h d' hd' => h d' (List.mem_cons_of_mem _ hd')
        · right
          intro d' hd' hc
          refine hpw.1 d' hd' ⟨?_, ?_⟩
          · rw [← hs]; exact hc.1
          · rw [← htag]; exact hc.2

theorem uniqueTags_map {lower : Str → Str} {l : List Ann} (f : Ann → Ann)
    (hf : ∀ a, (f a).startKey = a.startKey ∧ (f a).tagName = a.tagName)
    (hu : UniqueTags lower l) : UniqueTags lower (l.map f) := by
  unfold UniqueTags at hu ⊢
  rw [List.pairwise_map]
  refine hu.imp ?_
  intro a b hab
  simpa [SameTagAtStart, hf a, hf b] using hab

theorem uniqueTags_updateTagName (lower : Str → Str) (id : ℕ) (val : Str) (prev : List Ann)
    (hids : (prev.map Ann.id).Nodup) (hu : UniqueTags lower prev) :
    UniqueTags lower (AnnotationTimeline.updateTagName lower id val prev) := by
  unfold AnnotationTimeline.updateTagName
  cases hfind : prev.find? (fun a => decide (a.id = id)) with
  | none => exact hu
  | some t =>
    dsimp only
    split
    · exact hu
    · rename_i hdup
      have htmem : t ∈ prev := List.mem_of_find?_eq_some hfind
      have htid : t.id = id := by simpa using List.find?_some hfind
      have hno : ∀ b ∈ prev, b.id ≠ id → b.startKey = t.startKey →
          AnnotationTimeline.normalize lower b.tagName = AnnotationTimeline.normalize lower val →
          False := by
        intro b hb h1 h2 h3
        apply hdup
        rw [List.any_eq_true]
        exact ⟨b, hb, by simp [h1, h2, h3]⟩
      have hkey : ∀ a ∈ prev, a.id = id → a.startKey = t.startKey := by
        intro a ha haid
        have := List.inj_on_of_nodup_map hids ha htmem (by rw [haid, htid])
        rw [this]
      have hpair : prev.Pairwise fun a b => a.id ≠ b.id := by
        rw [← List.pairwise_map (f := Ann.id) (R := fun x y => x ≠ y)]
        exact hids
      unfold UniqueTags at hu ⊢
      rw [List.pairwise_map]
      have hboth := List.pairwise_and_iff.2 ⟨hu, hpair⟩
      refine List.Pairwise.imp_of_mem ?_ hboth
      rintro a b ha hb ⟨hab, hne⟩ hsame
      by_cases h1 : a.id = id
      · have h2 : b.id ≠ id := fun h => hne (h1.trans h.symm)
        simp only [SameTagAtStart, h1, h2, if_true, if_false] at hsame
        exact (hno b hb h2 (by rw [← hsame.1, hkey a ha h1]) hsame.2.symm).elim
      · by_cases h2 : b.id = id
        · simp only [SameTagAtStart, h1, h2, if_true, if_false] at hsame
          exact (hno a ha h1 (by rw [hsame.1, hkey b hb h2]) hsame.2).elim
        · simp only [h1, h2, if_false] at hsame ⊢
          exact hab hsame

theorem actions_ne_nil {k tag : Str} (h : AnnotationTimeline.ACTIONS k = some tag) : tag ≠ [] := by
  unfold AnnotationTimeline.ACTIONS at h
  split_ifs at h <;> simp only [Option.some.injEq] at h <;> subst h <;> decide

theorem uniqueTags_step (lower : Str → Str) (tl : Timeline) (e : Event) (hw : WellFormed tl)
    (he : NoRepeatedRows lower e) (hu : UniqueTags lower tl.annotations) :
    UniqueTags lower (step lower tl e).annotations := by
  have sub : ∀ l : List Ann, l.Sublist tl.annotations → UniqueTags lower l :=
    fun l hl => List.Pairwise.sublist hl hu
  cases e with
  | add d =>
    exact uniqueTags_dispatchAdds lower _ [d] _ _ (List.pairwise_singleton _ _) hu
      fun a ha => Or.inl ha
  | keydown typing k ct =>
    simp only [step]
    cases hh : AnnotationTimeline.onKey lower tl.annotations ct tl.nextId typing k with
    | none => exact hu
    | some a =>
      obtain ⟨-, -, -, -, -, -, -, hcheck⟩ := onKey_some hh
      refine uniqueTags_insert hu ?_
      intro b hb hsame
      rw [Bool.eq_false_iff] at hcheck
      exact (hcheck ((hasTagAtStart_iff _ _ _ _).2 ⟨b, hb, hsame.1.symm, hsame.2.symm⟩)).elim
  | updateTagName id val => exact uniqueTags_updateTagName lower id val _ hw.2.2.2 hu
  | updateModifier id val =>
    refine uniqueTags_map _ (fun a => ?_) hu
    by_cases ha : a.id = id <;> simp [ha]
  | updateDown id val =>
    refine uniqueTags_map _ (fun a => ?_) hu
    by_cases ha : a.id = id <;> simp [ha]
  | remove id => exact sub _ (List.filter_sublist _)
  | deleteSelected selected =>
    simp only [step, AnnotationTimeline.deleteSelected]
    split
    · exact hu
    · exact sub _ (List.filter_sublist _)
  | clearAnnotations => exact List.Pairwise.nil
  | schemaFile text =>
    simp only [NoRepeatedRows] at he
    simp only [step]
    split
    · exact List.Pairwise.nil
    · exact List.Pairwise.nil
    · rename_i details hd
      rw [hd] at he
      exact uniqueTags_dispatchAdds lower _ details [] _ he List.Pairwise.nil
        fun a ha => by simp at ha

theorem uniqueTags_foldl (lower : Str → Str) (events : List Event) :
    ∀ tl, (∀ e ∈ events, NoRepeatedRows lower e) → WellFormed tl →
      UniqueTags lower tl.annotations →
      UniqueTags lower (events.foldl (step lower) tl).annotations := by
  induction events with
  | nil => intro tl _ _ h; exact h
  | cons e es ih =>
    intro tl he hw hu
    exact ih _ (fun e' h' => he e' (List.mem_cons_of_mem _ h')) (wellFormed_step lower tl e hw)
      (uniqueTags_step lower tl e hw (he e (List.mem_cons_self _ _)) hu)

/-- Uniqueness apart from repeated rows.  After any sequence of tasks from the
mounted timeline in which no imported file carries two rows with the same
`frameKey(start)` and normalized tag, two distinct records with equal
`startKey` and equal normalized `tagName` exist only where one of the two has
the empty `tagName`. -/
theorem uniqueness_invariant (lower : Str → Str) (events : List Event)
    (h : ∀ e ∈ events, NoRepeatedRows lower e) :
    (run lower events).annotations.Pairwise fun a b =>
      (a.startKey = b.startKey ∧
          AnnotationTimeline.normalize lower a.tagName =
            AnnotationTimeline.normalize lower b.tagName) →
        a.tagName = [] ∨ b.tagName = [] :=
  uniqueTags_foldl lower events _ h
    ⟨List.Pairwise.nil, by simp [Timeline.initial], by simp [Timeline.initial],
      by simp [Timeline.initial]⟩
    List.Pairwise.nil

/-- An add, an import of two distinct rows, a quick-add and a rename. -/
theorem uniqueness_invariant_witness :
    (run asciiLower
        [.add ⟨.num 1, .num 2, some "SPIN".toList, none, none⟩,
          .schemaFile "TagName,StartTime,EndTime,Modifiers\nSPIN,0.05,0.06,\nJUKE,0.05,0.06,".toList,
          .keydown false "s".toList (.num 5),
          .updateTagName 1 "spin".toList]).annotations.Pairwise fun a b =>
      (a.startKey = b.startKey ∧
          AnnotationTimeline.normalize asciiLower a.tagName =
            AnnotationTimeline.normalize asciiLower b.tagName) →
        a.tagName = [] ∨ b.tagName = [] :=
  uniqueness_invariant asciiLower _ (by
    intro e he
    simp only [List.mem_cons, List.mem_singleton, List.not_mem_nil, or_false] at he
    rcases he with rfl | rfl | rfl | rfl
    · trivial
    · have h : VideoPlayer.handleSchemaFile asciiLower
          "TagName,StartTime,EndTime,Modifiers\nSPIN,0.05,0.06,\nJUKE,0.05,0.06,".toList =
          .dispatched
            [⟨.num 5, .num 6, some "SPIN".toList, some [], none⟩,
              ⟨.num 5, .num 6, some "JUKE".toList, some [], none⟩] := by decide!
      simp only [NoRepeatedRows, h, List.pairwise_cons, List.mem_singleton, forall_eq,
        List.not_mem_nil, false_implies, implies_true, List.Pairwise.nil, and_true, Collide]
      decide!
    · trivial
    · trivial)

/-- C5, witness: the record created by an add request at `t = 1/25`. -/
theorem quantization_invariant_witness :
    (AnnotationTimeline.frameKey (.num (1 / 30)) = 1 / 30 ∧ ∃ n : ℤ, (1 / 30 : ℚ) = n / 30) ∧
      ∀ e, (some (1 / 15 : ℚ)) = some e →
        AnnotationTimeline.frameKey (.num e) = e ∧ ∃ n : ℤ, e = n / 30 :=
  quantization_invariant asciiLower
    [.add ⟨.num (1 / 25), .num (7 / 100), some "SPIN".toList, none, none⟩]
    ⟨0, 1 / 30, some (1 / 15), "SPIN".toList, [], []⟩ (by decide!)

/-- C6, witness: renaming record `1` to ` spin ` is refused while record `0`
holds `SPIN` at the same start. -/
theorem updateTagName_spec_witness :
    AnnotationTimeline.updateTagName asciiLower 1 " spin ".toList
        [⟨0, 5, none, "SPIN".toList, [], []⟩, ⟨1, 5, none, "JUKE".toList, [], []⟩] =
      [⟨0, 5, none, "SPIN".toList, [], []⟩, ⟨1, 5, none, "JUKE".toList, [], []⟩] :=
  ((updateTagName_spec asciiLower 1 " spin ".toList
      [⟨0, 5, none, "SPIN".toList, [], []⟩, ⟨1, 5, none, "JUKE".toList, [], []⟩]
      (by decide)).2 ⟨1, 5, none, "JUKE".toList, [], []⟩ (by decide!) rfl).1
    ⟨⟨0, 5, none, "SPIN".toList, [], []⟩, by decide!, by decide, rfl, by decide⟩

/-! ### Decimal numerals -/

theorem isDecimalDigit_iff (c : Char) :
    VideoPlayer.isDecimalDigit c = true ↔ 48 ≤ c.toNat ∧ c.toNat ≤ 57 := by
  simp only [VideoPlayer.isDecimalDigit, Bool.and_eq_true, decide_eq_true_eq, Char.le_def,
    UInt32.le_def, Char.toNat]
  rfl

theorem digitChar_spec (k : ℕ) (h : k < 10) :
    VideoPlayer.isDecimalDigit (Nat.digitChar k) = true ∧ (Nat.digitChar k).toNat - 48 = k := by
  interval_cases k <;> decide

theorem isWhiteSpace_of_digit {c : Char} (h : VideoPlayer.isDecimalDigit c = true) :
    isWhiteSpace c = false := by
  rw [isDecimalDigit_iff] at h
  simp only [isWhiteSpace, Bool.or_eq_false_iff, beq_eq_false_iff_ne, ne_eq,
    Bool.and_eq_false_imp, decide_eq_true_eq, decide_eq_false_iff_not]
  omega

theorem decimalValue_append (ds : Str) (c : Char) :
    VideoPlayer.decimalValue (ds ++ [c]) = 10 * VideoPlayer.decimalValue ds + (c.toNat - 48) := by
  simp [VideoPlayer.decimalValue, List.foldl_append]

theorem toDigitsCore_spec :
    ∀ (fuel n : ℕ) (acc : List Char), n < fuel →
      ∃ ds : Str, Nat.toDigitsCore 10 fuel n acc = ds ++ acc ∧ ds ≠ [] ∧
        (∀ c ∈ ds, VideoPlayer.isDecimalDigit c = true) ∧ VideoPlayer.decimalValue ds = n ∧
        (n < 10 → ds.length = 1) ∧ (10 ≤ n → n < 100 → ds.length = 2) := by
  intro fuel
  induction fuel with
  | zero => intro n acc h; omega
  | succ fuel ih =>
    intro n acc h
    have hd := digitChar_spec (n % 10) (Nat.mod_lt _ (by norm_num))
    by_cases h0 : n / 10 = 0
    · refine ⟨[Nat.digitChar (n % 10)], by simp [Nat.toDigitsCore, h0], by simp, ?_, ?_, ?_, ?_⟩
      · intro c hc
        rw [List.mem_singleton] at hc
        rw [hc]; exact hd.1
      · simp only [VideoPlayer.decimalValue, List.foldl, hd.2]
        omega
      · intro _; rfl
      · intro h1 _; omega
    · obtain ⟨ds, h1, _, h3, h4, h5, _⟩ := ih (n / 10) (Nat.digitChar (n % 10) :: acc) (by omega)
      refine ⟨ds ++ [Nat.digitChar (n % 10)], by simp [Nat.toDigitsCore, h0, h1], by simp,
        ?_, ?_, ?_, ?_⟩
      · intro c hc
        rcases List.mem_append.1 hc with hc | hc
        · exact h3 c hc
        · rw [List.mem_singleton] at hc
          rw [hc]; exact hd.1
      · rw [decimalValue_append, h4, hd.2]
        omega
      · intro h1; omega
      · intro _ h2
        rw [List.length_append, h5 (by omega)]
        rfl

theorem natToStr_spec (n : ℕ) :
    natToStr n ≠ [] ∧ (∀ c ∈ natToStr n, VideoPlayer.isDecimalDigit c = true) ∧
      VideoPlayer.decimalValue (natToStr n) = n ∧ (n < 10 → (natToStr n).length = 1) ∧
      (10 ≤ n → n < 100 → (natToStr n).length = 2) := by
  obtain ⟨ds, h1, h2, h3, h4, h5, h6⟩ := toDigitsCore_spec (n + 1) n [] (Nat.lt_succ_self n)
  have : natToStr n = ds := by
    simp [natToStr, Nat.toDigits, h1]
  rw [this]
  exact ⟨h2, h3, h4, h5, h6⟩

theorem padStart2_spec (n : ℕ) (h : n < 60) :
    padStart2 (natToStr n) ≠ [] ∧
      (∀ c ∈ padStart2 (natToStr n), VideoPlayer.isDecimalDigit c = true) ∧
      VideoPlayer.decimalValue (padStart2 (natToStr n)) = n := by
  obtain ⟨h1, h2, h3, h4, h5⟩ := natToStr_spec n
  by_cases hn : n < 10
  · have hl := h4 hn
    have : padStart2 (natToStr n) = '0' :: natToStr n := by
      simp [padStart2, hl]
    rw [this]
    refine ⟨by simp, ?_, ?_⟩
    · intro c hc
      rcases List.mem_cons.1 hc with rfl | hc
      · decide
      · exact h2 c hc
    · have : VideoPlayer.decimalValue ('0' :: natToStr n) = VideoPlayer.decimalValue (natToStr n) := by
        simp [VideoPlayer.decimalValue, List.foldl]
      rw [this, h3]
  · have hl := h5 (by omega) (by omega)
    have : padStart2 (natToStr n) = natToStr n := by
      simp [padStart2, hl]
    rw [this]
    exact ⟨h1, h2, h3⟩

theorem jsTrim_eq_self (s : Str) (h1 : ∀ h : s ≠ [], isWhiteSpace (s.head h) = false)
    (h2 : ∀ h : s ≠ [], isWhiteSpace (s.getLast h) = false) : jsTrim s = s := by
  unfold jsTrim
  have hd : s.dropWhile isWhiteSpace = s := by
    rw [List.dropWhile_eq_self_iff]
    intro hl
    rw [List.get_mk_zero]
    simp [h1 (List.length_pos.1 hl)]
  rw [hd, List.rdropWhile_eq_self_iff]
  intro hl
  simp [h2 hl]

theorem takeWhile_digits (ds : Str) (h : ∀ c ∈ ds, VideoPlayer.isDecimalDigit c = true) :
    ds.takeWhile VideoPlayer.isDecimalDigit = ds ∧ ds.dropWhile VideoPlayer.isDecimalDigit = [] := by
  constructor
  · rw [List.takeWhile_eq_self_iff]; exact h
  · rw [List.dropWhile_eq_nil_iff]; exact h

theorem digit_facts {c : Char} (h : VideoPlayer.isDecimalDigit c = true) :
    c ≠ '.' ∧ c ≠ '+' ∧ c ≠ '-' ∧ c ≠ 'x' ∧ c ≠ 'X' ∧ c ≠ 'o' ∧ c ≠ 'O' ∧ c ≠ 'b' ∧ c ≠ 'B' ∧
      c ≠ lf ∧ c ≠ cr ∧ c ≠ dq ∧ c ≠ ',' := by
  refine ⟨?_, ?_, ?_, ?_, ?_, ?_, ?_, ?_, ?_, ?_, ?_, ?_, ?_⟩ <;> rintro rfl <;> revert h <;> decide

theorem jsNumber_digits (ds : Str) (hne : ds ≠ [])
    (h : ∀ c ∈ ds, VideoPlayer.isDecimalDigit c = true) :
    VideoPlayer.jsNumber ds = some (VideoPlayer.decimalValue ds : ℚ) := by
  have htrim : jsTrim ds = ds := by
    refine jsTrim_eq_self ds (fun hn => ?_) (fun hn => ?_)
    · exact isWhiteSpace_of_digit (h _ (List.head_mem hn))
    · exact isWhiteSpace_of_digit (h _ (List.getLast_mem hn))
  have hnd : VideoPlayer.nonDecimal ds = none := by
    unfold VideoPlayer.nonDecimal
    split
    · rename_i p rest
      have hp := digit_facts (h p (by simp))
      simp [hp.2.2.2.1, hp.2.2.2.2.1, hp.2.2.2.2.2.1, hp.2.2.2.2.2.2.1, hp.2.2.2.2.2.2.2.1,
        hp.2.2.2.2.2.2.2.2.1]
    · rfl
  have hud : VideoPlayer.unsignedDecimal ds = some (VideoPlayer.decimalValue ds : ℚ) := by
    unfold VideoPlayer.unsignedDecimal
    simp only [(takeWhile_digits ds h).1, (takeWhile_digits ds h).2]
    simp [hne, VideoPlayer.exponentPart]
  unfold VideoPlayer.jsNumber
  simp only [htrim, if_neg hne, hnd]
  cases ds with
  | nil => exact absurd rfl hne
  | cons c rest =>
    have hc := digit_facts (h c (by simp))
    split
    · rename_i r heq
      simp only [List.cons.injEq] at heq
      exact absurd heq.1 hc.2.1
    · rename_i r heq
      simp only [List.cons.injEq] at heq
      exact absurd heq.1 hc.2.2.1
    · exact hud

theorem parseSchemaTime_point (ms ss : Str) (hm : ms ≠ []) (hs : ss ≠ [])
    (hmd : ∀ c ∈ ms, VideoPlayer.isDecimalDigit c = true)
    (hsd : ∀ c ∈ ss, VideoPlayer.isDecimalDigit c = true)
    (h59 : VideoPlayer.decimalValue ss ≤ 59) :
    VideoPlayer.parseSchemaTime (some (ms ++ '.' :: ss)) =
      some ((VideoPlayer.decimalValue ms : ℚ) * 60 + VideoPlayer.decimalValue ss) := by
  have htrim : jsTrim (ms ++ '.' :: ss) = ms ++ '.' :: ss := by
    refine jsTrim_eq_self _ (fun hn => ?_) (fun hn => ?_)
    · rw [List.head_append_of_ne_nil hm]
      exact isWhiteSpace_of_digit (hmd _ (List.head_mem hm))
    · rw [List.getLast_append_of_ne_nil (by simp), List.getLast_cons hs]
      exact isWhiteSpace_of_digit (hsd _ (List.getLast_mem hs))
  have hsplit : (ms ++ '.' :: ss).splitOn '.' = [ms, ss] := by
    have := List.splitOn_intercalate [ms, ss] '.' (by
      intro l hl
      simp only [List.mem_cons, List.mem_singleton, List.not_mem_nil, or_false] at hl
      rcases hl with rfl | rfl
      · intro hc; exact (digit_facts (hmd _ hc)).1 rfl
      · intro hc; exact (digit_facts (hsd _ hc)).1 rfl) (by simp)
    simpa [List.intercalate, List.intersperse] using this
  have hq : ¬ ((VideoPlayer.decimalValue ss : ℚ) < 0 ∨ (VideoPlayer.decimalValue ss : ℚ) > 59) := by
    have h1 : (0 : ℚ) ≤ (VideoPlayer.decimalValue ss : ℚ) := Nat.cast_nonneg _
    have h2 : (VideoPlayer.decimalValue ss : ℚ) ≤ 59 := by exact_mod_cast h59
    rintro (h | h) <;> linarith
  unfold VideoPlayer.parseSchemaTime
  simp only [htrim, hsplit, jsNumber_digits ms hm hmd, jsNumber_digits ss hs hsd]
  rw [if_neg (by simp), if_pos (by simp), if_neg hq]

/-! ### The field loop of `parseCSVLine` -/

theorem parseCSVLoop_plain (ch : Char) (rest cur : Str) (inQ : Bool) (out : List Str)
    (h : ch ≠ dq) :
    VideoPlayer.parseCSVLoop (ch :: rest) cur inQ out =
      if ch = ',' ∧ inQ = false then VideoPlayer.parseCSVLoop rest [] inQ (out ++ [cur])
      else VideoPlayer.parseCSVLoop rest (cur ++ [ch]) inQ out := by
  cases rest with
  | nil =>
    by_cases hc : ch = ',' ∧ inQ = false
    · simp only [VideoPlayer.parseCSVLoop, if_neg h, if_pos hc]
    · simp only [VideoPlayer.parseCSVLoop, if_neg h, if_neg hc]
  | cons d rest => simp only [VideoPlayer.parseCSVLoop, if_neg h]

theorem parseCSVLoop_open (rest cur : Str) (out : List Str) :
    VideoPlayer.parseCSVLoop (dq :: rest) cur false out =
      VideoPlayer.parseCSVLoop rest cur true out := by
  cases rest with
  | nil => simp [VideoPlayer.parseCSVLoop]
  | cons d rest => simp [VideoPlayer.parseCSVLoop]

theorem parseCSVLoop_doubled (rest cur : Str) (out : List Str) :
    VideoPlayer.parseCSVLoop (dq :: dq :: rest) cur true out =
      VideoPlayer.parseCSVLoop rest (cur ++ [dq]) true out := by
  simp [VideoPlayer.parseCSVLoop]

theorem parseCSVLoop_close (rest cur : Str) (out : List Str) (h : rest.head? ≠ some dq) :
    VideoPlayer.parseCSVLoop (dq :: rest) cur true out =
      VideoPlayer.parseCSVLoop rest cur false out := by
  cases rest with
  | nil => simp [VideoPlayer.parseCSVLoop]
  | cons d rest =>
    have hd : d ≠ dq := by simpa using h
    simp [VideoPlayer.parseCSVLoop, hd]

theorem parseCSVLoop_raw (out : List Str) :
    ∀ (f tail cur : Str), (∀ c ∈ f, c ≠ dq ∧ c ≠ ',') →
      VideoPlayer.parseCSVLoop (f ++ tail) cur false out =
        VideoPlayer.parseCSVLoop tail (cur ++ f) false out := by
  intro f
  induction f with
  | nil => intro tail cur _; simp
  | cons c f ih =>
    intro tail cur h
    have hc := h c (List.mem_cons_self _ _)
    rw [List.cons_append, parseCSVLoop_plain _ _ _ _ _ hc.1, if_neg (by simp [hc.2]),
      ih tail _ fun x hx => h x (List.mem_cons_of_mem _ hx)]
    simp

theorem parseCSVLoop_quoted (out : List Str) :
    ∀ (f tail cur : Str), tail.head? ≠ some dq →
      VideoPlayer.parseCSVLoop ((f.flatMap fun c => if c = dq then [dq, dq] else [c]) ++ dq :: tail)
          cur true out =
        VideoPlayer.parseCSVLoop tail (cur ++ f) false out := by
  intro f
  induction f with
  | nil =>
    intro tail cur h
    simpa using parseCSVLoop_close tail cur out h
  | cons c f ih =>
    intro tail cur h
    by_cases hc : c = dq
    · subst hc
      simp only [List.flatMap_cons, if_true, List.cons_append, List.nil_append, List.append_assoc]
      rw [parseCSVLoop_doubled, ih tail _ h]
      simp
    · simp only [List.flatMap_cons, if_neg hc, List.cons_append, List.nil_append,
        List.append_assoc]
      rw [parseCSVLoop_plain _ _ _ _ _ hc, if_neg (by simp), ih tail _ h]
      simp

theorem parseCSVLoop_esc (out : List Str) (f tail cur : Str) (h : tail.head? ≠ some dq) :
    VideoPlayer.parseCSVLoop (AnnotationTimeline.esc f ++ tail) cur false out =
      VideoPlayer.parseCSVLoop tail (cur ++ f) false out := by
  unfold AnnotationTimeline.esc
  split
  · rw [List.cons_append, List.cons_append, parseCSVLoop_open, List.append_assoc,
      List.singleton_append,
      parseCSVLoop_quoted out f tail cur h]
  · rename_i hany
    refine parseCSVLoop_raw out f tail cur ?_
    intro c hc
    simp only [List.any_eq_true, not_exists, not_and, Bool.or_eq_true, beq_iff_eq,
      not_or] at hany
    exact ⟨(hany c hc).1.1, (hany c hc).1.2⟩

theorem intercalate_cons_cons (sep a b : Str) (l : List Str) :
    sep.intercalate (a :: b :: l) = a ++ sep ++ sep.intercalate (b :: l) := by
  simp [List.intercalate, List.intersperse]

theorem parseCSVLoop_fields :
    ∀ (fs : List Str) (f : Str) (out : List Str),
      VideoPlayer.parseCSVLoop ([','].intercalate ((f :: fs).map AnnotationTimeline.esc)) []
          false out = out ++ f :: fs := by
  intro fs
  induction fs with
  | nil =>
    intro f out
    have := parseCSVLoop_esc out f [] [] (by simp)
    simpa [List.intercalate, List.intersperse, VideoPlayer.parseCSVLoop] using this
  | cons g fs ih =>
    intro f out
    rw [List.map_cons, List.map_cons, intercalate_cons_cons, List.append_assoc,
      parseCSVLoop_esc out f _ [] (by simp; decide), List.singleton_append,
      parseCSVLoop_plain _ _ _ _ _ (by decide), if_pos (by simp), ← List.map_cons, ih g]
    simp

theorem parseCSVLine_escaped (f : Str) (fs : List Str) :
    VideoPlayer.parseCSVLine ([','].intercalate ((f :: fs).map AnnotationTimeline.esc)) =
      (f :: fs).map jsTrim := by
  unfold VideoPlayer.parseCSVLine
  rw [parseCSVLoop_fields]
  simp

/-! ### Lines of an exported file -/

theorem normalizeLineBreaks_of_no_cr :
    ∀ t : Str, cr ∉ t → VideoPlayer.normalizeLineBreaks t = t := by
  intro t
  induction t using VideoPlayer.normalizeLineBreaks.induct with
  | case1 => intro _; rfl
  | case2 rest _ => intro h; simp at h
  | case3 d rest _ _ => intro h; simp at h
  | case4 c d rest hc ih =>
    intro h
    rw [VideoPlayer.normalizeLineBreaks, if_neg hc, ih (fun hm => h (List.mem_cons_of_mem _ hm))]
  | case5 => intro h; simp at h
  | case6 c hc => intro _; simp [VideoPlayer.normalizeLineBreaks, hc]

theorem mem_intercalate {sep : Str} {c : Char} :
    ∀ {ls : List Str}, c ∈ sep.intercalate ls → c ∈ sep ∨ ∃ l ∈ ls, c ∈ l := by
  intro ls
  induction ls with
  | nil => intro h; simp [List.intercalate, List.intersperse] at h
  | cons a ls ih =>
    cases ls with
    | nil => intro h; right; exact ⟨a, by simp, by simpa [List.intercalate, List.intersperse] using h⟩
    | cons b ls =>
      intro h
      rw [intercalate_cons_cons, List.mem_append, List.mem_append] at h
      rcases h with (h | h) | h
      · exact Or.inr ⟨a, by simp, h⟩
      · exact Or.inl h
      · rcases ih h with h | ⟨l, hl, hc⟩
        · exact Or.inl h
        · exact Or.inr ⟨l, List.mem_cons_of_mem _ hl, hc⟩

theorem mem_esc {c : Char} {f : Str} (h : c ∈ AnnotationTimeline.esc f) : c = dq ∨ c ∈ f := by
  unfold AnnotationTimeline.esc at h
  split at h
  · simp only [List.cons_append, List.mem_cons, List.mem_append, List.mem_flatMap,
      List.mem_singleton, List.not_mem_nil, or_false] at h
    rcases h with h | ⟨x, hx, hc⟩ | h
    · exact Or.inl h
    · by_cases hq : x = dq
      · rw [if_pos hq] at hc
        simp only [List.mem_cons, List.mem_singleton, List.not_mem_nil, or_false, or_self] at hc
        exact Or.inl hc
      · rw [if_neg hq] at hc
        simp only [List.mem_singleton] at hc
        exact Or.inr (hc ▸ hx)
    · exact Or.inl h
  · exact Or.inr h

theorem fmtMdotS_of_floor (k : ℚ) (n : ℕ) (h : ⌊k⌋ = (n : ℤ)) :
    AnnotationTimeline.fmtMdotS (.num k) =
      natToStr (n / 60) ++ '.' :: padStart2 (natToStr (n % 60)) := by
  have h1 : ((n : ℤ) / 60) = ((n / 60 : ℕ) : ℤ) := by norm_cast
  have h2 : ((n : ℤ).tmod 60) = ((n % 60 : ℕ) : ℤ) := by
    rw [Int.tmod_eq_emod (by positivity) (by norm_num)]
    norm_cast
  simp only [AnnotationTimeline.fmtMdotS, toNumber, h, h1, h2, intToStr, Int.natAbs_ofNat]
  rw [if_neg (by omega), if_neg (by omega)]

theorem exists_floor_nat {k : ℚ} (h : 0 ≤ k) : ∃ n : ℕ, ⌊k⌋ = (n : ℤ) :=
  ⟨⌊k⌋.toNat, (Int.toNat_of_nonneg (Int.floor_nonneg.2 h)).symm⟩

theorem fmtMdotS_chars {k : ℚ} (h : 0 ≤ k) {c : Char}
    (hc : c ∈ AnnotationTimeline.fmtMdotS (.num k)) :
    VideoPlayer.isDecimalDigit c = true ∨ c = '.' := by
  obtain ⟨n, hn⟩ := exists_floor_nat h
  rw [fmtMdotS_of_floor k n hn, List.mem_append, List.mem_cons] at hc
  rcases hc with hc | hc | hc
  · exact Or.inl ((natToStr_spec _).2.1 c hc)
  · exact Or.inr hc
  · exact Or.inl ((padStart2_spec _ (Nat.mod_lt _ (by norm_num))).2.1 c hc)

theorem parseSchemaTime_fmtMdotS {k : ℚ} (h : 0 ≤ k) :
    VideoPlayer.parseSchemaTime (some (jsTrim (AnnotationTimeline.fmtMdotS (.num k)))) =
      some ((⌊k⌋ : ℤ) : ℚ) := by
  obtain ⟨n, hn⟩ := exists_floor_nat h
  have hm := natToStr_spec (n / 60)
  have hs := padStart2_spec (n % 60) (Nat.mod_lt _ (by norm_num))
  have htrim : jsTrim (natToStr (n / 60) ++ '.' :: padStart2 (natToStr (n % 60))) =
      natToStr (n / 60) ++ '.' :: padStart2 (natToStr (n % 60)) := by
    refine jsTrim_eq_self _ (fun hne => ?_) (fun hne => ?_)
    · rw [List.head_append_of_ne_nil hm.1]
      exact isWhiteSpace_of_digit (hm.2.1 _ (List.head_mem hm.1))
    · rw [List.getLast_append_of_ne_nil (by simp), List.getLast_cons hs.1]
      exact isWhiteSpace_of_digit (hs.2.1 _ (List.getLast_mem hs.1))
  rw [fmtMdotS_of_floor k n hn, htrim,
    parseSchemaTime_point _ _ hm.1 hs.1 hm.2.1 hs.2.1 (by rw [hs.2.2]; omega), hm.2.2.1, hs.2.2,
    hn]
  congr 1
  have h := congrArg (Nat.cast : ℕ → ℚ) (Nat.div_add_mod' n 60)
  rw [Nat.cast_add, Nat.cast_mul] at h
  rw [Int.cast_natCast]
  exact_mod_cast h

theorem frameKey_intCast (n : ℤ) : AnnotationTimeline.frameKey (.num (n : ℚ)) = n := by
  have h : ((n : ℚ) * FPS) = ((n * 30 : ℤ) : ℚ) := by unfold FPS; push_cast; ring
  simp only [AnnotationTimeline.frameKey, h, mathRound_intCast]
  unfold FPS
  push_cast
  field_simp

/-! ### Export followed by import -/

theorem rowFields_chars {r : Ann} (h : Exportable r) {f : Str}
    (hf : f ∈ AnnotationTimeline.rowFields r) {c : Char} (hc : c ∈ f) : c ≠ lf ∧ c ≠ cr := by
  obtain ⟨h0, he, -, -, -, hch⟩ := h
  have fmt : ∀ k : ℚ, 0 ≤ k → c ∈ AnnotationTimeline.fmtMdotS (.num k) → c ≠ lf ∧ c ≠ cr := by
    intro k hk hc
    rcases fmtMdotS_chars hk hc with hd | rfl
    · exact ⟨(digit_facts hd).2.2.2.2.2.2.2.2.2.1, (digit_facts hd).2.2.2.2.2.2.2.2.2.2.1⟩
    · decide
  simp only [AnnotationTimeline.rowFields, List.mem_cons, List.mem_singleton, List.not_mem_nil,
    or_false] at hf
  rcases hf with rfl | rfl | rfl | rfl | rfl
  · exact hch c (by simp [hc])
  · exact fmt _ h0 hc
  · cases hk : r.endKey with
    | none => rw [hk] at hc; simp at hc
    | some e => rw [hk] at hc; exact fmt e (he e (by simp [hk])) hc
  · exact hch c (by simp [hc])
  · exact hch c (by simp [hc])

theorem rowLine_chars {r : Ann} (h : Exportable r) {c : Char}
    (hc : c ∈ [','].intercalate ((AnnotationTimeline.rowFields r).map AnnotationTimeline.esc)) :
    c ≠ lf ∧ c ≠ cr := by
  rcases mem_intercalate hc with hc | ⟨l, hl, hc⟩
  · rw [List.mem_singleton] at hc
    subst hc
    decide
  · obtain ⟨f, hf, rfl⟩ := List.mem_map.1 hl
    rcases mem_esc hc with rfl | hc
    · decide
    · exact rowFields_chars h hf hc

theorem rowLine_ne_nil (r : Ann) :
    [','].intercalate ((AnnotationTimeline.rowFields r).map AnnotationTimeline.esc) ≠ [] := by
  simp [AnnotationTimeline.rowFields, List.intercalate, List.intersperse]

theorem splitLines_toCSV (store : List Ann) (h : ∀ r ∈ store, Exportable r) :
    VideoPlayer.splitLines (AnnotationTimeline.toCSV store) =
      [','].intercalate AnnotationTimeline.csvHeader ::
        store.map fun r =>
          [','].intercalate ((AnnotationTimeline.rowFields r).map AnnotationTimeline.esc) := by
  have hline : ∀ l ∈ ([','].intercalate AnnotationTimeline.csvHeader ::
      store.map fun r =>
        [','].intercalate ((AnnotationTimeline.rowFields r).map AnnotationTimeline.esc)),
      l ≠ [] ∧ ∀ c ∈ l, c ≠ lf ∧ c ≠ cr := by
    intro l hl
    rcases List.mem_cons.1 hl with rfl | hl
    · decide
    · obtain ⟨r, hr, rfl⟩ := List.mem_map.1 hl
      exact ⟨rowLine_ne_nil r, fun c hc => rowLine_chars (h r hr) hc⟩
  have hcr : cr ∉ AnnotationTimeline.toCSV store := by
    intro hc
    rcases mem_intercalate hc with hc | ⟨l, hl, hc⟩
    · revert hc; decide
    · exact ((hline l hl).2 _ hc).2 rfl
  unfold VideoPlayer.splitLines
  rw [normalizeLineBreaks_of_no_cr _ hcr]
  unfold AnnotationTimeline.toCSV
  rw [List.splitOn_intercalate _ lf (fun l hl hc => ((hline l hl).2 _ hc).1 rfl) (by simp),
    List.filter_eq_self]
  intro l hl
  have := (hline l hl).1
  cases l with
  | nil => exact absurd rfl this
  | cons a l => rfl

theorem header_lookup (lower : Str → Str) (hl : LowersAscii lower) :
    (VideoPlayer.parseCSVLine ([','].intercalate AnnotationTimeline.csvHeader)).map lower =
      ["tagname".toList, "starttime".toList, "endtime".toList, "modifiers".toList,
        "down".toList] := by
  have h : VideoPlayer.parseCSVLine ([','].intercalate AnnotationTimeline.csvHeader) =
      AnnotationTimeline.csvHeader := by decide
  rw [h]
  simp only [AnnotationTimeline.csvHeader, List.map_cons, List.map_nil]
  rw [hl _ (by decide), hl _ (by decide), hl _ (by decide), hl _ (by decide), hl _ (by decide)]
  decide

theorem rowDetail_rowLine {r : Ann} (h : Exportable r) :
    VideoPlayer.rowDetail 0 1 2 3
        ([','].intercalate ((AnnotationTimeline.rowFields r).map AnnotationTimeline.esc)) =
      some
        { start := .num ((⌊r.startKey⌋ : ℤ) : ℚ),
          end_ := .num ((⌊r.endKey.getD r.startKey⌋ : ℤ) : ℚ),
          tag := some r.tagName, modifier := some r.modifier, down := none } := by
  obtain ⟨h0, he, hne, htag, hmod, -⟩ := h
  have hcols : VideoPlayer.parseCSVLine
      ([','].intercalate ((AnnotationTimeline.rowFields r).map AnnotationTimeline.esc)) =
      (AnnotationTimeline.rowFields r).map jsTrim := by
    unfold AnnotationTimeline.rowFields
    exact parseCSVLine_escaped _ _
  have hnil : VideoPlayer.parseSchemaTime (some (jsTrim [])) = none := by decide
  unfold VideoPlayer.rowDetail
  simp only [hcols]
  cases hk : r.endKey with
  | none =>
    simp only [AnnotationTimeline.rowFields, hk, List.map_cons, List.map_nil, List.length_cons,
      List.length_nil, List.getElem?_cons_zero, List.getElem?_cons_succ, Option.getD_some,
      htag, hmod, parseSchemaTime_fmtMdotS h0, hnil, Option.getD_none]
    rw [if_neg (by norm_num), if_neg hne]
  | some e =>
    simp only [AnnotationTimeline.rowFields, hk, List.map_cons, List.map_nil, List.length_cons,
      List.length_nil, List.getElem?_cons_zero, List.getElem?_cons_succ, Option.getD_some,
      htag, hmod, parseSchemaTime_fmtMdotS h0, parseSchemaTime_fmtMdotS (he e (by simp [hk]))]
    rw [if_neg (by norm_num), if_neg hne]

theorem handleSchemaFile_toCSV (lower : Str → Str) (hl : LowersAscii lower) (store : List Ann)
    (h : ∀ r ∈ store, Exportable r) :
    VideoPlayer.handleSchemaFile lower (AnnotationTimeline.toCSV store) =
      .dispatched (store.map fun r =>
        { start := .num ((⌊r.startKey⌋ : ℤ) : ℚ),
          end_ := .num ((⌊r.endKey.getD r.startKey⌋ : ℤ) : ℚ),
          tag := some r.tagName, modifier := some r.modifier, down := none }) := by
  have hidx : List.indexOf? "tagname".toList ["tagname".toList, "starttime".toList,
        "endtime".toList, "modifiers".toList, "down".toList] = some 0 ∧
      List.indexOf? "starttime".toList ["tagname".toList, "starttime".toList,
        "endtime".toList, "modifiers".toList, "down".toList] = some 1 ∧
      List.indexOf? "endtime".toList ["tagname".toList, "starttime".toList,
        "endtime".toList, "modifiers".toList, "down".toList] = some 2 ∧
      List.indexOf? "modifiers".toList ["tagname".toList, "starttime".toList,
        "endtime".toList, "modifiers".toList, "down".toList] = some 3 := by decide
  unfold VideoPlayer.handleSchemaFile
  rw [splitLines_toCSV store h]
  simp only [header_lookup lower hl, hidx.1, hidx.2.1, hidx.2.2.1, hidx.2.2.2]
  congr 1
  rw [List.filterMap_map]
  induction store with
  | nil => rfl
  | cons r rs ih =>
    rw [List.filterMap_cons, List.map_cons, Function.comp_apply,
      rowDetail_rowLine (h r (List.mem_cons_self _ _))]
    simp only
    rw [ih fun x hx => h x (List.mem_cons_of_mem _ hx)]

theorem dispatchAdds_fresh (lower : Str → Str) :
    ∀ (ds : List Detail) (prev : List Ann) (n : ℕ), (∀ d ∈ ds, ∃ t, d.start = .num t) →
      ((dispatchAdds lower [] ds prev n).1.map importedView).Perm
        (prev.map importedView ++ ds.map fun d =>
          (AnnotationTimeline.frameKey d.start,
            if isFiniteGlobal d.end_ then some (AnnotationTimeline.frameKey d.end_) else none,
            jsTrim (d.tag.getD []), jsTrim (d.modifier.getD []))) := by
  intro ds
  induction ds with
  | nil => intro prev n _; simp [dispatchAdds]
  | cons d ds ih =>
    intro prev n h
    obtain ⟨t, ht⟩ := h d (List.mem_cons_self _ _)
    unfold dispatchAdds
    cases hh : AnnotationTimeline.addAnnotationHandler lower [] n d with
    | none =>
      have := (addAnnotationHandler_eq_none_iff lower [] n d t ht).1 hh
      simp [AnnotationTimeline.hasTagAtStart] at this
    | some a =>
      obtain ⟨-, h2, h3, h4, h5, -⟩ := addAnnotationHandler_some hh
      refine (ih _ _ fun d' hd' => h d' (List.mem_cons_of_mem _ hd')).trans ?_
      have hp : ((AnnotationTimeline.insertSorted a prev).map importedView).Perm
          (prev.map importedView ++ [importedView a]) :=
        ((perm_insertSorted a prev).map importedView).trans
          (by rw [List.map_cons]; exact (List.perm_append_singleton _ _).symm)
      rw [List.map_cons, ← List.singleton_append (l := ds.map _), ← List.append_assoc]
      refine List.Perm.append_right _ ?_
      have ha : importedView a = (AnnotationTimeline.frameKey d.start,
          if isFiniteGlobal d.end_ then some (AnnotationTimeline.frameKey d.end_) else none,
          jsTrim (d.tag.getD []), jsTrim (d.modifier.getD [])) := by
        simp [importedView, h2, h3, h4, h5]
      rw [← ha]
      exact hp

/-! ### Import on a timeline that is not empty -/

theorem indexOf?_eq_none {x : Str} {l : List Str} (h : x ∉ l) : l.indexOf? x = none := by
  unfold List.indexOf?
  rw [List.findIdx?_eq_none_iff]
  intro y hy
  simp only [beq_eq_false_iff_ne, ne_eq]
  rintro rfl
  exact h hy

theorem handleSchemaFile_malformed (lower : Str → Str) (text first : Str) (rows : List Str)
    (hlines : VideoPlayer.splitLines text = first :: rows)
    (hmiss : ∃ name ∈ ["tagname".toList, "starttime".toList, "endtime".toList,
        "modifiers".toList], name ∉ (VideoPlayer.parseCSVLine first).map lower) :
    VideoPlayer.handleSchemaFile lower text = .malformed := by
  unfold VideoPlayer.handleSchemaFile
  rw [hlines]
  obtain ⟨name, hname, hno⟩ := hmiss
  have hnone := indexOf?_eq_none hno
  simp only [List.mem_cons, List.mem_singleton, List.not_mem_nil, or_false] at hname
  dsimp only
  rcases hname with rfl | rfl | rfl | rfl <;> rw [hnone] <;> split <;> simp_all

theorem step_schemaFile_malformed (lower : Str → Str) (tl : Timeline) (text : Str)
    (h : VideoPlayer.handleSchemaFile lower text = .malformed) :
    step lower tl (.schemaFile text) = ⟨[], tl.nextId⟩ := by
  simp only [step, h]

/-- C9, evaluation.  Importing a one-row file into the mounted timeline
yields one record; importing the same file again empties the timeline: the
row is checked against the records rendered before the import and rejected
as a duplicate of the record that the clear has just removed. -/
theorem reimport_empties_timeline :
    (run asciiLower
        [.schemaFile "TagName,StartTime,EndTime,Modifiers\nSPIN,0.05,0.06,".toList]).annotations =
        [⟨0, 5, some 6, "SPIN".toList, [], []⟩] ∧
      (run asciiLower
        [.schemaFile "TagName,StartTime,EndTime,Modifiers\nSPIN,0.05,0.06,".toList,
          .schemaFile "TagName,StartTime,EndTime,Modifiers\nSPIN,0.05,0.06,".toList]).annotations =
        [] := by
  decide!

/-- C10, evaluation.  The file has no `EndTime` column and is rejected as
malformed; the timeline, which held one record, is empty afterwards. -/
theorem malformed_import_clears_timeline :
    VideoPlayer.handleSchemaFile asciiLower
        "TagName,StartTime,Modifiers\nSPIN,0.05,LEFT".toList = .malformed ∧
      (run asciiLower
        [.add ⟨.num 1, .num 2, some "JUKE".toList, none, none⟩]).annotations =
        [⟨0, 1, some 2, "JUKE".toList, [], []⟩] ∧
      (run asciiLower
        [.add ⟨.num 1, .num 2, some "JUKE".toList, none, none⟩,
          .schemaFile "TagName,StartTime,Modifiers\nSPIN,0.05,LEFT".toList]).annotations = [] := by
  decide!

/-! ### Rows of an imported file -/

theorem parseCSVLoop_ne_nil :
    ∀ (line cur : Str) (inQ : Bool) (out : List Str),
      VideoPlayer.parseCSVLoop line cur inQ out ≠ [] := by
  intro line cur inQ out
  induction line, cur, inQ, out using VideoPlayer.parseCSVLoop.induct with
  | case1 cur x out => simp [VideoPlayer.parseCSVLoop]
  | case2 cur inQ out => simp [VideoPlayer.parseCSVLoop]
  | case3 ch cur inQ out h1 h2 =>
    simp only [VideoPlayer.parseCSVLoop, if_neg h1, if_pos h2]
    simp
  | case4 ch cur inQ out h1 h2 =>
    simp only [VideoPlayer.parseCSVLoop, if_neg h1, if_neg h2]
    simp
  | case5 d rest cur inQ out h ih => rw [VideoPlayer.parseCSVLoop]; simpa [h] using ih
  | case6 d rest cur inQ out h ih => rw [VideoPlayer.parseCSVLoop]; simpa [h] using ih
  | case7 ch d rest cur inQ out h1 h2 ih =>
    rw [VideoPlayer.parseCSVLoop]; simpa [h1, h2] using ih
  | case8 ch d rest cur inQ out h1 h2 ih =>
    rw [VideoPlayer.parseCSVLoop]; simpa [h1, h2] using ih

theorem parseCSVLine_length_ne_zero (line : Str) : (VideoPlayer.parseCSVLine line).length ≠ 0 := by
  unfold VideoPlayer.parseCSVLine
  rw [List.length_map]
  exact fun h => parseCSVLoop_ne_nil line [] false [] (List.length_eq_zero.1 h)

theorem rowDetail_eq (i j k l : ℕ) (line : Str) :
    VideoPlayer.rowDetail i j k l line =
      match VideoPlayer.parseSchemaTime (VideoPlayer.parseCSVLine line)[j]? with
      | none => none
      | some st =>
        if jsTrim (((VideoPlayer.parseCSVLine line)[i]?).getD []) = [] then none
        else some
          { start := .num st,
            end_ := .num ((VideoPlayer.parseSchemaTime (VideoPlayer.parseCSVLine line)[k]?).getD st),
            tag := some (jsTrim (((VideoPlayer.parseCSVLine line)[i]?).getD [])),
            modifier := some (jsTrim (((VideoPlayer.parseCSVLine line)[l]?).getD [])),
            down := none } := by
  unfold VideoPlayer.rowDetail
  simp only [if_neg (parseCSVLine_length_ne_zero line)]

/-- C11. For a file whose header holds the four required columns at the
indices `i`, `j`, `k`, `l`, the dispatched requests are the per-row outcomes of
the data rows, in order (a skipped row does not stop the later ones); a row
yields a request exactly when its trimmed tag is not empty and its start field
decodes, and then the request carries the decoded start, the decoded end or,
when the end does not decode, the start, the trimmed tag and modifier. -/
theorem import_rows (lower : Str → Str) (text first : Str) (rows : List Str) (i j k l : ℕ)
    (hlines : VideoPlayer.splitLines text = first :: rows)
    (hi : ((VideoPlayer.parseCSVLine first).map lower).indexOf? "tagname".toList = some i)
    (hj : ((VideoPlayer.parseCSVLine first).map lower).indexOf? "starttime".toList = some j)
    (hk : ((VideoPlayer.parseCSVLine first).map lower).indexOf? "endtime".toList = some k)
    (hl : ((VideoPlayer.parseCSVLine first).map lower).indexOf? "modifiers".toList = some l) :
    VideoPlayer.handleSchemaFile lower text =
        .dispatched (rows.flatMap fun line => (VideoPlayer.rowDetail i j k l line).toList) ∧
      ∀ (line : Str) (d : Detail),
        VideoPlayer.rowDetail i j k l line = some d ↔
          jsTrim (((VideoPlayer.parseCSVLine line)[i]?).getD []) ≠ [] ∧
            ∃ st, VideoPlayer.parseSchemaTime (VideoPlayer.parseCSVLine line)[j]? = some st ∧
              d =
                { start := .num st,
                  end_ := .num
                    (match VideoPlayer.parseSchemaTime (VideoPlayer.parseCSVLine line)[k]? with
                      | some e => e
                      | none => st),
                  tag := some (jsTrim (((VideoPlayer.parseCSVLine line)[i]?).getD [])),
                  modifier := some (jsTrim (((VideoPlayer.parseCSVLine line)[l]?).getD [])),
                  down := none } := by
  constructor
  · unfold VideoPlayer.handleSchemaFile
    rw [hlines]
    simp only [hi, hj, hk, hl]
    congr 1
    clear hlines
    induction rows with
    | nil => rfl
    | cons r rs ih =>
      rw [List.filterMap_cons, List.flatMap_cons, ih]
      cases VideoPlayer.rowDetail i j k l r <;> rfl
  · intro line d
    rw [rowDetail_eq]
    cases hst : VideoPlayer.parseSchemaTime (VideoPlayer.parseCSVLine line)[j]? with
    | none => simp
    | some st =>
      by_cases htag : jsTrim (((VideoPlayer.parseCSVLine line)[i]?).getD []) = []
      · simp [htag]
      · simp only [htag, if_false, Option.some.injEq, ne_eq, not_false_eq_true, true_and,
          exists_eq_left']
        cases VideoPlayer.parseSchemaTime (VideoPlayer.parseCSVLine line)[k]? <;>
          exact eq_comm

/-- C11, witness: a file of four data rows.  The row without tag and the row
whose start does not decode are skipped, the rows after them are processed,
and the row whose end does not decode ends at its start. -/
theorem import_rows_witness :
    VideoPlayer.handleSchemaFile asciiLower
        "TagName,StartTime,EndTime,Modifiers\nSPIN,0.05,0.06,\n,0.07,0.08,\nJUKE,x,0.09,L\nTACKLE,0.10,x,R".toList =
      .dispatched
        [⟨.num 5, .num 6, some "SPIN".toList, some [], none⟩,
          ⟨.num 10, .num 10, some "TACKLE".toList, some "R".toList, none⟩] :=
  (import_rows asciiLower
    "TagName,StartTime,EndTime,Modifiers\nSPIN,0.05,0.06,\n,0.07,0.08,\nJUKE,x,0.09,L\nTACKLE,0.10,x,R".toList
    "TagName,StartTime,EndTime,Modifiers".toList
    ["SPIN,0.05,0.06,".toList, ",0.07,0.08,".toList, "JUKE,x,0.09,L".toList,
      "TACKLE,0.10,x,R".toList]
    0 1 2 3 (by decide!) (by decide!) (by decide!) (by decide!) (by decide!)).1.trans
    (by decide!)

/-! ### The decoder of time fields -/

theorem splitOn_point (mStr sStr : Str) (hm : '.' ∉ mStr) (hs : '.' ∉ sStr)
    (s : Str)
    (h : s = mStr ++ '.' :: sStr ∨ ∃ rest, s = mStr ++ '.' :: (sStr ++ '.' :: rest)) :
    ∃ tl, s.splitOn '.' = mStr :: sStr :: tl := by
  have hm' : ∀ x ∈ mStr, ¬ (x == '.') = true := by
    intro x hx hc; rw [beq_iff_eq] at hc; exact hm (hc ▸ hx)
  have hs' : ∀ x ∈ sStr, ¬ (x == '.') = true := by
    intro x hx hc; rw [beq_iff_eq] at hc; exact hs (hc ▸ hx)
  rcases h with rfl | ⟨rest, rfl⟩
  · refine ⟨[], ?_⟩
    unfold List.splitOn
    rw [List.splitOnP_first _ _ hm' '.' (by simp), List.splitOnP_eq_single _ _ hs']
  · refine ⟨rest.splitOn '.', ?_⟩
    unfold List.splitOn
    rw [List.splitOnP_first _ _ hm' '.' (by simp), List.splitOnP_first _ _ hs' '.' (by simp)]

theorem exists_point_split (s : Str) (h : '.' ∈ s) :
    ∃ mStr sStr, '.' ∉ mStr ∧ '.' ∉ sStr ∧
      (s = mStr ++ '.' :: sStr ∨ ∃ rest, s = mStr ++ '.' :: (sStr ++ '.' :: rest)) := by
  have key : ∀ t : Str, '.' ∉ t.takeWhile (fun c => !(c == '.')) ∧
      (t.dropWhile (fun c => !(c == '.')) = [] ∨
        ∃ r, t.dropWhile (fun c => !(c == '.')) = '.' :: r) := by
    intro t
    constructor
    · intro hc
      have := List.mem_takeWhile_imp hc
      simp at this
    · cases hd : t.dropWhile (fun c => !(c == '.')) with
      | nil => exact Or.inl rfl
      | cons a r =>
        right
        have hne : t.dropWhile (fun c => !(c == '.')) ≠ [] := by rw [hd]; simp
        have := List.head_dropWhile_not (fun c => !(c == '.')) t hne
        simp only [hd, List.head_cons, Bool.not_eq_false', beq_iff_eq] at this
        exact ⟨r, by rw [this]⟩
  obtain ⟨h1, h2⟩ := key s
  have hs : s = s.takeWhile (fun c => !(c == '.')) ++ s.dropWhile (fun c => !(c == '.')) :=
    (List.takeWhile_append_dropWhile _ s).symm
  rcases h2 with h2 | ⟨t, h2⟩
  · rw [h2, List.append_nil] at hs
    rw [hs] at h
    exact absurd h h1
  · obtain ⟨h3, h4⟩ := key t
    have ht : t = t.takeWhile (fun c => !(c == '.')) ++ t.dropWhile (fun c => !(c == '.')) :=
      (List.takeWhile_append_dropWhile _ t).symm
    refine ⟨_, _, h1, h3, ?_⟩
    rcases h4 with h4 | ⟨r, h4⟩
    · left
      rw [h4, List.append_nil] at ht
      rw [← ht, ← h2]
      exact hs
    · right
      refine ⟨r, ?_⟩
      rw [← h4, ← ht, ← h2]
      exact hs

/-- C12. For every input whose trimmed text `s` holds a point, `s` splits at
its first point into a minutes text and, up to the next point or the end, a
seconds text; with `Number` of the two texts as minutes and seconds, the
result is `minutes * 60 + seconds` when both are finite numbers and the
seconds lie in `[0, 59]`, and `null` in every other case. -/
theorem parseSchemaTime_point_form (raw : Str) (h : '.' ∈ jsTrim raw) :
    ∃ mStr sStr : Str, '.' ∉ mStr ∧ '.' ∉ sStr ∧
      (jsTrim raw = mStr ++ '.' :: sStr ∨
        ∃ rest, jsTrim raw = mStr ++ '.' :: (sStr ++ '.' :: rest)) ∧
      VideoPlayer.parseSchemaTime (some raw) =
        match VideoPlayer.jsNumber mStr, VideoPlayer.jsNumber sStr with
        | some minutes, some seconds =>
          if 0 ≤ seconds ∧ seconds ≤ 59 then some (minutes * 60 + seconds) else none
        | _, _ => none := by
  obtain ⟨mStr, sStr, hm, hs, hsplit⟩ := exists_point_split _ h
  obtain ⟨tl, htl⟩ := splitOn_point mStr sStr hm hs _ hsplit
  refine ⟨mStr, sStr, hm, hs, hsplit, ?_⟩
  have hne : jsTrim raw ≠ [] := by
    intro hc; rw [hc] at h; simp at h
  have hcont : (jsTrim raw).contains '.' = true := by simpa using h
  unfold VideoPlayer.parseSchemaTime
  simp only [if_neg hne, hcont, if_true, htl]
  cases VideoPlayer.jsNumber mStr with
  | none => rfl
  | some minutes =>
    cases VideoPlayer.jsNumber sStr with
    | none => rfl
    | some seconds =>
      simp only
      by_cases hc : seconds < 0 ∨ seconds > 59
      · rw [if_pos hc, if_neg]
        rintro ⟨h1, h2⟩
        rcases hc with hc | hc <;> linarith
      · rw [if_neg hc, if_pos]
        simp only [not_or, not_lt] at hc
        exact ⟨hc.1, hc.2⟩

/-- C12, witness: the text ` 2.05 ` is two minutes and five seconds. -/
theorem parseSchemaTime_point_form_witness :
    ('.' ∈ jsTrim " 2.05 ".toList ∧ VideoPlayer.parseSchemaTime (some " 2.05 ".toList) = some 125) ∧
      ∃ mStr sStr : Str, '.' ∉ mStr ∧ '.' ∉ sStr ∧
        (jsTrim " 2.05 ".toList = mStr ++ '.' :: sStr ∨
          ∃ rest, jsTrim " 2.05 ".toList = mStr ++ '.' :: (sStr ++ '.' :: rest)) ∧
        VideoPlayer.parseSchemaTime (some " 2.05 ".toList) =
          match VideoPlayer.jsNumber mStr, VideoPlayer.jsNumber sStr with
          | some minutes, some seconds =>
            if 0 ≤ seconds ∧ seconds ≤ 59 then some (minutes * 60 + seconds) else none
          | _, _ => none :=
  ⟨by decide!, parseSchemaTime_point_form " 2.05 ".toList (by decide!)⟩

/-- C12, counterexample.  In the text `x.05` the seconds component is `5`,
within `[0, 59]`, and the result is `null`: the minutes part is not a number. -/
theorem parseSchemaTime_point_not_a_number :
    '.' ∈ jsTrim "x.05".toList ∧ VideoPlayer.jsNumber "05".toList = some 5 ∧
      VideoPlayer.jsNumber "x".toList = none ∧
      VideoPlayer.parseSchemaTime (some "x.05".toList) = none := by
  decide!

theorem jsRem_natCast (n : ℕ) : VideoPlayer.jsRem (n : ℚ) 100 = ((n % 100 : ℕ) : ℚ) := by
  unfold VideoPlayer.jsRem
  have h0 : ¬ ((n : ℚ) / 100 < 0) := by
    have : (0 : ℚ) ≤ (n : ℚ) / 100 := by positivity
    linarith
  have hfl : ⌊(n : ℚ) / 100⌋ = ((n / 100 : ℕ) : ℤ) := by
    have := Rat.floor_intCast_div_natCast (n : ℤ) 100
    simpa using this
  simp only [if_neg h0, hfl, Int.cast_natCast]
  have := Nat.div_add_mod n 100
  have h2 : (n : ℚ) = 100 * ((n / 100 : ℕ) : ℚ) + ((n % 100 : ℕ) : ℚ) := by exact_mod_cast this.symm
  linarith

theorem floor_natCast_div (n : ℕ) : ⌊(n : ℚ) / 100⌋ = ((n / 100 : ℕ) : ℤ) := by
  have := Rat.floor_intCast_div_natCast (n : ℤ) 100
  simpa using this

theorem parseSchemaTime_no_point (raw : Str) (h : '.' ∉ jsTrim raw) :
    VideoPlayer.parseSchemaTime (some raw) =
      if jsTrim raw = [] then none
      else if (jsTrim raw).all VideoPlayer.isDecimalDigit = true then
        if (jsTrim raw).length = 2 then
          some ((VideoPlayer.decimalValue (jsTrim raw) % 100 : ℕ) : ℚ)
        else if (jsTrim raw).length = 3 then
          if VideoPlayer.decimalValue (jsTrim raw) % 100 > 59 then none
          else some (((VideoPlayer.decimalValue (jsTrim raw) / 100 : ℕ) : ℚ) * 60 +
            ((VideoPlayer.decimalValue (jsTrim raw) % 100 : ℕ) : ℚ))
        else some ((VideoPlayer.decimalValue (jsTrim raw) : ℚ) * 60)
      else none := by
  have hcont : (jsTrim raw).contains '.' = false := by
    simpa using h
  unfold VideoPlayer.parseSchemaTime
  simp only
  by_cases hne : jsTrim raw = []
  · simp [hne]
  · rw [if_neg hne, if_neg hne]
    simp only [hcont, Bool.false_eq_true, if_false]
    by_cases hd : (jsTrim raw).all VideoPlayer.isDecimalDigit = true
    · have hd' : ∀ c ∈ jsTrim raw, VideoPlayer.isDecimalDigit c = true := List.all_eq_true.1 hd
      simp only [hd, and_true, if_true, jsNumber_digits _ hne hd', jsRem_natCast,
        floor_natCast_div]
      by_cases h2 : (jsTrim raw).length = 2
      · simp [h2]
      · by_cases h3 : (jsTrim raw).length = 3
        · have hgt : (((VideoPlayer.decimalValue (jsTrim raw) % 100 : ℕ) : ℚ) > 59) ↔
              VideoPlayer.decimalValue (jsTrim raw) % 100 > 59 := by
            constructor
            · intro hh; exact_mod_cast hh
            · intro hh; exact_mod_cast hh
          rw [if_pos (Or.inr h3), if_neg h2, if_neg h2, if_pos h3]
          simp only [hgt, Int.cast_natCast]
        · rw [if_neg (by tauto), if_neg h2, if_neg h3]
    · simp [hd]

theorem decimalValue_pair {a b : Char} (ha : VideoPlayer.isDecimalDigit a = true)
    (hb : VideoPlayer.isDecimalDigit b = true) :
    VideoPlayer.decimalValue [a, b] < 100 := by
  rw [isDecimalDigit_iff] at ha hb
  simp only [VideoPlayer.decimalValue, List.foldl_cons, List.foldl_nil]
  omega

theorem decimalValue_triple {m a b : Char} (hm : VideoPlayer.isDecimalDigit m = true)
    (ha : VideoPlayer.isDecimalDigit a = true) (hb : VideoPlayer.isDecimalDigit b = true) :
    VideoPlayer.decimalValue [m, a, b] / 100 = VideoPlayer.decimalValue [m] ∧
      VideoPlayer.decimalValue [m, a, b] % 100 = VideoPlayer.decimalValue [a, b] := by
  rw [isDecimalDigit_iff] at hm ha hb
  simp only [VideoPlayer.decimalValue, List.foldl_cons, List.foldl_nil]
  omega

/-- C13. For every input whose trimmed text `s` holds no point: (i) two
digits decode to their value in seconds; (ii) three digits `m a b` decode to
`m * 60 + ab` when `ab ≤ 59` and to `null` when `ab > 59`; (iii) one digit, or
four or more digits, decode to sixty times their value; (iv) the empty text
and every text with a character that is not a digit decode to `null`. -/
theorem parseSchemaTime_bare_forms (raw : Str) (h : '.' ∉ jsTrim raw) :
    (∀ a b : Char, VideoPlayer.isDecimalDigit a = true → VideoPlayer.isDecimalDigit b = true →
        jsTrim raw = [a, b] →
        VideoPlayer.parseSchemaTime (some raw) = some (VideoPlayer.decimalValue [a, b] : ℚ)) ∧
      (∀ m a b : Char, VideoPlayer.isDecimalDigit m = true →
        VideoPlayer.isDecimalDigit a = true → VideoPlayer.isDecimalDigit b = true →
        jsTrim raw = [m, a, b] →
        VideoPlayer.parseSchemaTime (some raw) =
          if VideoPlayer.decimalValue [a, b] ≤ 59 then
            some ((VideoPlayer.decimalValue [m] : ℚ) * 60 + VideoPlayer.decimalValue [a, b])
          else none) ∧
      ((∀ c ∈ jsTrim raw, VideoPlayer.isDecimalDigit c = true) →
        (jsTrim raw).length = 1 ∨ 4 ≤ (jsTrim raw).length →
        VideoPlayer.parseSchemaTime (some raw) =
          some ((VideoPlayer.decimalValue (jsTrim raw) : ℚ) * 60)) ∧
      (jsTrim raw = [] ∨ (∃ c ∈ jsTrim raw, VideoPlayer.isDecimalDigit c = false) →
        VideoPlayer.parseSchemaTime (some raw) = none) := by
  have key := parseSchemaTime_no_point raw h
  refine ⟨?_, ?_, ?_, ?_⟩
  · intro a b ha hb hs
    rw [key, hs]
    have hlt := decimalValue_pair ha hb
    simp [ha, hb, Nat.mod_eq_of_lt hlt]
  · intro m a b hm ha hb hs
    rw [key, hs]
    obtain ⟨h1, h2⟩ := decimalValue_triple hm ha hb
    simp only [h1, h2]
    by_cases h59 : VideoPlayer.decimalValue [a, b] ≤ 59
    · simp [hm, ha, hb, h59, not_lt.2 h59]
    · simp [hm, ha, hb, h59, not_le.1 h59]
  · intro hd hlen
    rw [key]
    have hne : jsTrim raw ≠ [] := by
      intro hc; rw [hc] at hlen; simp at hlen
    have hall : (jsTrim raw).all VideoPlayer.isDecimalDigit = true := List.all_eq_true.2 hd
    have h2 : (jsTrim raw).length ≠ 2 := by omega
    have h3 : (jsTrim raw).length ≠ 3 := by omega
    simp [hne, hall, h2, h3]
  · rintro (he | ⟨c, hc, hcd⟩)
    · rw [key, if_pos he]
    · rw [key]
      have hne : jsTrim raw ≠ [] := List.ne_nil_of_mem hc
      have hall : ¬ (jsTrim raw).all VideoPlayer.isDecimalDigit = true := by
        intro hall
        have := List.all_eq_true.1 hall c hc
        rw [hcd] at this
        exact Bool.false_ne_true this
      rw [if_neg hne, if_neg hall]

/-- C13, witness: the text `130` is one minute and thirty seconds, `75` is
seventy-five seconds, `175` is invalid, `7` is seven minutes, `1234` is 1234
minutes and `1m30` is invalid. -/
theorem parseSchemaTime_bare_forms_witness :
    VideoPlayer.parseSchemaTime (some " 130".toList) = some 90 ∧
      VideoPlayer.parseSchemaTime (some "75".toList) = some 75 ∧
      VideoPlayer.parseSchemaTime (some "175".toList) = none ∧
      VideoPlayer.parseSchemaTime (some "7".toList) = some 420 ∧
      VideoPlayer.parseSchemaTime (some "1234".toList) = some 74040 ∧
      VideoPlayer.parseSchemaTime (some "1m30".toList) = none :=
  ⟨((parseSchemaTime_bare_forms " 130".toList (by decide!)).2.1 '1' '3' '0' (by decide)
      (by decide) (by decide) (by decide!)).trans (by decide!),
    ((parseSchemaTime_bare_forms "75".toList (by decide!)).1 '7' '5' (by decide)
      (by decide) (by decide!)).trans (by decide!),
    ((parseSchemaTime_bare_forms "175".toList (by decide!)).2.1 '1' '7' '5' (by decide)
      (by decide) (by decide) (by decide!)).trans (by decide!),
    ((parseSchemaTime_bare_forms "7".toList (by decide!)).2.2.1 (by decide!)
      (by decide!)).trans (by decide!),
    ((parseSchemaTime_bare_forms "1234".toList (by decide!)).2.2.1 (by decide!)
      (by decide!)).trans (by decide!),
    (parseSchemaTime_bare_forms "1m30".toList (by decide!)).2.2.2 (by decide!)⟩

/-! ### The exported time -/

theorem toDigitsCore_head :
    ∀ (fuel n : ℕ) (acc : List Char), n < fuel → 0 < n →
      ∃ c ds, Nat.toDigitsCore 10 fuel n acc = c :: ds ∧ c ≠ '0' := by
  intro fuel
  induction fuel with
  | zero => intro n acc h; omega
  | succ fuel ih =>
    intro n acc h hpos
    by_cases h0 : n / 10 = 0
    · refine ⟨Nat.digitChar (n % 10), acc, by simp [Nat.toDigitsCore, h0], ?_⟩
      have hlt : n < 10 := by omega
      interval_cases n <;> decide
    · obtain ⟨c, ds, h1, h2⟩ := ih (n / 10) (Nat.digitChar (n % 10) :: acc) (by omega) (by omega)
      exact ⟨c, ds, by simp [Nat.toDigitsCore, h0, h1], h2⟩

theorem natToStr_head (n : ℕ) (h : (natToStr n).head? = some '0') : natToStr n = ['0'] := by
  by_cases hn : n = 0
  · subst hn; rfl
  · obtain ⟨c, ds, h1, h2⟩ := toDigitsCore_head (n + 1) n [] (Nat.lt_succ_self n) (by omega)
    have : natToStr n = c :: ds := by simp [natToStr, Nat.toDigits, h1]
    rw [this] at h
    simp only [List.head?_cons, Option.some.injEq] at h
    exact absurd h h2

theorem padStart2_length (n : ℕ) (h : n < 60) : (padStart2 (natToStr n)).length = 2 := by
  obtain ⟨_, _, _, h4, h5⟩ := natToStr_spec n
  by_cases hn : n < 10
  · simp [padStart2, h4 hn]
  · simp [padStart2, h5 (by omega) (by omega)]

/-- C15. For every finite time `k ≥ 0`, `fmtMdotS(k)` is a minutes text, a
point and a seconds text: the minutes text is the decimal numeral of
`⌊k⌋ / 60` without padding (digits only, no leading zero unless it is `0`),
the seconds text is `⌊k⌋ mod 60` on exactly two digits; for an input that is
not a finite number the result is `0.00`. -/
theorem fmtMdotS_format :
    (∀ k : ℚ, 0 ≤ k →
      ∃ ms ss : Str, AnnotationTimeline.fmtMdotS (.num k) = ms ++ '.' :: ss ∧
        ms ≠ [] ∧ (∀ c ∈ ms, VideoPlayer.isDecimalDigit c = true) ∧
        (ms.head? = some '0' → ms = ['0']) ∧
        VideoPlayer.decimalValue ms = ⌊k⌋₊ / 60 ∧
        ss.length = 2 ∧ (∀ c ∈ ss, VideoPlayer.isDecimalDigit c = true) ∧
        VideoPlayer.decimalValue ss = ⌊k⌋₊ % 60) ∧
      ∀ v : JSValue, isFiniteGlobal v = false →
        AnnotationTimeline.fmtMdotS v = "0.00".toList := by
  constructor
  · intro k hk
    have hfl : ⌊k⌋ = ((⌊k⌋₊ : ℕ) : ℤ) := (Int.natCast_floor_eq_floor hk).symm
    have hm := natToStr_spec (⌊k⌋₊ / 60)
    have hs := padStart2_spec (⌊k⌋₊ % 60) (Nat.mod_lt _ (by norm_num))
    exact ⟨_, _, fmtMdotS_of_floor k _ hfl, hm.1, hm.2.1, natToStr_head _, hm.2.2.1,
      padStart2_length _ (Nat.mod_lt _ (by norm_num)), hs.2.1, hs.2.2⟩
  · intro v hv
    cases v <;> first | rfl | (simp [isFiniteGlobal] at hv)

/-- C15, witness: 125.7 seconds are written `2.05` and 59 seconds `0.59`. -/
theorem fmtMdotS_format_witness :
    AnnotationTimeline.fmtMdotS (.num (1257 / 10)) = "2.05".toList ∧
      AnnotationTimeline.fmtMdotS (.num 59) = "0.59".toList ∧
      AnnotationTimeline.fmtMdotS .nonFinite = "0.00".toList ∧
      ∃ ms ss : Str, AnnotationTimeline.fmtMdotS (.num (1257 / 10)) = ms ++ '.' :: ss ∧
        ms ≠ [] ∧ (∀ c ∈ ms, VideoPlayer.isDecimalDigit c = true) ∧
        (ms.head? = some '0' → ms = ['0']) ∧
        VideoPlayer.decimalValue ms = ⌊(1257 / 10 : ℚ)⌋₊ / 60 ∧
        ss.length = 2 ∧ (∀ c ∈ ss, VideoPlayer.isDecimalDigit c = true) ∧
        VideoPlayer.decimalValue ss = ⌊(1257 / 10 : ℚ)⌋₊ % 60 :=
  ⟨by decide!, by decide!, fmtMdotS_format.2 .nonFinite rfl,
    fmtMdotS_format.1 (1257 / 10) (by norm_num)⟩

/-! ### The export format -/

theorem intercalate_lines (h : Str) (g : Ann → Str) (rows : List Ann) :
    [lf].intercalate (h :: rows.map g) = h ++ rows.flatMap fun r => lf :: g r := by
  induction rows generalizing h with
  | nil => simp [List.intercalate, List.intersperse]
  | cons r rs ih =>
    rw [List.map_cons, intercalate_cons_cons, ih, List.flatMap_cons]
    simp

theorem flatMap_doubleQuotes (f : Str) :
    (f.flatMap fun c => if c = dq then [dq, dq] else [c]) = doubleQuotes f := by
  induction f with
  | nil => rfl
  | cons c rest ih =>
    rw [List.flatMap_cons, ih, doubleQuotes]
    by_cases h : c = dq <;> simp [h]

theorem esc_any_iff (f : Str) :
    (f.any fun c => c == dq || c == ',' || c == lf) = true ↔ NeedsQuotes f := by
  simp only [List.any_eq_true, Bool.or_eq_true, beq_iff_eq, NeedsQuotes]
  constructor
  · rintro ⟨c, hc, (rfl | rfl) | rfl⟩
    · exact Or.inr (Or.inl hc)
    · exact Or.inl hc
    · exact Or.inr (Or.inr hc)
  · rintro (h | h | h)
    · exact ⟨_, h, Or.inl (Or.inr rfl)⟩
    · exact ⟨_, h, Or.inl (Or.inl rfl)⟩
    · exact ⟨_, h, Or.inr rfl⟩

theorem length_doubleQuotes (f : Str) : f.length ≤ (doubleQuotes f).length := by
  induction f with
  | nil => simp [doubleQuotes]
  | cons c rest ih =>
    rw [doubleQuotes]
    by_cases h : c = dq
    · simp only [if_pos h, List.length_cons]; omega
    · simp only [if_neg h, List.length_cons]; omega

/-- C14. For every list of records, `toCSV` is the header line
`TagName,StartTime,EndTime,Modifiers,Down` followed, for each record in list
order, by a line feed and the line of the record: its tag, its formatted
start, its formatted end (empty without end), its modifier and its down,
escaped and separated by commas.  A field is wrapped in double quotes, each
of its double quotes doubled, exactly when it holds a comma, a double quote
or a line feed; otherwise it is written as it is. -/
theorem toCSV_format (rows : List Ann) :
    AnnotationTimeline.toCSV rows =
        "TagName,StartTime,EndTime,Modifiers,Down".toList ++
          rows.flatMap (fun r => lf :: exportedLine r) ∧
      ∀ f : Str,
        (NeedsQuotes f → AnnotationTimeline.esc f = dq :: (doubleQuotes f ++ [dq])) ∧
          (¬ NeedsQuotes f → AnnotationTimeline.esc f = f) ∧
          (AnnotationTimeline.esc f = f ↔ ¬ NeedsQuotes f) := by
  constructor
  · unfold AnnotationTimeline.toCSV
    rw [intercalate_lines]
    congr 1
    congr 1
    funext r
    simp [AnnotationTimeline.rowFields, exportedLine, List.intercalate, List.intersperse]
  · intro f
    have h1 : NeedsQuotes f → AnnotationTimeline.esc f = dq :: (doubleQuotes f ++ [dq]) := by
      intro h
      unfold AnnotationTimeline.esc
      rw [if_pos ((esc_any_iff f).2 h), flatMap_doubleQuotes]
      rfl
    have h2 : ¬ NeedsQuotes f → AnnotationTimeline.esc f = f := by
      intro h
      unfold AnnotationTimeline.esc
      rw [if_neg (fun hc => h ((esc_any_iff f).1 hc))]
    refine ⟨h1, h2, ?_, h2⟩
    intro he hn
    have := congrArg List.length ((h1 hn).symm.trans he)
    have hl := length_doubleQuotes f
    simp only [List.length_cons, List.length_append, List.length_nil] at this
    omega

/-! ### The conflict predicate -/

theorem EPS_eq : VideoPlayer.EPS = 1 / 60 := by
  unfold VideoPlayer.EPS FPS; norm_num

theorem conflict_eq_true_iff (annSnapshot : List Ann) (t : ℚ) :
    VideoPlayer.conflict annSnapshot t = true ↔
      ∃ a ∈ annSnapshot,
        (a.lo < VideoPlayer.frameKey t ∧ VideoPlayer.frameKey t < a.hi) ∨
          |VideoPlayer.frameKey t - a.lo| ≤ 1 / 60 ∨ |VideoPlayer.frameKey t - a.hi| ≤ 1 / 60 := by
  unfold VideoPlayer.conflict
  simp only [List.any_eq_true, EPS_eq]
  constructor
  · rintro ⟨a, ha, h⟩
    refine ⟨a, ha, ?_⟩
    by_cases hin : VideoPlayer.frameKey t > min a.startKey (a.endKey.getD a.startKey) ∧
        VideoPlayer.frameKey t < max a.startKey (a.endKey.getD a.startKey)
    · exact Or.inl hin
    · rw [if_neg hin] at h
      simp only [Bool.or_eq_true, decide_eq_true_eq] at h
      exact Or.inr h
  · rintro ⟨a, ha, h⟩
    refine ⟨a, ha, ?_⟩
    by_cases hin : VideoPlayer.frameKey t > min a.startKey (a.endKey.getD a.startKey) ∧
        VideoPlayer.frameKey t < max a.startKey (a.endKey.getD a.startKey)
    · rw [if_pos hin]
    · rw [if_neg hin]
      simp only [Bool.or_eq_true, decide_eq_true_eq]
      rcases h with h | h
      · exact absurd h hin
      · exact h

theorem swapEnds_bounds (a : Ann) : (swapEnds a).lo = a.lo ∧ (swapEnds a).hi = a.hi := by
  unfold swapEnds Ann.lo Ann.hi
  cases h : a.endKey with
  | none => simp [h]
  | some e => simp [min_comm, max_comm]

/-- C16. For every snapshot and candidate start `t`, with `k = frameKey(t)`,
the conflict is true exactly when some record, with `lo` and `hi` the `min`
and `max` of its start and its end (or start), has `lo < k < hi`, or
`|k - lo| ≤ 1/60`, or `|k - hi| ≤ 1/60`; exchanging start and end of any of
the records leaves the result as it is; against one record from `2` to `4`,
the candidate `3` conflicts and the candidate `5` does not. -/
theorem conflict_spec :
    (∀ (annSnapshot : List Ann) (t : ℚ),
      VideoPlayer.conflict annSnapshot t = true ↔
        ∃ a ∈ annSnapshot,
          (a.lo < VideoPlayer.frameKey t ∧ VideoPlayer.frameKey t < a.hi) ∨
            |VideoPlayer.frameKey t - a.lo| ≤ 1 / 60 ∨
            |VideoPlayer.frameKey t - a.hi| ≤ 1 / 60) ∧
      (∀ (annSnapshot swapped : List Ann) (t : ℚ),
        List.Forall₂ (fun a b => b = a ∨ b = swapEnds a) annSnapshot swapped →
        VideoPlayer.conflict swapped t = VideoPlayer.conflict annSnapshot t) ∧
      (∀ (id : ℕ) (tagName modifier down : Str),
        VideoPlayer.conflict [⟨id, 2, some 4, tagName, modifier, down⟩] 3 = true ∧
          VideoPlayer.conflict [⟨id, 2, some 4, tagName, modifier, down⟩] 5 = false) := by
  refine ⟨conflict_eq_true_iff, ?_, ?_⟩
  · intro l l' t h
    rw [Bool.eq_iff_iff, conflict_eq_true_iff, conflict_eq_true_iff]
    induction h with
    | nil => simp
    | cons hab _ ih =>
      rename_i a b l l' _
      have hb : b.lo = a.lo ∧ b.hi = a.hi := by
        rcases hab with rfl | rfl
        · exact ⟨rfl, rfl⟩
        · exact swapEnds_bounds a
      simp only [List.mem_cons, exists_eq_or_imp, hb.1, hb.2, ih]
  · intro id tagName modifier down
    constructor
    · rw [conflict_eq_true_iff]
      refine ⟨_, List.mem_singleton_self _, Or.inl ?_⟩
      simp only [Ann.lo, Ann.hi, Option.getD_some]
      constructor <;> decide!
    · rw [← Bool.not_eq_true, conflict_eq_true_iff]
      rintro ⟨a, ha, h⟩
      rw [List.mem_singleton] at ha
      subst ha
      simp only [Ann.lo, Ann.hi, Option.getD_some] at h
      revert h
      decide!

/-- C16, witness: a record stored from `4` to `2` and the same record from
`2` to `4` conflict with the same candidates. -/
theorem conflict_spec_witness :
    VideoPlayer.conflict [⟨0, 4, some 2, "SPIN".toList, [], []⟩] 3 =
      VideoPlayer.conflict [⟨0, 2, some 4, "SPIN".toList, [], []⟩] 3 :=
  conflict_spec.2.1 [⟨0, 2, some 4, "SPIN".toList, [], []⟩]
    [⟨0, 4, some 2, "SPIN".toList, [], []⟩] 3
    (List.Forall₂.cons (Or.inr rfl) List.Forall₂.nil)

/-! ### The derived count -/

theorem foldl_top (post : List VideoPlayer.Candidate) :
    ∀ (pre : List VideoPlayer.Candidate) (b : VideoPlayer.Candidate)
      (mid : List VideoPlayer.Candidate),
      (∀ p ∈ pre, p.score < b.score) → (∀ p ∈ mid, p.score ≤ b.score) →
      IsTopCarrier (pre ++ b :: (mid ++ post))
        (post.foldl (fun best c => if c.score > best.score then c else best) b) := by
  induction post with
  | nil =>
    intro pre b mid hpre hmid
    exact ⟨pre, mid, by simp, hpre, hmid⟩
  | cons x xs ih =>
    intro pre b mid hpre hmid
    rw [List.foldl_cons]
    by_cases hx : x.score > b.score
    · rw [if_pos hx]
      have := ih (pre ++ b :: mid) x [] (by
        intro p hp
        rcases List.mem_append.1 hp with hp | hp
        · exact lt_trans (hpre p hp) hx
        · rcases List.mem_cons.1 hp with rfl | hp
          · exact hx
          · exact lt_of_le_of_lt (hmid p hp) hx) (by simp)
      simpa using this
    · rw [if_neg hx]
      have := ih pre b (mid ++ [x]) hpre (by
        intro p hp
        rcases List.mem_append.1 hp with hp | hp
        · exact hmid p hp
        · rw [List.mem_singleton] at hp
          subst hp
          exact not_lt.1 hx)
      simpa using this

theorem isTopCarrier_pickCarrier (first : VideoPlayer.Candidate)
    (rest : List VideoPlayer.Candidate) :
    IsTopCarrier (first :: rest) (VideoPlayer.pickCarrier first (first :: rest)) := by
  unfold VideoPlayer.pickCarrier
  rw [List.foldl_cons, if_neg (lt_irrefl _)]
  simpa using foldl_top rest [] first [] (by simp) (by simp)

theorem isTopCarrier_unique {carriers : List VideoPlayer.Candidate}
    {c c' : VideoPlayer.Candidate} (h : IsTopCarrier carriers c) (h' : IsTopCarrier carriers c') :
    c = c' := by
  obtain ⟨pre, post, e, hpre, hpost⟩ := h
  obtain ⟨pre', post', e', hpre', hpost'⟩ := h'
  rw [e] at e'
  rcases List.append_eq_append_iff.1 e' with ⟨m, h1, h2⟩ | ⟨m, h1, h2⟩
  · cases m with
    | nil =>
      simp only [List.nil_append] at h2
      exact (List.cons.inj h2).1
    | cons x m =>
      simp only [List.cons_append, List.cons.injEq] at h2
      obtain ⟨rfl, h2⟩ := h2
      have hc' : c' ∈ post := by rw [h2]; simp
      have hc : c ∈ pre' := by rw [h1]; simp
      exact absurd (hpost c' hc') (not_le.2 (hpre' c hc))
  · cases m with
    | nil =>
      simp only [List.nil_append] at h2
      exact (List.cons.inj h2).1.symm
    | cons x m =>
      simp only [List.cons_append, List.cons.injEq] at h2
      obtain ⟨rfl, h2⟩ := h2
      have hc : c ∈ post' := by rw [h2]; simp
      have hc' : c' ∈ pre := by rw [h1]; simp
      exact absurd (hpost' c hc) (not_le.2 (hpre c' hc'))

/-- C17. For every list of detections, with `carriers` and `defenders` the
candidates whose label is in the carrier and the defender label set:
without carrier the count is `0`; with one, there is a carrier of highest
score, earliest among equals, and for it the count is the number of
defenders whose vertical centre is strictly less than its own.  One carrier
with centre `100` and two defenders with centres `50` and `150` give `1`. -/
theorem countDefendersInFront_spec :
    (∀ detections : List VideoPlayer.Detection,
      ((detections.map VideoPlayer.toCandidate).filter
          (fun c => VideoPlayer.BALL_CARRIER_LABELS.contains c.label) = [] →
        VideoPlayer.countDefendersInFront detections = 0) ∧
      ((detections.map VideoPlayer.toCandidate).filter
          (fun c => VideoPlayer.BALL_CARRIER_LABELS.contains c.label) ≠ [] →
        ∃ carrier, IsTopCarrier ((detections.map VideoPlayer.toCandidate).filter
          fun c => VideoPlayer.BALL_CARRIER_LABELS.contains c.label) carrier) ∧
      ∀ carrier, IsTopCarrier ((detections.map VideoPlayer.toCandidate).filter
          fun c => VideoPlayer.BALL_CARRIER_LABELS.contains c.label) carrier →
        VideoPlayer.countDefendersInFront detections =
          (((detections.map VideoPlayer.toCandidate).filter
            fun c => VideoPlayer.DEFENDER_LABELS.contains c.label).filter
            fun d => decide (d.bb.originY + d.bb.height / 2 <
              carrier.bb.originY + carrier.bb.height / 2)).length) ∧
      VideoPlayer.countDefendersInFront
        [⟨[⟨some "BALL_CARRIER".toList, some (9 / 10), .num 0⟩], ⟨90, 20⟩⟩,
          ⟨[⟨some "DEFENDER".toList, some (8 / 10), .num 1⟩], ⟨40, 20⟩⟩,
          ⟨[⟨some "DEFENDER".toList, some (7 / 10), .num 1⟩], ⟨140, 20⟩⟩] = 1 := by
  refine ⟨fun detections => ?_, by decide!⟩
  unfold VideoPlayer.countDefendersInFront
  simp only
  cases hc : (detections.map VideoPlayer.toCandidate).filter
      (fun c => VideoPlayer.BALL_CARRIER_LABELS.contains c.label) with
  | nil =>
    refine ⟨fun _ => rfl, fun h => absurd rfl h, ?_⟩
    rintro carrier ⟨pre, post, e, _⟩
    exact absurd e (by simp)
  | cons first rest =>
    refine ⟨fun h => absurd h (by simp), fun _ => ⟨_, isTopCarrier_pickCarrier first rest⟩, ?_⟩
    intro carrier h
    rw [isTopCarrier_unique h (isTopCarrier_pickCarrier first rest)]
    rfl

/-- C17, witness: of two carriers with equal score the first one counts, and
a missing score is `0`. -/
theorem countDefendersInFront_spec_witness :
    VideoPlayer.countDefendersInFront
        [⟨[⟨some "carrier".toList, some (1 / 2), .num 0⟩], ⟨90, 20⟩⟩,
          ⟨[⟨some "carrier".toList, some (1 / 2), .num 0⟩], ⟨0, 20⟩⟩,
          ⟨[⟨some "defender".toList, none, .num 1⟩], ⟨40, 20⟩⟩] =
        (((([⟨[⟨some "carrier".toList, some (1 / 2), .num 0⟩], ⟨90, 20⟩⟩,
          ⟨[⟨some "carrier".toList, some (1 / 2), .num 0⟩], ⟨0, 20⟩⟩,
          ⟨[⟨some "defender".toList, none, .num 1⟩], ⟨40, 20⟩⟩] :
            List VideoPlayer.Detection).map VideoPlayer.toCandidate).filter
          fun c => VideoPlayer.DEFENDER_LABELS.contains c.label).filter
          fun d => decide (d.bb.originY + d.bb.height / 2 < (90 : ℚ) + 20 / 2)).length :=
  (countDefendersInFront_spec.1 _).2.2 ⟨"carrier".toList, 1 / 2, ⟨90, 20⟩⟩
    ⟨[], [⟨"carrier".toList, 1 / 2, ⟨0, 20⟩⟩], by decide!, by simp, by
      intro p hp
      rw [List.mem_singleton] at hp
      subst hp
      exact le_refl _⟩

/-! ### Roles -/

theorem jsTrim_nil : jsTrim [] = [] := rfl

theorem roleOfLabel_carrier (l : Str) :
    roleOfLabel l = some .carrier ↔ VideoPlayer.BALL_CARRIER_LABELS.contains l = true := by
  unfold roleOfLabel
  by_cases h1 : VideoPlayer.BALL_CARRIER_LABELS.contains l = true
  · rw [if_pos h1]
    exact ⟨fun _ => h1, fun _ => rfl⟩
  · rw [if_neg h1]
    constructor
    · intro h
      by_cases h2 : VideoPlayer.DEFENDER_LABELS.contains l = true
      · rw [if_pos h2] at h; cases h
      · rw [if_neg h2] at h
        by_cases h3 : VideoPlayer.ATTACKER_LABELS.contains l = true
        · rw [if_pos h3] at h; cases h
        · rw [if_neg h3] at h; cases h
    · intro h; exact absurd h h1

theorem labels_disjoint (l : Str) (h : VideoPlayer.DEFENDER_LABELS.contains l = true) :
    ¬ VideoPlayer.BALL_CARRIER_LABELS.contains l = true := by
  simp only [VideoPlayer.DEFENDER_LABELS, List.contains_eq_any_beq, List.any_cons, List.any_nil,
    Bool.or_false, Bool.or_eq_true, beq_iff_eq] at h
  rcases h with h | h <;> subst h <;> decide

theorem roleOfLabel_defender (l : Str) :
    roleOfLabel l = some .defender ↔ VideoPlayer.DEFENDER_LABELS.contains l = true := by
  unfold roleOfLabel
  by_cases h2 : VideoPlayer.DEFENDER_LABELS.contains l = true
  · rw [if_neg (labels_disjoint l h2), if_pos h2]
    exact ⟨fun _ => h2, fun _ => rfl⟩
  · constructor
    · intro h
      by_cases h1 : VideoPlayer.BALL_CARRIER_LABELS.contains l = true
      · rw [if_pos h1] at h; cases h
      · rw [if_neg h1, if_neg h2] at h
        by_cases h3 : VideoPlayer.ATTACKER_LABELS.contains l = true
        · rw [if_pos h3] at h; cases h
        · rw [if_neg h3] at h; cases h
    · intro h; exact absurd h h2

theorem roleOfLabel_labelOf (det : VideoPlayer.Detection) :
    roleOfLabel (VideoPlayer.labelOf det) = specifiedRole det := by
  unfold VideoPlayer.labelOf specifiedRole
  simp only
  by_cases ht : jsTrim ((det.categories.head?.bind fun c => c.categoryName).getD []) = []
  · rw [if_neg (fun h => h.2 ht), if_neg (not_not.2 ht)]
    cases hidx : (det.categories.head?.map fun c => c.index) with
    | none => rfl
    | some v =>
      cases v with
      | num idx =>
        simp only [VideoPlayer.FALLBACK_BY_INDEX]
        by_cases h0 : idx = 0
        · simp only [h0, if_true]; decide
        · by_cases h1 : idx = 1
          · simp only [h1, if_true]; decide
          · by_cases h2 : idx = 2
            · simp only [h2, if_true]; decide
            · simp only [if_neg h0, if_neg h1, if_neg h2]; decide
      | _ => rfl
  · have hne : (det.categories.head?.bind fun c => c.categoryName).getD [] ≠ [] := by
      intro hc; rw [hc] at ht; exact ht rfl
    rw [if_pos ⟨hne, ht⟩, if_pos ht]

/-- C18. For every detection, the role read off its label is the specified
one: the trimmed name of the first category decides by exact membership in
the carrier, defender or attacker label set; a name that is absent, empty or
blank leaves the decision to the class index (`0` carrier, `1` defender, `2`
attacker); all else has no role.  The detection is counted as a carrier
exactly when its role is carrier and as a defender exactly when its role is
defender, so a detection without role is counted as neither. -/
theorem role_classification (det : VideoPlayer.Detection) :
    roleOfLabel (VideoPlayer.labelOf det) = specifiedRole det ∧
      (VideoPlayer.BALL_CARRIER_LABELS.contains (VideoPlayer.toCandidate det).label = true ↔
        specifiedRole det = some .carrier) ∧
      (VideoPlayer.DEFENDER_LABELS.contains (VideoPlayer.toCandidate det).label = true ↔
        specifiedRole det = some .defender) ∧
      (specifiedRole det = none →
        VideoPlayer.BALL_CARRIER_LABELS.contains (VideoPlayer.toCandidate det).label = false ∧
          VideoPlayer.DEFENDER_LABELS.contains (VideoPlayer.toCandidate det).label = false) := by
  have h := roleOfLabel_labelOf det
  have hc : VideoPlayer.BALL_CARRIER_LABELS.contains (VideoPlayer.toCandidate det).label = true ↔
      specifiedRole det = some .carrier := by
    rw [← h]; exact (roleOfLabel_carrier _).symm
  have hd : VideoPlayer.DEFENDER_LABELS.contains (VideoPlayer.toCandidate det).label = true ↔
      specifiedRole det = some .defender := by
    rw [← h]; exact (roleOfLabel_defender _).symm
  refine ⟨h, hc, hd, fun hn => ⟨?_, ?_⟩⟩
  · rw [← Bool.not_eq_true, hc, hn]; simp
  · rw [← Bool.not_eq_true, hd, hn]; simp

/-! ### The analysis run -/

theorem analysisLoop_abort {Frame : Type} (env : VideoPlayer.AnalysisEnv Frame) (row : Ann)
    (post : List Ann) (hfail : FailsAt env row) :
    ∀ (pre : List Ann) (results : VideoPlayer.Results) (sampled : List ℚ) (detected : List Frame),
      (VideoPlayer.analysisLoop env (pre ++ row :: post) results sampled detected).1 = none ∧
        (∃ s, (VideoPlayer.analysisLoop env (pre ++ row :: post) results sampled detected).2.1 =
            sampled ++ s ∧ s <+: (pre ++ [row]).map fun a => a.startKey) ∧
        ∃ d, (VideoPlayer.analysisLoop env (pre ++ row :: post) results sampled detected).2.2 =
            detected ++ d ∧
          d <+: (pre ++ [row]).filterMap fun a => env.grabCanvasAt a.startKey := by
  intro pre
  induction pre with
  | nil =>
    intro results sampled detected
    rw [List.nil_append]
    unfold VideoPlayer.analysisLoop
    rcases hfail with h | ⟨canvas, h, hd⟩
    · simp only [h]
      exact ⟨trivial, ⟨[row.startKey], rfl, by simp⟩, ⟨[], by simp, by simp⟩⟩
    · simp only [h, hd]
      exact ⟨trivial, ⟨[row.startKey], rfl, by simp⟩, ⟨[canvas], rfl, by simp [h]⟩⟩
  | cons p pre ih =>
    intro results sampled detected
    rw [List.cons_append]
    unfold VideoPlayer.analysisLoop
    cases hg : env.grabCanvasAt p.startKey with
    | none =>
      simp only
      exact ⟨trivial, ⟨[p.startKey], rfl, by simp⟩, ⟨[], by simp, by simp⟩⟩
    | some canvas =>
      simp only
      cases hd : env.detect canvas with
      | none =>
        simp only
        exact ⟨trivial, ⟨[p.startKey], rfl, by simp⟩, ⟨[canvas], rfl, by simp [hg]⟩⟩
      | some dets =>
        simp only
        cases hp : VideoPlayer.pushCount results p.tagName
            (VideoPlayer.countDefendersInFront dets) with
        | none =>
          simp only
          exact ⟨trivial, ⟨[p.startKey], rfl, by simp⟩, ⟨[canvas], rfl, by simp [hg]⟩⟩
        | some results' =>
          simp only
          obtain ⟨h1, ⟨s, hs, hs'⟩, ⟨d, hd1, hd'⟩⟩ :=
            ih results' (sampled ++ [p.startKey]) (detected ++ [canvas])
          refine ⟨h1, ⟨p.startKey :: s, ?_, ?_⟩, ⟨canvas :: d, ?_, ?_⟩⟩
          · rw [hs]; simp
          · simpa using hs'
          · rw [hd1]; simp
          · simpa [hg] using hd'

/-- C20. When sampling or detection fails for a record of the eligible rows,
`runAnalysis` (guard passed, runtime and detector ready) samples no time and
detects no frame of any later record: the sampled times are a beginning of
the start keys up to that record and the detected frames a beginning of the
frames of those times; `onAnalysisComplete` is not called and `analyzing`
ends `false`. -/
theorem runAnalysis_abort {Frame : Type} (env : VideoPlayer.AnalysisEnv Frame)
    (annSnapshot pre post : List Ann) (row : Ann)
    (hready : env.tfReady = true ∧ env.ensureDetector = true)
    (hrows : (annSnapshot.filter fun a => isFiniteGlobal (.num a.startKey)) = pre ++ row :: post)
    (hfail : FailsAt env row) :
    (VideoPlayer.runAnalysis env false true false annSnapshot).published = none ∧
      (VideoPlayer.runAnalysis env false true false annSnapshot).analyzing = false ∧
      (VideoPlayer.runAnalysis env false true false annSnapshot).sampled <+:
        ((pre ++ [row]).map fun a => a.startKey) ∧
      (VideoPlayer.runAnalysis env false true false annSnapshot).detected <+:
        ((pre ++ [row]).filterMap fun a => env.grabCanvasAt a.startKey) := by
  obtain ⟨h1, ⟨s, hs, hs'⟩, ⟨d, hd, hd'⟩⟩ := analysisLoop_abort env row post hfail pre [] [] []
  unfold VideoPlayer.runAnalysis
  simp only [hready.1, hready.2, hrows]
  rw [if_neg (by simp), if_neg (by simp), if_neg (by simp)]
  rcases hloop : VideoPlayer.analysisLoop env (pre ++ row :: post) [] [] [] with ⟨r, s', d'⟩
  rw [hloop] at h1 hs hd
  simp only at h1 hs hd
  subst h1
  simp only [List.nil_append] at hs hd
  subst hs hd
  exact ⟨rfl, rfl, hs', hd'⟩

/-- C20, witness: three records; the frame of the second cannot be sampled,
and the third is neither sampled nor detected. -/
theorem runAnalysis_abort_witness :
    (VideoPlayer.runAnalysis
        (⟨true, true, fun t => if t = 2 then none else some t, fun _ => some []⟩ :
          VideoPlayer.AnalysisEnv ℚ) false true false
        [⟨0, 1, none, "SPIN".toList, [], []⟩, ⟨1, 2, none, "JUKE".toList, [], []⟩,
          ⟨2, 3, none, "SPIN".toList, [], []⟩]).sampled <+: [1, 2] ∧
      (VideoPlayer.runAnalysis
        (⟨true, true, fun t => if t = 2 then none else some t, fun _ => some []⟩ :
          VideoPlayer.AnalysisEnv ℚ) false true false
        [⟨0, 1, none, "SPIN".toList, [], []⟩, ⟨1, 2, none, "JUKE".toList, [], []⟩,
          ⟨2, 3, none, "SPIN".toList, [], []⟩]).published = none :=
  have h := runAnalysis_abort
    (⟨true, true, fun t => if t = 2 then none else some t, fun _ => some []⟩ :
      VideoPlayer.AnalysisEnv ℚ)
    [⟨0, 1, none, "SPIN".toList, [], []⟩, ⟨1, 2, none, "JUKE".toList, [], []⟩,
      ⟨2, 3, none, "SPIN".toList, [], []⟩]
    [⟨0, 1, none, "SPIN".toList, [], []⟩] [⟨2, 3, none, "SPIN".toList, [], []⟩]
    ⟨1, 2, none, "JUKE".toList, [], []⟩ ⟨rfl, rfl⟩ (by decide!) (Or.inl (by decide!))
  ⟨h.2.2.1, h.1⟩

/-- C19, failing input.  The snapshot holds one record with the tag
`constructor`; sampling and detection succeed.  The lookup
`results["constructor"]` finds the inherited property, no array is created,
`push` is not a function: the run ends in the `catch` block after one sample
and one detection, and nothing is published. -/
theorem analysis_fails_on_inherited_name :
    (VideoPlayer.runAnalysis
        (⟨true, true, fun t => some t, fun _ => some []⟩ : VideoPlayer.AnalysisEnv ℚ)
        false true false [⟨0, 1, none, "constructor".toList, [], []⟩]).published = none ∧
      (VideoPlayer.runAnalysis
        (⟨true, true, fun t => some t, fun _ => some []⟩ : VideoPlayer.AnalysisEnv ℚ)
        false true false [⟨0, 1, none, "constructor".toList, [], []⟩]).sampled = [1] ∧
      (VideoPlayer.runAnalysis
        (⟨true, true, fun t => some t, fun _ => some []⟩ : VideoPlayer.AnalysisEnv ℚ)
        false true false [⟨0, 1, none, "constructor".toList, [], []⟩]).detected = [1] ∧
      (VideoPlayer.runAnalysis
        (⟨true, true, fun t => some t, fun _ => some []⟩ : VideoPlayer.AnalysisEnv ℚ)
        false true false [⟨0, 1, none, "constructor".toList, [], []⟩]).analyzeMsg =
        "Analysis failed (see console).".toList := by
  decide!

/-- C21 as amended.  When no record of the snapshot has a finite `startKey`,
`runAnalysis` does not call `onAnalysisComplete`, samples no frame and
invokes the detector on none; past its entry guard it ends with `analyzing`
`false`, and with the runtime and the detector ready its message is
`No annotated windows found.`. -/
theorem runAnalysis_no_rows {Frame : Type} (env : VideoPlayer.AnalysisEnv Frame)
    (isYT schemaLoaded analyzing : Bool) (annSnapshot : List Ann)
    (h : (annSnapshot.filter fun a => isFiniteGlobal (.num a.startKey)) = []) :
    (VideoPlayer.runAnalysis env isYT schemaLoaded analyzing annSnapshot).published = none ∧
      (VideoPlayer.runAnalysis env isYT schemaLoaded analyzing annSnapshot).sampled = [] ∧
      (VideoPlayer.runAnalysis env isYT schemaLoaded analyzing annSnapshot).detected = [] ∧
      ((isYT || !schemaLoaded || analyzing) = false →
        (VideoPlayer.runAnalysis env isYT schemaLoaded analyzing annSnapshot).analyzing = false ∧
          (env.tfReady = true → env.ensureDetector = true →
            (VideoPlayer.runAnalysis env isYT schemaLoaded analyzing annSnapshot).analyzeMsg =
              "No annotated windows found.".toList)) := by
  unfold VideoPlayer.runAnalysis
  simp only [h, List.length_nil, if_true]
  by_cases hg : (isYT || !schemaLoaded || analyzing) = true
  · rw [if_pos hg]
    refine ⟨rfl, rfl, rfl, fun hc => ?_⟩
    rw [hg] at hc
    exact absurd hc (by simp)
  · rw [if_neg hg]
    by_cases hr : (!env.tfReady || !env.ensureDetector) = true
    · rw [if_pos hr]
      refine ⟨rfl, rfl, rfl, fun _ => ⟨rfl, fun h1 h2 => ?_⟩⟩
      rw [h1, h2] at hr
      exact absurd hr (by simp)
    · rw [if_neg hr]
      exact ⟨rfl, rfl, rfl, fun _ => ⟨rfl, fun _ _ => rfl⟩⟩

/-- C21, witness: the empty snapshot. -/
theorem runAnalysis_no_rows_witness :
    (VideoPlayer.runAnalysis
        (⟨true, true, fun t => some t, fun _ => some []⟩ : VideoPlayer.AnalysisEnv ℚ)
        false true false []).detected = [] ∧
      (VideoPlayer.runAnalysis
        (⟨true, true, fun t => some t, fun _ => some []⟩ : VideoPlayer.AnalysisEnv ℚ)
        false true false []).analyzeMsg = "No annotated windows found.".toList :=
  have h := runAnalysis_no_rows
    (⟨true, true, fun t => some t, fun _ => some []⟩ : VideoPlayer.AnalysisEnv ℚ)
    false true false [] rfl
  ⟨h.2.2.1, (h.2.2.2 rfl).2 rfl rfl⟩

/-- C21, counterexample.  On the empty snapshot, with schema loaded, runtime
and detector ready, `onAnalysisComplete` is not called: no mapping is
published, the empty one included. -/
theorem runAnalysis_publishes_nothing_on_empty :
    (VideoPlayer.runAnalysis
        (⟨true, true, fun t => some t, fun _ => some []⟩ : VideoPlayer.AnalysisEnv ℚ)
        false true false []).published = none ∧
      (VideoPlayer.runAnalysis
        (⟨true, true, fun t => some t, fun _ => some []⟩ : VideoPlayer.AnalysisEnv ℚ)
        false true false []).published ≠ some [] := by
  decide!

/-- C22, failing input.  The timeline holds one record with the modifier
`a`, line feed, `b`.  Its export has three lines for `handleSchemaFile`, which
splits at line feeds before it reads quotes; the import yields one record
whose modifier is `a`. -/
theorem import_splits_quoted_line_feed :
    AnnotationTimeline.toCSV [⟨0, 5, none, "SPIN".toList, "a\nb".toList, []⟩] =
        "TagName,StartTime,EndTime,Modifiers,Down\nSPIN,0.05,,\"a\nb\",".toList ∧
      VideoPlayer.splitLines
          (AnnotationTimeline.toCSV [⟨0, 5, none, "SPIN".toList, "a\nb".toList, []⟩]) =
        ["TagName,StartTime,EndTime,Modifiers,Down".toList, "SPIN,0.05,,\"a".toList,
          "b\",".toList] ∧
      (step asciiLower Timeline.initial (.schemaFile
          (AnnotationTimeline.toCSV
            [⟨0, 5, none, "SPIN".toList, "a\nb".toList, []⟩]))).annotations.map
        (fun a => (a.tagName, a.modifier)) = [("SPIN".toList, "a".toList)] := by
  decide!

/-- C23, failing input.  For the empty text, and for a text of line breaks
only, no line is left after `filter(Boolean)`: `parseCSVLine(lines[0])` reads
`length` of `undefined` and throws. -/
theorem import_throws_on_empty_text :
    VideoPlayer.handleSchemaFile asciiLower [] = .threw ∧
      VideoPlayer.handleSchemaFile asciiLower [lf, cr, lf, cr] = .threw := by
  decide!

/-- C24, failing input.  The player is at `12.5` seconds and `s` is pressed
on the empty timeline.  The timeline of `App` receives no `currentTime`, its
parameter is the default `0`: the record `SPIN` is created at `startKey` `0`,
not at `frameKey(12.5) = 12.5`. -/
theorem quick_add_ignores_playback_time :
    (appKeydown asciiLower Timeline.initial (25 / 2) "s".toList).annotations =
        [⟨0, 0, none, "SPIN".toList, [], []⟩] ∧
      VideoPlayer.frameKey (25 / 2) = 25 / 2 ∧
      ∀ a ∈ (appKeydown asciiLower Timeline.initial (25 / 2) "s".toList).annotations,
        a.startKey ≠ VideoPlayer.frameKey (25 / 2) := by
  decide!

/-! ### Derived properties -/

theorem parseSchemaTime_jsTrim (x : Str) :
    VideoPlayer.parseSchemaTime (some (jsTrim x)) = VideoPlayer.parseSchemaTime (some x) := by
  unfold VideoPlayer.parseSchemaTime
  simp only [jsTrim_idempotent]

/-- C25. For every finite time `k ≥ 0`, decoding the exported time is valid
and yields `⌊k⌋`; hence it yields `k` itself exactly when `k` is a whole
number of seconds. -/
theorem time_roundtrip (k : ℚ) (h : 0 ≤ k) :
    VideoPlayer.parseSchemaTime (some (AnnotationTimeline.fmtMdotS (.num k))) =
        some ((⌊k⌋ : ℤ) : ℚ) ∧
      (VideoPlayer.parseSchemaTime (some (AnnotationTimeline.fmtMdotS (.num k))) = some k ↔
        ∃ n : ℤ, k = n) := by
  have h1 : VideoPlayer.parseSchemaTime (some (AnnotationTimeline.fmtMdotS (.num k))) =
      some ((⌊k⌋ : ℤ) : ℚ) := by
    rw [← parseSchemaTime_jsTrim]
    exact parseSchemaTime_fmtMdotS h
  refine ⟨h1, ?_⟩
  rw [h1, Option.some.injEq]
  constructor
  · intro hk; exact ⟨⌊k⌋, hk.symm⟩
  · rintro ⟨n, rfl⟩
    rw [Int.floor_intCast]

/-- C25, witness: the frame key `61/30` is exported as `0.02` and decoded as
`2`; the frame key `75` is exported as `1.15` and decoded as `75`. -/
theorem time_roundtrip_witness :
    VideoPlayer.parseSchemaTime (some (AnnotationTimeline.fmtMdotS (.num (61 / 30)))) =
        some 2 ∧
      VideoPlayer.parseSchemaTime (some (AnnotationTimeline.fmtMdotS (.num 75))) = some 75 :=
  ⟨((time_roundtrip (61 / 30) (by norm_num)).1).trans (by decide!),
    (time_roundtrip 75 (by norm_num)).2.2 ⟨75, by norm_num⟩⟩

theorem frameKey_multiple (t : ℚ) : ∃ m : ℤ, VideoPlayer.frameKey t = m / 30 :=
  ⟨mathRound (t * FPS), by unfold VideoPlayer.frameKey FPS; rfl⟩

theorem near_multiple_iff (m p : ℤ) :
    |(m : ℚ) / 30 - (p : ℚ) / 30| ≤ 1 / 60 ↔ (m : ℚ) / 30 = (p : ℚ) / 30 := by
  constructor
  · intro h
    rw [abs_le] at h
    have h1 : ((2 * (m - p) : ℤ) : ℚ) ≤ ((1 : ℤ) : ℚ) := by push_cast; linarith [h.2]
    have h2 : ((-1 : ℤ) : ℚ) ≤ ((2 * (m - p) : ℤ) : ℚ) := by push_cast; linarith [h.1]
    have h1' : 2 * (m - p) ≤ 1 := by exact_mod_cast h1
    have h2' : -1 ≤ 2 * (m - p) := by exact_mod_cast h2
    have : m = p := by omega
    rw [this]
  · intro h
    rw [h, sub_self, abs_zero]
    norm_num

/-- C26. Against one record whose start key and end key are integer
multiples of `1/30`, the conflict test of a candidate start `t` is true
exactly when `frameKey(t)` lies in the closed interval from the lesser to the
greater of the two keys (an absent end counting as the start). -/
theorem conflict_on_frames (a : Ann) (t : ℚ) (hs : Quantized a.startKey)
    (he : ∀ e ∈ a.endKey, Quantized e) :
    VideoPlayer.conflict [a] t = true ↔
      min a.startKey (a.endKey.getD a.startKey) ≤ VideoPlayer.frameKey t ∧
        VideoPlayer.frameKey t ≤ max a.startKey (a.endKey.getD a.startKey) := by
  rw [conflict_eq_true_iff]
  simp only [List.mem_singleton, exists_eq_left, Ann.lo, Ann.hi]
  have hq : Quantized (a.endKey.getD a.startKey) := by
    cases h : a.endKey with
    | none => exact hs
    | some e => exact he e (by rw [h]; rfl)
  obtain ⟨m, hm⟩ := frameKey_multiple t
  obtain ⟨p, hp⟩ := (quantized_iff _).1 hs
  obtain ⟨q, hq⟩ := (quantized_iff _).1 hq
  have hlo : ∃ n : ℤ, min a.startKey (a.endKey.getD a.startKey) = n / 30 := by
    rcases le_total a.startKey (a.endKey.getD a.startKey) with h | h
    · exact ⟨p, by rw [min_eq_left h, hp]⟩
    · exact ⟨q, by rw [min_eq_right h, hq]⟩
  have hhi : ∃ n : ℤ, max a.startKey (a.endKey.getD a.startKey) = n / 30 := by
    rcases le_total a.startKey (a.endKey.getD a.startKey) with h | h
    · exact ⟨q, by rw [max_eq_right h, hq]⟩
    · exact ⟨p, by rw [max_eq_left h, hp]⟩
  obtain ⟨lo, hlo⟩ := hlo
  obtain ⟨hi, hhi⟩ := hhi
  have hle : (lo : ℚ) / 30 ≤ hi / 30 := by
    rw [← hlo, ← hhi]; exact min_le_max
  rw [hm, hlo, hhi, near_multiple_iff, near_multiple_iff]
  constructor
  · rintro (⟨h1, h2⟩ | h | h)
    · exact ⟨le_of_lt h1, le_of_lt h2⟩
    · rw [h]; exact ⟨le_refl _, hle⟩
    · rw [h]; exact ⟨hle, le_refl _⟩
  · rintro ⟨h1, h2⟩
    rcases eq_or_lt_of_le h1 with h | h
    · exact Or.inr (Or.inl h.symm)
    · rcases eq_or_lt_of_le h2 with h' | h'
      · exact Or.inr (Or.inr h')
      · exact Or.inl ⟨h, h'⟩

/-- C26, witness: a record from `2` to `4`; the candidate `4.01` has the
frame key `4` and conflicts. -/
theorem conflict_on_frames_witness :
    VideoPlayer.conflict [⟨0, 2, some 4, "SPIN".toList, [], []⟩] (401 / 100) = true :=
  (conflict_on_frames ⟨0, 2, some 4, "SPIN".toList, [], []⟩ (401 / 100)
    (by unfold Quantized; decide!)
    (by
      intro e he
      rw [Option.mem_def, Option.some.injEq] at he
      subst he
      unfold Quantized
      decide!)).2 (by decide!)

theorem frameKey_num (t : ℚ) :
    AnnotationTimeline.frameKey (.num t) = VideoPlayer.frameKey t := rfl

theorem no_record_at_frame {annSnapshot : List Ann} {t : ℚ}
    (h : VideoPlayer.conflict annSnapshot t = false) :
    ∀ a ∈ annSnapshot, a.startKey ≠ VideoPlayer.frameKey t := by
  intro a ha heq
  have hc : VideoPlayer.conflict annSnapshot t = true := by
    rw [conflict_eq_true_iff]
    refine ⟨a, ha, ?_⟩
    have h1 : a.lo ≤ VideoPlayer.frameKey t := by rw [← heq]; exact min_le_left _ _
    have h2 : VideoPlayer.frameKey t ≤ a.hi := by rw [← heq]; exact le_max_left _ _
    rcases eq_or_lt_of_le h1 with h | h
    · right; left
      rw [h, sub_self, abs_zero]; norm_num
    · rcases eq_or_lt_of_le h2 with h' | h'
      · right; right
        rw [h', sub_self, abs_zero]; norm_num
      · exact Or.inl ⟨h, h'⟩
  rw [h] at hc
  exact Bool.false_ne_true hc

/-- C27. When the conflict predicate of the player is false for the records
of the timeline and the candidate start `t`, no record has
`startKey = frameKey(t)`; an add request with start `t` and any tag is then
not rejected, and inserts exactly one record, at `frameKey(t)` with the
trimmed tag. -/
theorem add_after_no_conflict (lower : Str → Str) (tl : Timeline) (d : Detail) (t : ℚ)
    (hstart : d.start = .num t) (hc : VideoPlayer.conflict tl.annotations t = false) :
    (∀ a ∈ tl.annotations, a.startKey ≠ VideoPlayer.frameKey t) ∧
      (step lower tl (.add d)).annotations.length = tl.annotations.length + 1 ∧
      ∃ a : Ann, a.id = tl.nextId ∧ a.startKey = VideoPlayer.frameKey t ∧
        a.tagName = jsTrim (d.tag.getD []) ∧
        (step lower tl (.add d)).annotations.Perm (a :: tl.annotations) := by
  have hno := no_record_at_frame hc
  refine ⟨hno, ?_⟩
  cases hh : AnnotationTimeline.addAnnotationHandler lower tl.annotations tl.nextId d with
  | none =>
    have := (addAnnotationHandler_eq_none_iff lower tl.annotations tl.nextId d t hstart).1 hh
    obtain ⟨a, ha, hk, -⟩ := (hasTagAtStart_iff _ _ _ _).1 this.2
    exact absurd hk (hno a ha)
  | some a =>
    obtain ⟨h1, h2, -, h4, -⟩ := addAnnotationHandler_some hh
    have hperm : (step lower tl (.add d)).annotations.Perm (a :: tl.annotations) := by
      rw [step_add, hh]
      exact perm_insertSorted a tl.annotations
    exact ⟨by rw [hperm.length_eq]; rfl, a, h1, by rw [h2, hstart]; rfl, h4, hperm⟩

/-- C27, witness: a record from `2` to `4`; the candidate start `5` does not
conflict and the request for a second `SPIN` is inserted. -/
theorem add_after_no_conflict_witness :
    (step asciiLower ⟨[⟨0, 2, some 4, "SPIN".toList, [], []⟩], 1⟩
        (.add ⟨.num 5, .undefined, some "SPIN".toList, none, none⟩)).annotations.length = 2 :=
  (add_after_no_conflict asciiLower ⟨[⟨0, 2, some 4, "SPIN".toList, [], []⟩], 1⟩
    ⟨.num 5, .undefined, some "SPIN".toList, none, none⟩ 5 rfl (by decide!)).2.1

/-- C28. For every non-empty list of fields without leading or trailing
white space, `parseCSVLine` of the fields escaped by `esc` and joined with
commas is the list itself. -/
theorem csv_line_roundtrip (f : Str) (fs : List Str) (h : ∀ g ∈ f :: fs, jsTrim g = g) :
    VideoPlayer.parseCSVLine ([','].intercalate ((f :: fs).map AnnotationTimeline.esc)) =
      f :: fs := by
  rw [parseCSVLine_escaped]
  exact (List.map_congr_left h).trans (List.map_id _)

/-- C28, witness: three fields, one with a comma and one with double quotes. -/
theorem csv_line_roundtrip_witness :
    VideoPlayer.parseCSVLine
        ([','].intercalate
          (["LEFT, hard".toList, "say \"go\"".toList, []].map AnnotationTimeline.esc)) =
      ["LEFT, hard".toList, "say \"go\"".toList, []] :=
  csv_line_roundtrip "LEFT, hard".toList ["say \"go\"".toList, []] (by decide!)

/-! ### Export, import and the listener of the last render -/

theorem dispatchAdds_fresh_tuple (lower : Str → Str) :
    ∀ (ds : List Detail) (prev : List Ann) (n : ℕ), (∀ d ∈ ds, ∃ t, d.start = .num t) →
      ((dispatchAdds lower [] ds prev n).1.map Ann.tuple).Perm
        (prev.map Ann.tuple ++ ds.map fun d =>
          (AnnotationTimeline.frameKey d.start,
            if isFiniteGlobal d.end_ then some (AnnotationTimeline.frameKey d.end_) else none,
            jsTrim (d.tag.getD []), jsTrim (d.modifier.getD []), jsTrim (d.down.getD []))) := by
  intro ds
  induction ds with
  | nil => intro prev n _; simp [dispatchAdds]
  | cons d ds ih =>
    intro prev n h
    obtain ⟨t, ht⟩ := h d (List.mem_cons_self _ _)
    unfold dispatchAdds
    cases hh : AnnotationTimeline.addAnnotationHandler lower [] n d with
    | none =>
      have := (addAnnotationHandler_eq_none_iff lower [] n d t ht).1 hh
      simp [AnnotationTimeline.hasTagAtStart] at this
    | some a =>
      obtain ⟨-, h2, h3, h4, h5, h6, -⟩ := addAnnotationHandler_some hh
      refine (ih _ _ fun d' hd' => h d' (List.mem_cons_of_mem _ hd')).trans ?_
      have hp : ((AnnotationTimeline.insertSorted a prev).map Ann.tuple).Perm
          (prev.map Ann.tuple ++ [Ann.tuple a]) :=
        ((perm_insertSorted a prev).map Ann.tuple).trans
          (by rw [List.map_cons]; exact (List.perm_append_singleton _ _).symm)
      rw [List.map_cons, ← List.singleton_append (l := ds.map _), ← List.append_assoc]
      refine List.Perm.append_right _ ?_
      have ha : Ann.tuple a = (AnnotationTimeline.frameKey d.start,
          if isFiniteGlobal d.end_ then some (AnnotationTimeline.frameKey d.end_) else none,
          jsTrim (d.tag.getD []), jsTrim (d.modifier.getD []), jsTrim (d.down.getD [])) := by
        simp [Ann.tuple, h2, h3, h4, h5, h6]
      rw [← ha]
      exact hp

theorem addAnnotationHandler_fresh (lower : Str → Str) (seen : List Ann) (n : ℕ) (d : Detail)
    (t : ℚ) (hstart : d.start = .num t)
    (h : ∀ a ∈ seen, ¬ (a.startKey = AnnotationTimeline.frameKey (.num t) ∧
      AnnotationTimeline.normalize lower a.tagName =
        AnnotationTimeline.normalize lower (jsTrim (d.tag.getD [])))) :
    AnnotationTimeline.addAnnotationHandler lower seen n d =
      AnnotationTimeline.addAnnotationHandler lower [] n d := by
  obtain ⟨start, end_, tag, modifier, down⟩ := d
  simp only at hstart
  subst hstart
  have h1 : ¬ (jsTrim (tag.getD []) ≠ [] ∧
      AnnotationTimeline.hasTagAtStart lower seen (jsTrim (tag.getD []))
        (AnnotationTimeline.frameKey (.num t)) = true) := by
    rintro ⟨-, hc⟩
    obtain ⟨a, ha, hk⟩ := (hasTagAtStart_iff _ _ _ _).1 hc
    exact h a ha hk
  have h2 : ¬ (jsTrim (tag.getD []) ≠ [] ∧
      AnnotationTimeline.hasTagAtStart lower [] (jsTrim (tag.getD []))
        (AnnotationTimeline.frameKey (.num t)) = true) := by
    rintro ⟨-, hc⟩
    simp [AnnotationTimeline.hasTagAtStart] at hc
  unfold AnnotationTimeline.addAnnotationHandler
  dsimp only
  rw [if_neg h1, if_neg h2]

theorem addEach_eq_dispatchAdds (lower : Str → Str) :
    ∀ (ds : List Detail) (tl : Timeline), (∀ d ∈ ds, ∃ t, d.start = .num t) →
      (∀ d ∈ ds, ∀ a ∈ tl.annotations,
        ¬ (a.startKey = AnnotationTimeline.frameKey d.start ∧
          AnnotationTimeline.normalize lower a.tagName =
            AnnotationTimeline.normalize lower (jsTrim (d.tag.getD [])))) →
      ds.Pairwise (fun d d' => ¬ Collide lower d d') →
      addEach lower tl ds =
        ⟨(dispatchAdds lower [] ds tl.annotations tl.nextId).1,
          (dispatchAdds lower [] ds tl.annotations tl.nextId).2⟩ := by
  intro ds
  induction ds with
  | nil => intro tl _ _ _; rfl
  | cons d ds ih =>
    intro tl hnum hfree hpair
    obtain ⟨t, ht⟩ := hnum d (List.mem_cons_self _ _)
    have hsame := addAnnotationHandler_fresh lower tl.annotations tl.nextId d t ht (by
      intro a ha
      have := hfree d (List.mem_cons_self _ _) a ha
      rwa [ht] at this)
    unfold addEach
    rw [List.foldl_cons, step_add, hsame]
    unfold dispatchAdds
    cases hh : AnnotationTimeline.addAnnotationHandler lower [] tl.nextId d with
    | none =>
      have := (addAnnotationHandler_eq_none_iff lower [] tl.nextId d t ht).1 hh
      simp [AnnotationTimeline.hasTagAtStart] at this
    | some a =>
      obtain ⟨-, h2, -, h4, -⟩ := addAnnotationHandler_some hh
      simp only
      rw [List.pairwise_cons] at hpair
      have := ih ⟨AnnotationTimeline.insertSorted a tl.annotations, tl.nextId + 1⟩
        (fun d' hd' => hnum d' (List.mem_cons_of_mem _ hd'))
        (by
          intro d' hd' b hb
          rcases mem_insertSorted.1 hb with hb | rfl
          · exact hfree d' (List.mem_cons_of_mem _ hd') b hb
          · rintro ⟨hk, hn⟩
            exact hpair.1 d' hd' ⟨by rw [← h2, hk], by rw [← h4, hn]⟩)
        hpair.2
      exact this

theorem exported_rows_distinct (lower : Str → Str) (store : List Ann)
    (h : ∀ r ∈ store, Exportable r) (hd : DistinctRows lower store) :
    (store.map fun r : Ann =>
      ({ start := .num ((⌊r.startKey⌋ : ℤ) : ℚ),
         end_ := .num ((⌊r.endKey.getD r.startKey⌋ : ℤ) : ℚ),
         tag := some r.tagName, modifier := some r.modifier, down := none } : Detail)).Pairwise
      fun d d' => ¬ Collide lower d d' := by
  rw [List.pairwise_map]
  refine List.Pairwise.imp_of_mem ?_ hd
  intro a b ha hb hab hc
  obtain ⟨-, -, -, hta, -, -⟩ := h a ha
  obtain ⟨-, -, -, htb, -, -⟩ := h b hb
  refine hab ⟨?_, ?_⟩
  · have := hc.1
    simp only [frameKey_intCast] at this
    exact_mod_cast this
  · have := hc.2
    simpa [hta, htb] using this

/-- C8 as amended.  For every store of records with non-negative keys, a
non-empty tag, tag and modifier free of surrounding white space, text fields
free of line breaks, and no two records written to rows with the same
whole-second start and normalized tag: exporting with `toCSV` and importing
the text into an empty timeline yields records whose (startKey, endKey,
tagName, modifier) are, as a multiset, those of the store with every time
rounded down to whole seconds and an absent `endKey` replaced by the start;
when every `down` of the store is empty, so are the five-field tuples, `down`
included.  On such a store the imported timeline is the one obtained by
adding the rows one task at a time, each checked against all earlier ones. -/
theorem export_import_roundtrip (lower : Str → Str) (hl : LowersAscii lower) (store : List Ann)
    (n : ℕ) (h : ∀ r ∈ store, Exportable r) (hd : DistinctRows lower store) :
    ((step lower ⟨[], n⟩ (.schemaFile (AnnotationTimeline.toCSV store))).annotations.map
        importedView).Perm (store.map exportedView) ∧
      ((∀ r ∈ store, r.down = []) →
        ((step lower ⟨[], n⟩ (.schemaFile (AnnotationTimeline.toCSV store))).annotations.map
          Ann.tuple).Perm (store.map exportedTuple)) ∧
      ∃ details, VideoPlayer.handleSchemaFile lower (AnnotationTimeline.toCSV store) =
          .dispatched details ∧
        step lower ⟨[], n⟩ (.schemaFile (AnnotationTimeline.toCSV store)) =
          addEach lower ⟨[], n⟩ details := by
  have hnum : ∀ d ∈ (store.map fun r : Ann =>
      ({ start := .num ((⌊r.startKey⌋ : ℤ) : ℚ),
         end_ := .num ((⌊r.endKey.getD r.startKey⌋ : ℤ) : ℚ),
         tag := some r.tagName, modifier := some r.modifier, down := none } : Detail)),
      ∃ t, d.start = .num t := by
    intro d hd
    obtain ⟨r, -, rfl⟩ := List.mem_map.1 hd
    exact ⟨_, rfl⟩
  refine ⟨?_, ?_, _, handleSchemaFile_toCSV lower hl store h, ?_⟩
  · simp only [step, handleSchemaFile_toCSV lower hl store h]
    refine (dispatchAdds_fresh lower _ [] n hnum).trans ?_
    rw [List.map_nil, List.nil_append, List.map_map]
    refine List.Perm.of_eq (List.map_congr_left fun r hr => ?_)
    obtain ⟨-, -, -, htag, hmod, -⟩ := h r hr
    simp [exportedView, isFiniteGlobal, frameKey_intCast, htag, hmod]
  · intro hdown
    simp only [step, handleSchemaFile_toCSV lower hl store h]
    refine (dispatchAdds_fresh_tuple lower _ [] n hnum).trans ?_
    rw [List.map_nil, List.nil_append, List.map_map]
    refine List.Perm.of_eq (List.map_congr_left fun r hr => ?_)
    obtain ⟨-, -, -, htag, hmod, -⟩ := h r hr
    simp only [Function.comp_apply, exportedTuple, isFiniteGlobal, frameKey_intCast, htag, hmod,
      hdown r hr, if_true, Option.getD_some, Option.getD_none]
    rfl
  · rw [addEach_eq_dispatchAdds lower _ ⟨[], n⟩ hnum (by simp)
      (exported_rows_distinct lower store h hd)]
    simp only [step, handleSchemaFile_toCSV lower hl store h]

/-- C8, witness: a store of two records, one without end and with a quoted
modifier, one from `75` to `75.5` seconds. -/
theorem export_import_roundtrip_witness :
    ((step asciiLower ⟨[], 0⟩ (.schemaFile (AnnotationTimeline.toCSV
        [⟨0, 61 / 30, none, "SPIN".toList, "LEFT, hard".toList, []⟩,
          ⟨1, 75, some (151 / 2), "Juke".toList, [], []⟩]))).annotations.map
      Ann.tuple).Perm
      ([⟨0, 61 / 30, none, "SPIN".toList, "LEFT, hard".toList, []⟩,
        ⟨1, 75, some (151 / 2), "Juke".toList, [], []⟩].map exportedTuple) :=
  (export_import_roundtrip asciiLower (fun _ _ => rfl) _ 0
    (by
      intro r hr
      simp only [List.mem_cons, List.mem_singleton, List.not_mem_nil, or_false] at hr
      rcases hr with rfl | rfl <;> unfold Exportable <;> decide!)
    (by unfold DistinctRows; decide!)).2.1
    (by
      intro r hr
      simp only [List.mem_cons, List.mem_singleton, List.not_mem_nil, or_false] at hr
      rcases hr with rfl | rfl <;> rfl)

/-- C8, counterexample.  The timeline holds the record created by the add
request of the dialog from `0.5` to `1.5` seconds: its export reads `0.00`
and `0.01`, and the import of that text yields a record from `0` to `1`.
The timeline holds the record created by pressing `s` at time `0`, which has
no end: its export has an empty `EndTime`, and the imported record ends at
`0`.  In both cases the tuples differ. -/
theorem roundtrip_changes_times :
    ¬ ((step asciiLower Timeline.initial (.schemaFile (AnnotationTimeline.toCSV
          (run asciiLower [.add
            ⟨.num (1 / 2), .num (3 / 2), some "SPIN".toList, some "LEFT".toList,
              some []⟩]).annotations))).annotations.map Ann.tuple).Perm
        ((run asciiLower [.add
            ⟨.num (1 / 2), .num (3 / 2), some "SPIN".toList, some "LEFT".toList,
              some []⟩]).annotations.map Ann.tuple) ∧
      ¬ ((step asciiLower Timeline.initial (.schemaFile (AnnotationTimeline.toCSV
          (run asciiLower [.keydown false "s".toList (.num 0)]).annotations))).annotations.map
            Ann.tuple).Perm
        ((run asciiLower [.keydown false "s".toList (.num 0)]).annotations.map Ann.tuple) := by
  constructor <;> decide!

/-- C1, failing input.  The mounted timeline imports a file whose two data
rows are equal.  Both rows are checked by the listener of the last render,
which sees no record, and both are inserted: the timeline holds two distinct
records with the same `startKey` and the same `tagName`. -/
theorem import_repeated_row_twice :
    (run asciiLower
        [.schemaFile
          "TagName,StartTime,EndTime,Modifiers\nSPIN,0.05,0.06,\nSPIN,0.05,0.06,".toList]
      ).annotations =
        [⟨0, 5, some 6, "SPIN".toList, [], []⟩, ⟨1, 5, some 6, "SPIN".toList, [], []⟩] ∧
      ¬ (run asciiLower
        [.schemaFile
          "TagName,StartTime,EndTime,Modifiers\nSPIN,0.05,0.06,\nSPIN,0.05,0.06,".toList]
      ).annotations.Pairwise fun a b =>
        ¬ (a.startKey = b.startKey ∧
          AnnotationTimeline.normalize asciiLower a.tagName =
            AnnotationTimeline.normalize asciiLower b.tagName) := by
  constructor <;> decide!

/-- C2, failing input.  The mounted timeline imports a file with the rows
`Spin` and ` SPIN `, both at `0.05`.  The first add request inserts `Spin` at
`5`; the second, at the same frame and with a tag that differs in case and
surrounding white space only, is checked by the same listener against the
records of the last render and is inserted too: two records instead of one.
With a render between the two requests the second one is rejected. -/
theorem import_adds_same_tag_twice :
    VideoPlayer.handleSchemaFile asciiLower
        "TagName,StartTime,EndTime,Modifiers\nSpin,0.05,0.06,\n SPIN ,0.05,0.07,".toList =
        .dispatched
          [⟨.num 5, .num 6, some "Spin".toList, some [], none⟩,
            ⟨.num 5, .num 7, some "SPIN".toList, some [], none⟩] ∧
      (run asciiLower
        [.schemaFile
          "TagName,StartTime,EndTime,Modifiers\nSpin,0.05,0.06,\n SPIN ,0.05,0.07,".toList]
      ).annotations =
        [⟨0, 5, some 6, "Spin".toList, [], []⟩, ⟨1, 5, some 7, "SPIN".toList, [], []⟩] ∧
      (run asciiLower
        [.add ⟨.num 5, .num 6, some "Spin".toList, some [], none⟩,
          .add ⟨.num 5, .num 7, some "SPIN".toList, some [], none⟩]).annotations =
        [⟨0, 5, some 6, "Spin".toList, [], []⟩] := by
  decide!

end Analyzer
